import Mathlib

/-!
Formal model of the halma AI core (a Chinese-checkers engine written in Rust).

The development shallowly embeds the engine's data structures and operations:

* `Bitboard` — the 256-bit board set stored as four 64-bit lanes
  (`src/ai/bitboard.rs`), together with the fixed invalid-cell and
  target-triangle masks.
* `InternalGameState` — two piece bitboards, side to move and ply counter
  (`src/ai/internal_game_state.rs`), with win detection, the fixed-point
  jump/slide move generator `reachable_from`, and `move_piece`.
* `GameState` — the external 13×17 tile-array representation
  (`src/lib.rs`), with `moves_from`, the reference worklist move generator.
* The transposition table and its replacement policy (`src/ai/tt.rs`).
* The staged move picker's emission stage (`src/ai/move_picker.rs`).
* The `AI` search driver of `src/ai/mod.rs`: evaluation cache, incremental
  hash, make/unmake, and the negamax search.

Machine integers are modelled as `Nat`/`Int` with explicit reduction
modulo `2^64` (for `u64` lanes) or `% 256` (for `u8` cell indices) exactly
where the Rust semantics wraps.  Fallible operations (Rust panics) are
modelled with `Option`.
-/

/-- Reduction of a natural number to the value range of a Rust `u64`. -/
def u64 (x : Nat) : Nat :=
  x % 2 ^ 64

/-- Bitwise complement of a `u64` (Rust `!x`), as xor with the all-ones word. -/
def u64not (x : Nat) : Nat :=
  x ^^^ (2 ^ 64 - 1)

/-- Left shift of a `u64`.  Rust masks the shift amount to `n % 64` in release
builds (debug builds abort when `n ≥ 64`); the in-range high bits are cut off
by the wrap to 64 bits. -/
def u64shl (x n : Nat) : Nat :=
  u64 (x <<< (n % 64))

/-- Right shift of a `u64`, with the same `n % 64` masking of the shift amount
as `u64shl`. -/
def u64shr (x n : Nat) : Nat :=
  x >>> (n % 64)

/-- The 256-bit bitboard of `src/ai/bitboard.rs`: four 64-bit lanes, lane 0
holding bits 0–63 of the board, lane 3 bits 192–255. -/
structure Bitboard where
  l0 : Nat
  l1 : Nat
  l2 : Nat
  l3 : Nat
deriving DecidableEq, Repr

namespace Bitboard

/-- The all-zero board (`Bitboard::default()`). -/
def default : Bitboard :=
  ⟨0, 0, 0, 0⟩

/-- Wellformedness: every lane is a genuine `u64` value. -/
def Wf (b : Bitboard) : Prop :=
  b.l0 < 2 ^ 64 ∧ b.l1 < 2 ^ 64 ∧ b.l2 < 2 ^ 64 ∧ b.l3 < 2 ^ 64

instance : DecidablePred Wf := fun b => by
  unfold Wf; infer_instance

/-- Lane selection, `self.0[k]` for `k = i >> 6`. -/
def lane (b : Bitboard) (k : Nat) : Nat :=
  match k with
  | 0 => b.l0
  | 1 => b.l1
  | 2 => b.l2
  | _ => b.l3

/-- Replace lane `k`. -/
def setLane (b : Bitboard) (k : Nat) (v : Nat) : Bitboard :=
  match k with
  | 0 => { b with l0 := v }
  | 1 => { b with l1 := v }
  | 2 => { b with l2 := v }
  | _ => { b with l3 := v }

/-- `Bitboard::get_bit`: `self.0[i >> 6] & (1 << (i & 0b00111111)) > 0`. -/
def get_bit (b : Bitboard) (i : Nat) : Bool :=
  (b.lane (i / 64)).testBit (i % 64)

/-- `Bitboard::set_bit`: `self.0[i >> 6] |= 1 << (i & 0b00111111)`. -/
def set_bit (b : Bitboard) (i : Nat) : Bitboard :=
  b.setLane (i / 64) (b.lane (i / 64) ||| (1 <<< (i % 64)))

/-- `Bitboard::unset_bit`: `self.0[i >> 6] &= !(1 << (i & 0b00111111))`. -/
def unset_bit (b : Bitboard) (i : Nat) : Bitboard :=
  b.setLane (i / 64) (b.lane (i / 64) &&& u64not (1 <<< (i % 64)))

/-- `Bitboard::bit`: the board with the single bit `i` set. -/
def bit (i : Nat) : Bitboard :=
  default.set_bit i

/-- `Bitboard::is_empty`. -/
def is_empty (b : Bitboard) : Bool :=
  b.l0 == 0 && b.l1 == 0 && b.l2 == 0 && b.l3 == 0

/-- Lane-wise bitwise and (`impl BitAnd for Bitboard`). -/
def bitand (a b : Bitboard) : Bitboard :=
  ⟨a.l0 &&& b.l0, a.l1 &&& b.l1, a.l2 &&& b.l2, a.l3 &&& b.l3⟩

/-- Lane-wise bitwise or (`impl BitOr for Bitboard`). -/
def bitor (a b : Bitboard) : Bitboard :=
  ⟨a.l0 ||| b.l0, a.l1 ||| b.l1, a.l2 ||| b.l2, a.l3 ||| b.l3⟩

/-- Lane-wise bitwise xor (`impl BitXor for Bitboard`). -/
def bitxor (a b : Bitboard) : Bitboard :=
  ⟨a.l0 ^^^ b.l0, a.l1 ^^^ b.l1, a.l2 ^^^ b.l2, a.l3 ^^^ b.l3⟩

/-- Lane-wise complement (`impl Not for Bitboard`). -/
def bitnot (a : Bitboard) : Bitboard :=
  ⟨u64not a.l0, u64not a.l1, u64not a.l2, u64not a.l3⟩

/-- Full-width right shift (`impl Shr<u8> for Bitboard`).  The source asserts
`bits < 64` and computes `self.0[k] >> bits | self.0[k+1] << (64 - bits)`;
for `bits = 0` the inner shift amount is 64, which aborts in debug builds and
is masked to 0 in release builds — `u64shl`/`u64shr` model the masking. -/
def shr (b : Bitboard) (bits : Nat) : Bitboard :=
  ⟨u64shr b.l0 bits ||| u64shl b.l1 (64 - bits),
   u64shr b.l1 bits ||| u64shl b.l2 (64 - bits),
   u64shr b.l2 bits ||| u64shl b.l3 (64 - bits),
   u64shr b.l3 bits⟩

/-- Full-width left shift (`impl Shl<u8> for Bitboard`), with the same
treatment of the inner `64 - bits` shift as `shr`. -/
def shl (b : Bitboard) (bits : Nat) : Bitboard :=
  ⟨u64shl b.l0 bits,
   u64shl b.l1 bits ||| u64shr b.l0 (64 - bits),
   u64shl b.l2 bits ||| u64shr b.l1 (64 - bits),
   u64shl b.l3 bits ||| u64shr b.l2 (64 - bits)⟩

/-- The set bits of a board, least significant first.  The `OnesIterator` of
the source yields set bits lane by lane, clearing the least significant set
bit each time, which for a wellformed board is exactly the ascending
enumeration of the set bit indices. -/
def ones (b : Bitboard) : List Nat :=
  (List.range 256).filter (fun i => b.get_bit i)

/-- The 256-bit value packed into the four lanes. -/
def toNat (b : Bitboard) : Nat :=
  b.l0 + 2 ^ 64 * b.l1 + 2 ^ 128 * b.l2 + 2 ^ 192 * b.l3

end Bitboard

/-- `BB_INVALID`: the mask of the 135 cell indices that are not playing
cells.  Lane values are the hexadecimal renderings of the binary literals of
the source. -/
def BB_INVALID : Bitboard :=
  ⟨0x003E1FF8FFE7FFBF, 0x07803C00E0030008, 0xFF0F8002001800E0, 0xFFFFFFFFBFFCFFE3⟩

/-- `BB_TARGET`: the two goal-triangle masks (index 0 is player 0's goal at
the bottom of the board, index 1 player 1's goal at the top). -/
def BB_TARGET (player : Nat) : Bitboard :=
  if player = 0 then
    ⟨0, 0, 0x00F007C000000000, 0x000000004003001C⟩
  else
    ⟨0x7C01E00700180040, 0, 0, 0⟩

/-- `LONG_ROW` of `src/ai/bitboard.rs`. -/
def LONG_ROW : Nat := 13

/-- `TWO_ROWS` of `src/ai/bitboard.rs`. -/
def TWO_ROWS : Nat := 27

/-- `pos_to_index`: `y/2 * TWO_ROWS + (y%2)*LONG_ROW + x`, a `u8` result. -/
def pos_to_index (x y : Nat) : Nat :=
  (y / 2 * TWO_ROWS + y % 2 * LONG_ROW + x) % 256

/-- `index_to_pos`: recover `(x, y)` coordinates from a cell index. -/
def index_to_pos (index : Nat) : Int × Int :=
  let y1 : Nat := 2 * (index / TWO_ROWS)
  let i1 : Nat := index % TWO_ROWS
  let y : Nat := y1 + i1 / LONG_ROW
  let x : Nat := i1 - i1 / LONG_ROW * LONG_ROW
  ((x : Int), (y : Int))

/-- A move of `src/ai/internal_game_state.rs`: a pair of 8-bit cell indices.
The source field names are `from` and `to`; both are reserved words in Lean,
so the fields are called `fr` and `dst` here. -/
structure InternalMove where
  fr : Nat
  dst : Nat
deriving DecidableEq, Repr

/-- `InternalMove::inverse`. -/
def InternalMove.inverse (m : InternalMove) : InternalMove :=
  ⟨m.dst, m.fr⟩

/-- The internal game state: one bitboard per player (the source's
`pieces: [Bitboard; 2]` array is split into the fields `p0` and `p1`),
the ply counter and the side to move. -/
structure InternalGameState where
  p0 : Bitboard
  p1 : Bitboard
  ply : Nat
  current_player : Nat
deriving DecidableEq, Repr

namespace InternalGameState

/-- Indexing of the `pieces` array. -/
def pieces (s : InternalGameState) (player : Nat) : Bitboard :=
  if player = 0 then s.p0 else s.p1

/-- `InternalGameState::is_valid_location`. -/
def is_valid_location (index : Nat) : Bool :=
  !BB_INVALID.get_bit index

/-- `InternalGameState::occupied_bb`. -/
def occupied_bb (s : InternalGameState) : Bitboard :=
  s.p0.bitor s.p1

/-- `InternalGameState::empty_bb`. -/
def empty_bb (s : InternalGameState) : Bitboard :=
  s.occupied_bb.bitnot

/-- `InternalGameState::won`: the player's pieces bitboard equals the target
mask exactly. -/
def won (s : InternalGameState) (player : Nat) : Bool :=
  s.pieces player == BB_TARGET player

/-- One sweep of the six jump directions of `reachable_from`: starting from
the accumulated frontier `jt`, or in `(occupied << skip) & empty &
(jt << jump)` for the three left-shift directions and the mirrored
right-shift directions. -/
def jumpStep (occupied empty jt : Bitboard) : Bitboard :=
  let a := jt.bitor (((occupied.shl 1).bitand empty).bitand (jt.shl 2))
  let b := a.bitor (((occupied.shl 13).bitand empty).bitand (jt.shl 26))
  let c := b.bitor (((occupied.shl 14).bitand empty).bitand (jt.shl 28))
  let d := c.bitor (((occupied.shr 1).bitand empty).bitand (jt.shr 2))
  let e := d.bitor (((occupied.shr 13).bitand empty).bitand (jt.shr 26))
  e.bitor (((occupied.shr 14).bitand empty).bitand (jt.shr 28))

/-- The `while jumping_targets != next_jumping_targets` loop of
`reachable_from`, with explicit fuel.  Each non-terminating iteration grows
the frontier by at least one of at most 256 bits, so fuel 257 always reaches
the fixed point (proved below as `jumpLoop_fix`). -/
def jumpLoop (occupied empty : Bitboard) (fuel : Nat) (jt njt : Bitboard) :
    Bitboard :=
  match fuel with
  | 0 => njt
  | fuel + 1 =>
      if jt = njt then jt
      else jumpLoop occupied empty fuel njt (jumpStep occupied empty njt)

/-- The six slide offsets of `reachable_from`, in source order: west (−1 as
`0xFF`), east, south-west, south-east, north-east (`0xF3`), north-west
(`0xF2`), applied with `u8` wrapping addition. -/
def slideOffsets : List Nat :=
  [255, 1, 13, 14, 243, 242]

/-- The slide loop of `reachable_from`: set every `from + slide` (wrapping)
that is an empty valid cell. -/
def addSlides (empty : Bitboard) (frm : Nat) (res : Bitboard) : Bitboard :=
  slideOffsets.foldl
    (fun acc slide =>
      let dst := (frm + slide) % 256
      if empty.get_bit dst then acc.set_bit dst else acc)
    res

/-- `InternalGameState::reachable_from`: the fixed point of the jumping
frontier, then the six slides, with the starting cell removed. -/
def reachable_from (s : InternalGameState) (frm : Nat) : Bitboard :=
  let occupied := s.occupied_bb
  let empty := BB_INVALID.bitnot.bitand s.empty_bb
  let jt := jumpLoop occupied empty 257 Bitboard.default (Bitboard.bit frm)
  (addSlides empty frm jt).unset_bit frm

/-- `InternalGameState::possible_moves`: all `(from, to)` with `from` a piece
of the side to move and `to` reachable from it. -/
def possible_moves (s : InternalGameState) : List InternalMove :=
  (s.pieces s.current_player).ones.flatMap
    (fun frm => (s.reachable_from frm).ones.map (fun dst => ⟨frm, dst⟩))

/-- `InternalGameState::move_piece`.  The source aborts when either endpoint
is an invalid location (modelled as `none`); otherwise it xors the two
endpoint bits into whichever piece board holds `from` (doing nothing to the
boards when neither does) and toggles the side to move.  The `1 - cp`
toggle is `u8` arithmetic; for the states considered here
`current_player ≤ 1`, where `Nat` subtraction agrees with it. -/
def move_piece (s : InternalGameState) (mov : InternalMove) :
    Option InternalGameState :=
  if ¬ is_valid_location mov.fr ∨ ¬ is_valid_location mov.dst then
    none
  else
    let bits_to_invert := (Bitboard.bit mov.fr).set_bit mov.dst
    let s' :=
      if s.p0.get_bit mov.fr then
        { s with p0 := s.p0.bitxor bits_to_invert }
      else if s.p1.get_bit mov.fr then
        { s with p1 := s.p1.bitxor bits_to_invert }
      else s
    some { s' with current_player := 1 - s.current_player }

/-- The state invariants of the specification: wellformed lanes, no piece on
an invalid cell, and the two piece sets disjoint. -/
def Invariant (s : InternalGameState) : Prop :=
  s.p0.Wf ∧ s.p1.Wf ∧
  (s.p0.bitand BB_INVALID).is_empty ∧ (s.p1.bitand BB_INVALID).is_empty ∧
  (s.p0.bitand s.p1).is_empty ∧ s.current_player ≤ 1

instance : DecidablePred Invariant := fun s => by
  unfold Invariant; infer_instance

end InternalGameState

namespace tt

/-- `Score` (`isize`) of `src/ai/mod.rs`, reexported by `src/ai/tt.rs`. -/
abbrev Score := Int

/-- `ScoreType` of `src/ai/tt.rs`. -/
inductive ScoreType where
  | Exact : Score → ScoreType
  | LowerBound : Score → ScoreType
  | UpperBound : Score → ScoreType
deriving DecidableEq, Repr

/-- A transposition-table entry of `src/ai/tt.rs`. -/
structure Transposition where
  evaluation : ScoreType
  best_move : InternalMove
  depth : Int
  ply : Nat
deriving DecidableEq, Repr

/-- `Transposition::should_be_replaced_by`. -/
def Transposition.should_be_replaced_by
    (old other : Transposition) (pv : Bool) : Bool :=
  if pv then true
  else if old.ply + 6 < other.ply then true
  else if old.depth ≤ other.depth then true
  else false

/-- `TT_BITS` of `src/ai/tt.rs`. -/
def TT_BITS : Nat := 20

/-- `TT_SIZE` of `src/ai/tt.rs`. -/
def TT_SIZE : Nat := 2 ^ TT_BITS

/-- The transposition table of `src/ai/tt.rs`: the `Vec` of `TT_SIZE` slots
is modelled as a function from slot index to slot content, plus the three
statistics counters. -/
structure TranspositionTable where
  table : Nat → Option (InternalGameState × Transposition)
  insertion : Nat
  replace : Nat
  update : Nat

/-- `TranspositionTable::default()`: all slots empty. -/
def TranspositionTable.default : TranspositionTable :=
  ⟨fun _ => none, 0, 0, 0⟩

/-- `TranspositionTable::get`: look up slot `hash % TT_SIZE` and return the
entry only when the stored state equals the probing state. -/
def TranspositionTable.get (t : TranspositionTable) (hash : Nat)
    (state : InternalGameState) : Option Transposition :=
  match t.table (hash % TT_SIZE) with
  | some (tstate, tr) => if tstate ≠ state then none else some tr
  | none => none

/-- `TranspositionTable::insert`: bump the statistics counters and
unconditionally overwrite slot `hash % TT_SIZE`. -/
def TranspositionTable.insert (t : TranspositionTable) (hash : Nat)
    (state : InternalGameState) (transposition : Transposition) :
    TranspositionTable :=
  let t' :=
    match t.table (hash % TT_SIZE) with
    | some (tstate, _) =>
        if tstate = state then { t with update := t.update + 1 }
        else { t with replace := t.replace + 1 }
    | none => t
  { t' with
    insertion := t.insertion + 1,
    table := fun i =>
      if i = hash % TT_SIZE then some (state, transposition)
      else t.table i }

end tt


/-! ## The external game state of `src/lib.rs` -/

/-- `Tile` of `src/lib.rs`. -/
inductive Tile where
  | Empty : Tile
  | Invalid : Tile
  | Player : Nat → Tile
deriving DecidableEq, Repr

/-- `BOARD_WIDTH`. -/
def BOARD_WIDTH : Int := 13

/-- `BOARD_HEIGHT`. -/
def BOARD_HEIGHT : Int := 17

/-- A move of `src/lib.rs`: two `(x, y)` coordinate pairs (the source fields
`from`/`to` are `fr`/`dst` here, as for `InternalMove`). -/
structure Move where
  fr : Int × Int
  dst : Int × Int
deriving DecidableEq, Repr

/-- `Move::inverse`. -/
def Move.inverse (m : Move) : Move :=
  ⟨m.dst, m.fr⟩

/-- The external game state of `src/lib.rs`: a 13×17 tile array
(`board[x][y]`, modelled as a function on `Fin 13 × Fin 17`), the ply
counter and the side to move. -/
structure GameState where
  board : Fin 13 → Fin 17 → Tile
  ply : Nat
  current_player : Nat
deriving DecidableEq

namespace GameState

/-- The per-row `(left, right)` column bounds of `is_valid_location`. -/
def validBounds : List (Int × Int) :=
  [(6, 6), (6, 7), (5, 7), (5, 8), (0, 12), (1, 12), (1, 11), (2, 11),
   (2, 10), (2, 11), (1, 11), (1, 12), (0, 12), (5, 8), (5, 7), (6, 7),
   (6, 6)]

/-- `GameState::is_valid_location`. -/
def is_valid_location (x y : Int) : Bool :=
  if y < 0 || y ≥ BOARD_HEIGHT then false
  else
    let p := validBounds.getD y.toNat (0, 0)
    decide (p.1 ≤ x) && decide (x ≤ p.2)

/-- `GameState::get`.  The source asserts `0 ≤ x < 13` and `0 ≤ y < 17` and
reads `board[x][y]`; the model returns `Tile.Invalid` outside those bounds
(every verified call site is in bounds, so the assertion never fires
there). -/
def get (s : GameState) (x y : Int) : Tile :=
  if h : 0 ≤ x ∧ x < 13 ∧ 0 ≤ y ∧ y < 17 then
    s.board ⟨x.toNat, by omega⟩ ⟨y.toNat, by omega⟩
  else Tile.Invalid

/-- `GameState::set`, the in-place tile update `board[x][y] = tile`.  The
source asserts `is_valid_location x y` (which implies the indices are in
bounds); every verified call site satisfies it. -/
def set (s : GameState) (x y : Int) (tile : Tile) : GameState :=
  { s with
    board := fun i j =>
      if (i : Nat) = x.toNat ∧ (j : Nat) = y.toNat then tile
      else s.board i j }

/-- `GameState::targets`: the 15 goal cells of each player. -/
def targets (player : Nat) : List (Int × Int) :=
  if player = 0 then
    [(4, 12), (5, 12), (6, 12), (7, 12), (8, 12),
     (5, 13), (6, 13), (7, 13), (8, 13),
     (5, 14), (6, 14), (7, 14),
     (6, 15), (7, 15),
     (6, 16)]
  else if player = 1 then
    [(6, 0),
     (6, 1), (7, 1),
     (5, 2), (6, 2), (7, 2),
     (5, 3), (6, 3), (7, 3), (8, 3),
     (4, 4), (5, 4), (6, 4), (7, 4), (8, 4)]
  else []

/-- `GameState::won`: every target cell of the player holds one of their
pieces.  (For `player ≥ 2` the source is unreachable.) -/
def won (s : GameState) (player : Nat) : Bool :=
  (targets player).all (fun c => s.get c.1 c.2 == Tile.Player player)

/-- `GameState::move_piece`.  The source aborts (modelled as `none`) when an
endpoint is not a valid location; otherwise it copies the `from` tile to
`to`, empties `from` and toggles the side to move.  As for the internal
state, the `u8` toggle `1 - current_player` is `Nat` subtraction here, which
agrees with the source for `current_player ≤ 1`. -/
def move_piece (s : GameState) (mov : Move) : Option GameState :=
  if ¬ is_valid_location mov.fr.1 mov.fr.2 ∨
      ¬ is_valid_location mov.dst.1 mov.dst.2 then
    none
  else
    let t := s.get mov.fr.1 mov.fr.2
    let s1 := s.set mov.dst.1 mov.dst.2 t
    let s2 := s1.set mov.fr.1 mov.fr.2 Tile.Empty
    some { s2 with current_player := 1 - s.current_player }

/-- `impl Default for GameState`: camps of 15 pieces facing each other, empty
valid cells elsewhere, `Invalid` outside the star.  The source initialises an
all-`Invalid` array and then sets every valid cell; the direct tile
comprehension used here produces the same array. -/
def defaultState : GameState :=
  { board := fun x y =>
      if ¬ is_valid_location (x : Int) (y : Int) then Tile.Invalid
      else if ((y : Int) < 5 ∧ (((x : Int) - 6).natAbs < 3)) then
        Tile.Player 0
      else if ((y : Int) > 11 ∧ (((x : Int) - 6).natAbs < 3)) then
        Tile.Player 1
      else Tile.Empty,
    ply := 0,
    current_player := 0 }

end GameState

namespace GameState

/-- The six jump direction tuples `(dx, dy, jx, jy)` of `moves_from`,
computed from the parity of the starting row `y` (Rust `-y%2` truncates,
`Int.tmod` here).  `(dx, dy)` is the jumped-over neighbour, `(jx, jy)` the
landing offset. -/
def jumpDirs (y : Int) : List (Int × Int × Int × Int) :=
  let m := Int.tmod (-y) 2
  [(-1, 0, -2, 0), (1, 0, 2, 0), (m + 1, 1, 1, 2), (m, 1, -1, 2),
   (m + 1, -1, 1, -2), (m, -1, -1, -2)]

/-- The six slide direction tuples `(dx, dy)` of `moves_from`. -/
def slideDirs (y : Int) : List (Int × Int) :=
  let m := Int.tmod (-y) 2
  [(-1, 0), (1, 0), (m + 1, 1), (m, 1), (m + 1, -1), (m, -1)]

/-- Processing of one popped frontier cell `(sx, sy)` of `moves_from`: try
the six jump directions in order, pushing each new legal landing cell onto
the worklist and the move onto the result (`Vec::push` appends at the
end). -/
def jumpDirsFold (s : GameState) (x y sx sy : Int)
    (acc : List (Int × Int) × List Move) : List (Int × Int) × List Move :=
  (jumpDirs y).foldl
    (fun acc d =>
      let (dx, dy, jx, jy) := d
      if ¬ is_valid_location (sx + jx) (sy + jy) then acc
      else
        match s.get (sx + dx) (sy + dy) with
        | Tile.Player _ =>
            let t : Int × Int := (sx + jx, sy + jy)
            if s.get t.1 t.2 = Tile.Empty ∧ t ∉ acc.1 ∧
                (⟨(x, y), t⟩ : Move) ∉ acc.2 then
              (acc.1 ++ [t], acc.2 ++ [⟨(x, y), t⟩])
            else acc
        | _ => acc)
    acc

/-- The `while let Some((sx, sy)) = jumping_targets.pop()` worklist loop of
`moves_from`, with explicit fuel.  `Vec::pop` removes the last element.
Each iteration removes one cell from the worklist and adds only cells that
are new to both the worklist and the result, so 512 fuel is more than the
221 grid cells can ever need. -/
def movesFromLoop (s : GameState) (x y : Int) :
    Nat → List (Int × Int) → List Move → List Move
  | 0, _, result => result
  | fuel + 1, jt, result =>
      match jt.getLast? with
      | none => result
      | some (sx, sy) =>
          let acc := jumpDirsFold s x y sx sy (jt.dropLast, result)
          movesFromLoop s x y fuel acc.1 acc.2

/-- `GameState::moves_from`: the reference worklist generator — all chained
jumps from `(x, y)` first, then the single slides. -/
def moves_from (s : GameState) (x y : Int) : List Move :=
  let jumps := movesFromLoop s x y 512 [(x, y)] []
  (slideDirs y).foldl
    (fun acc d =>
      if ¬ is_valid_location (x + d.1) (y + d.2) then acc
      else if s.get (x + d.1) (y + d.2) = Tile.Empty then
        acc ++ [⟨(x, y), (x + d.1, y + d.2)⟩]
      else acc)
    jumps

/-- Modelled from the spec: `GameState::reachable_from` is called by
`AI::possible_moves` in `src/ai/mod.rs` but its definition is missing from
the sources; per §4.1/§8.4 of the specification its result is the set of
cells reachable by one slide or a chain of jumps and "matches a reference
BFS implementation that walks slides and jumps explicitly", so it is
modelled as the destinations of `moves_from`. -/
def reachable_from (s : GameState) (x y : Int) : List (Int × Int) :=
  (s.moves_from x y).map (fun m => m.dst)

end GameState

/-! ## The search driver of `src/ai/mod.rs` -/

namespace ai

/-- `type IncrementalHash = usize`. -/
abbrev IncrementalHash := Nat

/-- `type Score = isize`. -/
abbrev Score := Int

/-- `isize::max_value()`. -/
def ISIZE_MAX : Score := 2 ^ 63 - 1

/-- `ONE_PLY`. -/
def ONE_PLY : Int := 1000

/-- `IncrementalHasher`: two random 64-bit words per tile plus a
side-to-move word.  The random sampling at construction is modelled by
taking the table as data. -/
structure IncrementalHasher where
  tile_hashes : Int → Int → IncrementalHash × IncrementalHash
  to_move_hash : IncrementalHash

/-- `kind(x, y) = (2*((x + y/2)%2) + y%2) as usize`, the cell-parity class
(Rust `/` and `%` truncate; the cast to `usize` is `Int.toNat`, faithful for
the in-board coordinates at which it is evaluated). -/
def kind (x y : Int) : Nat :=
  (2 * Int.tmod (x + Int.tdiv y 2) 2 + Int.tmod y 2).toNat

/-- Pointwise additive update of a counter array, modelling
`arr[k] += d` / `arr[k] -= d`. -/
def updIdx (f : Nat → Int) (k : Nat) (d : Int) : Nat → Int :=
  fun i => if i = k then f i + d else f i

/-- `EvaluationCache` of `src/ai/mod.rs`: the per-player aggregates.  The
fixed-size `i8` arrays are modelled as functions from index to `Int` (no
aggregate ever leaves the `i8` range in a consistent state). -/
structure EvaluationCache where
  p0_target_kinds : Nat → Int
  p1_target_kinds : Nat → Int
  p0_kinds : Nat → Int
  p1_kinds : Nat → Int
  p0_ys : Nat → Int
  p1_ys : Nat → Int
  p0_dist : Int
  p1_dist : Int
  p0_dist_to_center : Nat → Int
  p1_dist_to_center : Nat → Int

namespace EvaluationCache

/-- `EvaluationCache::dist_to_center`. -/
def dist_to_center (x y : Int) : Int :=
  min ((6 - x).natAbs : Int) ((x - (6 + Int.tmod y 2)).natAbs : Int)

/-- `EvaluationCache::update`: shift the aggregates of the moving player
from the move's source cell to its destination cell. -/
def update (c : EvaluationCache) (player : Nat) (mov : Move) :
    EvaluationCache :=
  let fx := mov.fr.1
  let fy := mov.fr.2
  let tx := mov.dst.1
  let ty := mov.dst.2
  if player = 0 then
    { c with
      p0_kinds := updIdx (updIdx c.p0_kinds (kind fx fy) (-1)) (kind tx ty) 1,
      p0_ys := updIdx (updIdx c.p0_ys fy.toNat (-1)) ty.toNat 1,
      p0_dist := c.p0_dist + (fy - ty),
      p0_dist_to_center :=
        updIdx (updIdx c.p0_dist_to_center (dist_to_center fx fy).toNat (-1))
          (dist_to_center tx ty).toNat 1 }
  else if player = 1 then
    { c with
      p1_kinds := updIdx (updIdx c.p1_kinds (kind fx fy) (-1)) (kind tx ty) 1,
      p1_ys := updIdx (updIdx c.p1_ys fy.toNat (-1)) ty.toNat 1,
      p1_dist := c.p1_dist + (ty - fy),
      p1_dist_to_center :=
        updIdx (updIdx c.p1_dist_to_center (dist_to_center fx fy).toNat (-1))
          (dist_to_center tx ty).toNat 1 }
  else c

/-- The all-zero aggregates, the starting point of the `From<&GameState>`
scan. -/
def zero : EvaluationCache :=
  ⟨fun _ => 0, fun _ => 0, fun _ => 0, fun _ => 0, fun _ => 0, fun _ => 0,
   0, 0, fun _ => 0, fun _ => 0⟩

/-- `impl From<&GameState> for EvaluationCache`: the full rescan — target
kind counts from the goal lists, then one pass over the 13×17 board. -/
def fromState (s : GameState) : EvaluationCache :=
  let c0 := (GameState.targets 0).foldl
    (fun c xy => { c with
      p0_target_kinds := updIdx c.p0_target_kinds (kind xy.1 xy.2) 1 })
    zero
  let c1 := (GameState.targets 1).foldl
    (fun c xy => { c with
      p1_target_kinds := updIdx c.p1_target_kinds (kind xy.1 xy.2) 1 })
    c0
  ((List.range 13).flatMap
      (fun x => (List.range 17).map (fun y => ((x : Int), (y : Int))))).foldl
    (fun c xy =>
      let x := xy.1
      let y := xy.2
      match s.get x y with
      | Tile.Player 0 =>
          { c with
            p0_kinds := updIdx c.p0_kinds (kind x y) 1,
            p0_ys := updIdx c.p0_ys y.toNat 1,
            p0_dist := c.p0_dist + (17 - 1 - y),
            p0_dist_to_center :=
              updIdx c.p0_dist_to_center (dist_to_center x y).toNat 1 }
      | Tile.Player 1 =>
          { c with
            p1_kinds := updIdx c.p1_kinds (kind x y) 1,
            p1_ys := updIdx c.p1_ys y.toNat 1,
            p1_dist := c.p1_dist + y,
            p1_dist_to_center :=
              updIdx c.p1_dist_to_center (dist_to_center x y).toNat 1 }
      | _ => c)
    c1

/-- `EvaluationCache::score_kinds` (Rust `/` on `isize` truncates:
`Int.tdiv`). -/
def score_kinds (c : EvaluationCache) : Score :=
  let p0 : Score := (List.range 4).foldl
    (fun acc k => acc + ((c.p0_target_kinds k - c.p0_kinds k).natAbs : Int)) 0
  let p1 : Score := (List.range 4).foldl
    (fun acc k => acc + ((c.p1_target_kinds k - c.p1_kinds k).natAbs : Int)) 0
  Int.tdiv (100000 * (p1 - p0)) 12

/-- `EvaluationCache::score_total_distance`. -/
def score_total_distance (c : EvaluationCache) : Score :=
  Int.tdiv (100000 * (c.p1_dist - c.p0_dist)) 209

/-- `EvaluationCache::score_dist_last_piece`: the row distance of each
player's least-advanced piece.  The double-reversed enumerator of the
source scans player 0's rows from row 0 upward (returning `16 - y`), and
player 1's rows from row 16 downward (returning `y`); `unwrap` aborts when
a player has no pieces — every state considered has pieces, and the model
returns the out-of-range default 17 in that unreachable case. -/
def score_dist_last_piece (c : EvaluationCache) : Score :=
  let y0 : Nat :=
    (((List.range 17).filter (fun y => 0 < c.p0_ys y)).headD 17)
  let y1 : Nat :=
    ((((List.range 17).reverse).filter (fun y => 0 < c.p1_ys y)).headD 17)
  let p0 : Score := 16 - (y0 : Int)
  let p1 : Score := (y1 : Int)
  Int.tdiv (100000 * (p1 - p0)) 17

/-- `EvaluationCache::score_centralization`. -/
def score_centralization (c : EvaluationCache) : Score :=
  let p0 : Score := (List.range 13).foldl
    (fun acc (d : Nat) =>
      acc + max 0 ((d : Int) - 3) * c.p0_dist_to_center d) 0
  let p1 : Score := (List.range 13).foldl
    (fun acc (d : Nat) =>
      acc + max 0 ((d : Int) - 3) * c.p1_dist_to_center d) 0
  Int.tdiv (100000 * (p1 - p0)) 100

end EvaluationCache

/-- `Evaluation` of `src/ai/mod.rs` (the bound type of a stored score). -/
inductive Evaluation where
  | Exact : Score → Evaluation
  | LowerBound : Score → Evaluation
  | UpperBound : Score → Evaluation
deriving DecidableEq, Repr

/-- `Transposition` of `src/ai/mod.rs` (it stores the external `Move`). -/
structure Transposition where
  evaluation : Evaluation
  best_move : Move
  depth : Int
  ply : Nat
deriving DecidableEq, Repr

/-- `TT_BITS` of `src/ai/mod.rs`. -/
def TT_BITS : Nat := 16

/-- `TT_SIZE` of `src/ai/mod.rs`. -/
def TT_SIZE : Nat := 2 ^ TT_BITS

/-- The transposition table of `src/ai/mod.rs`, keyed like `src/ai/tt.rs`
but storing the external `GameState`. -/
structure TranspositionTable where
  table : Nat → Option (GameState × Transposition)
  insertion : Nat
  replace : Nat
  update : Nat

/-- `TranspositionTable::default()` of `src/ai/mod.rs`. -/
def TranspositionTable.default : TranspositionTable :=
  ⟨fun _ => none, 0, 0, 0⟩

/-- `TranspositionTable::get` of `src/ai/mod.rs`. -/
def TranspositionTable.get (t : TranspositionTable) (hash : IncrementalHash)
    (state : GameState) : Option Transposition :=
  match t.table (hash % TT_SIZE) with
  | some (tstate, tr) => if tstate ≠ state then none else some tr
  | none => none

/-- `TranspositionTable::insert` of `src/ai/mod.rs`. -/
def TranspositionTable.insert (t : TranspositionTable)
    (hash : IncrementalHash) (state : GameState) (tr : Transposition) :
    TranspositionTable :=
  let t' :=
    match t.table (hash % TT_SIZE) with
    | some (tstate, _) =>
        if tstate = state then { t with update := t.update + 1 }
        else { t with replace := t.replace + 1 }
    | none => t
  { t' with
    insertion := t.insertion + 1,
    table := fun i =>
      if i = hash % TT_SIZE then some (state, tr) else t.table i }

/-- The selection-sort emission shared by `OrderedMovesIterator` (mod.rs),
`MoveListIterator` (move_list_iterator.rs) and the `All` stage of the move
picker: scanning from the current index, the first position attaining the
maximal score is found (strict `>` comparisons, so the first maximum) and
swapped to the front; after `n` emissions the remaining moves come out in
their current order.  `argmaxIdx f m rest` is that scan for the list
`m :: rest`. -/
def argmaxIdx {α : Type} (f : α → Score) (m : α) (rest : List α) : Nat :=
  (rest.foldl
    (fun (acc : Nat × Score × Nat) mv =>
      let (bi, bs, ci) := acc
      if f mv > bs then (ci, f mv, ci + 1) else (bi, bs, ci + 1))
    (0, f m, 1)).1

/-- One `next()` step of the emission at an index below `n`: swap the first
maximal element of the remaining tail to the front and emit it.  Swapping
positions `0` and `p` of `m :: rest` leaves `rest.set (p-1) m` behind. -/
def selStep {α : Type} [Inhabited α] (f : α → Score) (m : α)
    (rest : List α) : α × List α :=
  let p := argmaxIdx f m rest
  if p = 0 then (m, rest)
  else (rest.getD (p - 1) m, rest.set (p - 1) m)

/-- The full emission sequence of the staged iterators: selection-sorted for
the first `n` indices, the untouched remainder afterwards.  The fuel is the
list length (each step emits exactly one element). -/
def selEmit {α : Type} [Inhabited α] (f : α → Score) (n : Nat) :
    Nat → Nat → List α → List α
  | _, _, [] => []
  | 0, _, _ => []
  | fuel + 1, index, m :: rest =>
      if index < n then
        let (e, rest') := selStep f m rest
        e :: selEmit f n fuel (index + 1) rest'
      else m :: selEmit f n fuel (index + 1) rest

/-- `Vec::order(n, score_fn)`: the emission sequence of
`OrderedMovesIterator`. -/
def order {α : Type} [Inhabited α] (moves : List α) (n : Nat)
    (score_fn : α → Score) : List α :=
  selEmit score_fn n moves.length 0 moves

instance : Inhabited Move := ⟨⟨(0, 0), (0, 0)⟩⟩

instance : Inhabited InternalMove := ⟨⟨0, 0⟩⟩

/-- The `AI` engine of `src/ai/mod.rs`: external game state, evaluation
cache, transposition table, statistics counters, Zobrist hasher and running
hash. -/
structure AI where
  state : GameState
  print_statistics : Bool
  transpositions : TranspositionTable
  evaluation_cache : EvaluationCache
  visited_nodes : Nat
  visited_leaf_nodes : Nat
  beta_cutoffs : Nat
  tt_lookups : Nat
  tt_hits : Nat
  tt_cutoffs : Nat
  pv_nullsearches : Nat
  pv_failed_nullsearches : Nat
  moves_explored : Nat → Nat
  hasher : IncrementalHasher
  hash : IncrementalHash

namespace AI

/-- `AI::update_hash`: xor the two tile words of the moving player and the
side-to-move word into the running hash. -/
def update_hash (a : AI) (mov : Move) : AI :=
  let pf := a.hasher.tile_hashes mov.fr.1 mov.fr.2
  let pt := a.hasher.tile_hashes mov.dst.1 mov.dst.2
  let f := if a.state.current_player = 0 then pf.1 else pf.2
  let t := if a.state.current_player = 0 then pt.1 else pt.2
  { a with hash := a.hash ^^^ (f ^^^ t ^^^ a.hasher.to_move_hash) }

/-- `AI::internal_make_move`: evaluation-cache update, hash update, then
`move_piece` (whose abort propagates as `none`). -/
def internal_make_move (a : AI) (mov : Move) : Option AI :=
  let a1 := { a with
    evaluation_cache :=
      a.evaluation_cache.update a.state.current_player mov }
  let a2 := a1.update_hash mov
  (a2.state.move_piece mov).map (fun st => { a2 with state := st })

/-- `AI::make_move`: `internal_make_move` plus the ply increment. -/
def make_move (a : AI) (mov : Move) : Option AI :=
  (a.internal_make_move mov).map
    (fun b => { b with state := { b.state with ply := b.state.ply + 1 } })

/-- `AI::internal_unmake_move`: `move_piece` with the inverted move, then
the evaluation-cache and hash updates with the inverted move (both read
`current_player` after the board was restored). -/
def internal_unmake_move (a : AI) (mov : Move) : Option AI :=
  (a.state.move_piece mov.inverse).map
    (fun st =>
      let a1 := { a with state := st }
      let a2 := { a1 with
        evaluation_cache :=
          a1.evaluation_cache.update a1.state.current_player mov.inverse }
      a2.update_hash mov.inverse)

/-- `AI::unmake_move`: `internal_unmake_move` plus the ply decrement (`usize`
subtraction, which never underflows after a preceding `make_move`). -/
def unmake_move (a : AI) (mov : Move) : Option AI :=
  (a.internal_unmake_move mov).map
    (fun b => { b with state := { b.state with ply := b.state.ply - 1 } })

/-- `AI::possible_moves`: scan the board for pieces of the side to move and
collect the moves to every reachable cell. -/
def possible_moves (a : AI) : List Move :=
  (List.range 13).flatMap (fun x =>
    (List.range 17).flatMap (fun y =>
      if a.state.get (x : Int) (y : Int) =
          Tile.Player a.state.current_player then
        (a.state.reachable_from (x : Int) (y : Int)).map
          (fun dst => ⟨((x : Int), (y : Int)), dst⟩)
      else []))

/-- `AI::evaluate_position`: the weighted sum of the cache scores, negated
for player 1, bumping the leaf counter. -/
def evaluate_position (a : AI) : Score × AI :=
  let a' := { a with visited_leaf_nodes := a.visited_leaf_nodes + 1 }
  let score :=
    a.evaluation_cache.score_dist_last_piece +
    a.evaluation_cache.score_total_distance +
    Int.tdiv a.evaluation_cache.score_centralization 3 +
    Int.tdiv a.evaluation_cache.score_kinds 6
  (if a.state.current_player = 0 then score else -score, a')

/-- `AI::get_transposition`: probe the table; an entry of sufficient depth
returns a usable score (exactly, or via a bound cutoff), a shallower entry
only its move. -/
def get_transposition (a : AI) (alpha beta : Score) (depth : Int) :
    Option (Option Score × Move) × AI :=
  let a' := { a with tt_lookups := a.tt_lookups + 1 }
  match a.transpositions.get a.hash a.state with
  | some tr =>
      if tr.depth < depth then (some (none, tr.best_move), a')
      else
        match tr.evaluation with
        | Evaluation.Exact sc => (some (some sc, tr.best_move), a')
        | Evaluation.LowerBound lb =>
            if lb ≥ beta then (some (some beta, tr.best_move), a')
            else (none, a')
        | Evaluation.UpperBound ub =>
            if ub ≤ alpha then (some (some alpha, tr.best_move), a')
            else (none, a')
  | none => (none, a')

/-- `AI::insert_transposition`: nothing is stored without a best move; an
empty slot is always filled; otherwise the two independent `if`s of the
source (aging, then depth preference) each overwrite the slot. -/
def insert_transposition (a : AI) (evaluation : Evaluation)
    (best_move : Option Move) (depth : Int) : AI :=
  match best_move with
  | none => a
  | some mv =>
      let tr : Transposition := ⟨evaluation, mv, depth, a.state.ply⟩
      match a.transpositions.get a.hash a.state with
      | none =>
          { a with
            transpositions := a.transpositions.insert a.hash a.state tr }
      | some old =>
          let a1 :=
            if old.ply + 6 < a.state.ply then
              { a with
                transpositions := a.transpositions.insert a.hash a.state tr }
            else a
          if old.depth ≤ depth then
            { a1 with
              transpositions := a1.transpositions.insert a.hash a.state tr }
          else a1

/-- Bump the `moves_explored[min(7, n)]` statistic. -/
def bump_moves_explored (a : AI) (n : Nat) : AI :=
  { a with moves_explored :=
      fun i => if i = min 7 n then a.moves_explored i + 1
        else a.moves_explored i }

/-- The evolving state of the move loop of `search_negamax`: either the
loop already returned (beta cutoff), or a modelled abort happened inside
`make_move`/recursion, or it is still running with the current engine,
alpha, move counter, exactness flag and best move. -/
inductive LoopState where
  | done : Score × AI → LoopState
  | panicked : LoopState
  | running : AI → Score → Nat → Bool → Option Move → LoopState

/-- The outcome of the transposition-table stage of `search_negamax`
(step 3 of the source): an early beta cutoff, a modelled abort, or the
adjusted loop entry state. -/
inductive TTOutcome where
  | cutoff : Score × AI → TTOutcome
  | panicked : TTOutcome
  | proceed : AI → Score → Nat → Bool → Option Move → TTOutcome

/-- One iteration of the move loop of `search_negamax` (step 4 of the
source): make the move, search it (the first explored move with the full
window, later ones with a null window and the reduced depth
`depth - ONE_PLY*5/3`, re-searched on a fail-high), unmake, then apply the
beta-cutoff / alpha-raise bookkeeping.  `recurse` is the search at the next
fuel level. -/
def searchMoveStep
    (recurse : AI → Int → Score → Score → Int → Option (Score × AI))
    (ply : Int) (beta : Score) (depth : Int) (st : LoopState) (mov : Move) :
    LoopState :=
  match st with
  | LoopState.done r => LoopState.done r
  | LoopState.panicked => LoopState.panicked
  | LoopState.running a alpha me is_exact best =>
      match a.internal_make_move mov with
      | none => LoopState.panicked
      | some a1 =>
          let step2 : Option (Score × AI) :=
            if me = 0 then
              match recurse a1 (ply + 1) (-beta) (-alpha) (depth - ONE_PLY) with
              | none => none
              | some (sc, a2) => some (-sc, a2)
            else
              let a1 := { a1 with pv_nullsearches := a1.pv_nullsearches + 1 }
              match recurse a1 (ply + 1) (-alpha - 1) (-alpha)
                  (depth - ONE_PLY * 5 / 3) with
              | none => none
              | some (nsc, a2) =>
                  if -nsc > alpha then
                    let a2 := { a2 with
                      pv_failed_nullsearches := a2.pv_failed_nullsearches + 1 }
                    match recurse a2 (ply + 1) (-beta) (-alpha)
                        (depth - ONE_PLY) with
                    | none => none
                    | some (sc, a3) => some (-sc, a3)
                  else some (-nsc, a2)
          match step2 with
          | none => LoopState.panicked
          | some (score, a2) =>
              match a2.internal_unmake_move mov with
              | none => LoopState.panicked
              | some a3 =>
                  let me := me + 1
                  if score ≥ beta then
                    let a4 := { a3 with beta_cutoffs := a3.beta_cutoffs + 1 }
                    let a5 := a4.insert_transposition
                      (Evaluation.LowerBound beta) (some mov) depth
                    LoopState.done (beta, a5.bump_moves_explored me)
                  else if score > alpha then
                    LoopState.running a3 score me true (some mov)
                  else
                    LoopState.running a3 alpha me is_exact best

/-- `AI::search_negamax`, with explicit fuel bounding the recursion depth.
Each recursive call reduces `depth` by at least `ONE_PLY` and the search
leafs out at `depth ≤ 0`, so any `fuel > depth / ONE_PLY` is never
exhausted; exhaustion is modelled as `none`, as are the (unreachable)
aborts of `move_piece` on generated moves. -/
def search_negamax :
    Nat → AI → Int → Score → Score → Int → Option (Score × AI)
  | 0, _, _, _, _, _ => none
  | fuel + 1, a0, ply, alpha0, beta, depth =>
      let a := { a0 with visited_nodes := a0.visited_nodes + 1 }
      if a.state.won (1 - a.state.current_player) then
        some (-ISIZE_MAX + ply, a)
      else if depth ≤ 0 then
        some a.evaluate_position
      else
        let probe := a.get_transposition alpha0 beta depth
        let ttstage : TTOutcome :=
          match probe with
          | (none, a) => TTOutcome.proceed a alpha0 0 false none
          | (some (tt_score, tt_mov), a) =>
              let a := { a with tt_hits := a.tt_hits + 1 }
              let scored : Option (Score × AI × Nat) :=
                match tt_score with
                | some sc => some (sc, a, 0)
                | none =>
                    match a.internal_make_move tt_mov with
                    | none => none
                    | some a1 =>
                        match search_negamax fuel a1 (ply + 1) (-beta)
                            (-alpha0) (depth - ONE_PLY) with
                        | none => none
                        | some (csc, a2) =>
                            match a2.internal_unmake_move tt_mov with
                            | none => none
                            | some a3 => some (-csc, a3, 1)
              match scored with
              | none => TTOutcome.panicked
              | some (tt_move_score, a, me) =>
                  if tt_move_score ≥ beta then
                    let a := { a with tt_cutoffs := a.tt_cutoffs + 1 }
                    let a := a.insert_transposition
                      (Evaluation.LowerBound beta) (some tt_mov) depth
                    TTOutcome.cutoff (beta, a.bump_moves_explored me)
                  else if tt_move_score > alpha0 then
                    TTOutcome.proceed a tt_move_score me true (some tt_mov)
                  else TTOutcome.proceed a alpha0 me false none
        match ttstage with
        | TTOutcome.cutoff r => some r
        | TTOutcome.panicked => none
        | TTOutcome.proceed a alpha me is_exact best =>
            let cp := a.state.current_player
            let score_move_order : Move → Score := fun mov =>
              if cp = 0 then mov.dst.2 - mov.fr.2
              else mov.fr.2 - mov.dst.2
            let emission := order a.possible_moves 8 score_move_order
            let final := emission.foldl
              (searchMoveStep (search_negamax fuel) ply beta depth)
              (LoopState.running a alpha me is_exact best)
            match final with
            | LoopState.done r => some r
            | LoopState.panicked => none
            | LoopState.running a alpha me is_exact best =>
                let a :=
                  if is_exact then
                    a.insert_transposition (Evaluation.Exact alpha)
                      best depth
                  else
                    a.insert_transposition (Evaluation.UpperBound alpha)
                      best depth
                some (alpha, a.bump_moves_explored me)

end AI

end ai

namespace move_picker

/-- `move_score` of `src/ai/move_picker.rs`: the signed cell-index delta,
`mov.to as isize - mov.from as isize` for player 0 and its negation for
player 1. -/
def move_score (player : Nat) (mov : InternalMove) : ai.Score :=
  if player = 0 then (mov.dst : Int) - (mov.fr : Int)
  else (mov.fr : Int) - (mov.dst : Int)

/-- The emission sequence of the `All` stage of `MovePicker::next`
(`src/ai/move_picker.rs`): the same selection-sort emission as
`MoveListIterator`, over the generated move list, selection-sorting the
first 8 indices by `move_score`. -/
def allEmission (player : Nat) (moves : List InternalMove) :
    List InternalMove :=
  ai.order moves 8 (move_score player)

/-- The row-advance ordering score the specification ascribes to the picker:
`to.row - from.row` for player 0 and the negation for player 1 (stated from
the spec, to be compared with the source `move_score`). -/
def rowScore (player : Nat) (mov : InternalMove) : Int :=
  if player = 0 then (index_to_pos mov.dst).2 - (index_to_pos mov.fr).2
  else (index_to_pos mov.fr).2 - (index_to_pos mov.dst).2

end move_picker

/-- The concrete state refuting claim C1's win formula: player 0 occupies 14
of their 15 goal cells (the gap at cell `0xDE`, coordinates `(6, 16)`, plus a
spare piece on cell `0x6E`), while player 1 parks one piece on that last goal
cell and keeps 14 pieces in their own goal. -/
def wonCounterexampleState : InternalGameState :=
  { p0 := ((BB_TARGET 0).unset_bit 0xDE).set_bit 0x6E,
    p1 := ((BB_TARGET 1).unset_bit 0x06).set_bit 0xDE,
    ply := 0,
    current_player := 0 }

/-- A concrete engine for exercising the make/unmake round trip: the default
starting position with an all-zero hasher, empty table and zeroed
statistics. -/
def c3AI : ai.AI :=
  { state := GameState.defaultState,
    print_statistics := false,
    transpositions := ai.TranspositionTable.default,
    evaluation_cache := ai.EvaluationCache.zero,
    visited_nodes := 0,
    visited_leaf_nodes := 0,
    beta_cutoffs := 0,
    tt_lookups := 0,
    tt_hits := 0,
    tt_cutoffs := 0,
    pv_nullsearches := 0,
    pv_failed_nullsearches := 0,
    moves_explored := fun _ => 0,
    hasher := ⟨fun _ _ => (0, 0), 0⟩,
    hash := 0 }

/-- A legal opening slide of player 0 in the default position. -/
def c3Move : Move := ⟨(4, 4), (3, 4)⟩

/-- A concrete engine at the start position with a consistent evaluation
cache, for exercising the search. -/
def c4AI : ai.AI :=
  { state := GameState.defaultState,
    print_statistics := false,
    transpositions := ai.TranspositionTable.default,
    evaluation_cache := ai.EvaluationCache.fromState GameState.defaultState,
    visited_nodes := 0,
    visited_leaf_nodes := 0,
    beta_cutoffs := 0,
    tt_lookups := 0,
    tt_hits := 0,
    tt_cutoffs := 0,
    pv_nullsearches := 0,
    pv_failed_nullsearches := 0,
    moves_explored := fun _ => 0,
    hasher := ⟨fun _ _ => (0, 0), 0⟩,
    hash := 0 }

/-- A two-piece internal state (player 0 on cell 114 = (6,8), player 1 on
cell 110 = (2,8), player 0 to move) for exercising the move picker. -/
def c6S : InternalGameState := ⟨Bitboard.bit 114, Bitboard.bit 110, 0, 0⟩

/-- Three generated moves of mixed row advance from cell 114 in `c6S`. -/
def c6Moves : List InternalMove := [⟨114, 113⟩, ⟨114, 128⟩, ⟨114, 100⟩]

/-- The state invariant of the specification for the external board: valid
cells hold `Empty` or a piece of player 0/1, invalid cells hold `Invalid`. -/
def GameState.WellFormed (g : GameState) : Prop :=
  ∀ x : Nat, x < 13 → ∀ y : Nat, y < 17 →
    (GameState.is_valid_location (x : Int) (y : Int) = true →
      g.get (x : Int) (y : Int) = Tile.Empty ∨
        g.get (x : Int) (y : Int) = Tile.Player 0 ∨
        g.get (x : Int) (y : Int) = Tile.Player 1) ∧
    (GameState.is_valid_location (x : Int) (y : Int) = false →
      g.get (x : Int) (y : Int) = Tile.Invalid)

instance : DecidablePred GameState.WellFormed := fun g => by
  unfold GameState.WellFormed; infer_instance

/-- The cell enumeration of the `From<GameState>` conversion. -/
def allCells : List (Nat × Nat) :=
  (List.range 13).flatMap (fun x => (List.range 17).map (fun y => (x, y)))

/-- The piece-collecting scan of `impl From<GameState> for
InternalGameState`.  (For a tile `Player p` with `p ≥ 2` the source indexes
out of the two-element array and aborts; wellformed boards have no such tile
and the model skips it.) -/
def pieceFold (g : GameState) (l : List (Nat × Nat))
    (pc : Bitboard × Bitboard) : Bitboard × Bitboard :=
  l.foldl
    (fun (pc : Bitboard × Bitboard) c =>
      match g.get (c.1 : Int) (c.2 : Int) with
      | Tile.Player 0 => (pc.1.set_bit (pos_to_index c.1 c.2), pc.2)
      | Tile.Player 1 => (pc.1, pc.2.set_bit (pos_to_index c.1 c.2))
      | _ => pc)
    pc

/-- `impl From<GameState> for InternalGameState`. -/
def InternalGameState.fromExternal (g : GameState) : InternalGameState :=
  let pieces := pieceFold g allCells (Bitboard.default, Bitboard.default)
  { p0 := pieces.1, p1 := pieces.2, ply := g.ply,
    current_player := g.current_player }

/-- One bitboard jump step between cell indices, as performed by the six
shift terms of `jumpStep`: the landing cell is empty and two cells away
from the origin (index offsets 2, 26, 28 in either direction) with the
jumped-over cell occupied. -/
def jstepIdx (occ emp : Bitboard) (i j : Nat) : Prop :=
  j < 256 ∧ emp.get_bit j = true ∧
    ((j = i + 2 ∧ occ.get_bit (i + 1) = true) ∨
     (j = i + 26 ∧ occ.get_bit (i + 13) = true) ∨
     (j = i + 28 ∧ occ.get_bit (i + 14) = true) ∨
     (i = j + 2 ∧ occ.get_bit (j + 1) = true) ∨
     (i = j + 26 ∧ occ.get_bit (j + 13) = true) ∨
     (i = j + 28 ∧ occ.get_bit (j + 14) = true))

/-- Jump reachability on cell indices: the reflexive-transitive closure of
`jstepIdx` from the starting cell. -/
inductive JReachB (occ emp : Bitboard) (start : Nat) : Nat → Prop where
  | base : JReachB occ emp start start
  | step {i j : Nat} : JReachB occ emp start i → jstepIdx occ emp i j →
      JReachB occ emp start j

/-- One coordinate-level jump of the reference generator: land two cells
away in one of the six directions of the current row, over an occupied
neighbour, onto an empty valid cell. -/
def jstepCoord (g : GameState) (s t : Int × Int) : Prop :=
  ∃ d ∈ GameState.jumpDirs s.2,
    t = (s.1 + d.2.2.1, s.2 + d.2.2.2) ∧
    GameState.is_valid_location t.1 t.2 = true ∧
    (∃ p, g.get (s.1 + d.1) (s.2 + d.2.1) = Tile.Player p) ∧
    g.get t.1 t.2 = Tile.Empty

/-- Jump reachability on coordinates: the reflexive-transitive closure of
`jstepCoord` from the starting cell. -/
inductive JReachC (g : GameState) (start : Int × Int) : Int × Int → Prop
  | base : JReachC g start start
  | step {s t : Int × Int} : JReachC g start s → jstepCoord g s t →
      JReachC g start t

/-! ## Basic bitboard lemmas -/

namespace Bitboard

theorem lane_default (k : Nat) : default.lane k = 0 := by
  rcases k with _ | _ | _ | k <;> rfl

theorem lane_bitand (a b : Bitboard) (k : Nat) :
    (a.bitand b).lane k = a.lane k &&& b.lane k := by
  rcases k with _ | _ | _ | k <;> rfl

theorem lane_bitor (a b : Bitboard) (k : Nat) :
    (a.bitor b).lane k = a.lane k ||| b.lane k := by
  rcases k with _ | _ | _ | k <;> rfl

theorem lane_bitxor (a b : Bitboard) (k : Nat) :
    (a.bitxor b).lane k = a.lane k ^^^ b.lane k := by
  rcases k with _ | _ | _ | k <;> rfl

theorem lane_bitnot (a : Bitboard) (k : Nat) :
    a.bitnot.lane k = u64not (a.lane k) := by
  rcases k with _ | _ | _ | k <;> rfl

theorem lane_setLane (b : Bitboard) {k k' : Nat} (v : Nat)
    (hk : k < 4) (hk' : k' < 4) :
    (b.setLane k v).lane k' = if k' = k then v else b.lane k' := by
  interval_cases k <;> interval_cases k' <;> simp [setLane, lane]

theorem get_bit_default (i : Nat) : default.get_bit i = false := by
  simp [get_bit, lane_default]

theorem get_bit_bitand (a b : Bitboard) (i : Nat) :
    (a.bitand b).get_bit i = (a.get_bit i && b.get_bit i) := by
  simp [get_bit, lane_bitand]

theorem get_bit_bitor (a b : Bitboard) (i : Nat) :
    (a.bitor b).get_bit i = (a.get_bit i || b.get_bit i) := by
  simp [get_bit, lane_bitor]

theorem get_bit_bitxor (a b : Bitboard) (i : Nat) :
    (a.bitxor b).get_bit i = (a.get_bit i).xor (b.get_bit i) := by
  simp [get_bit, lane_bitxor]

theorem get_bit_bitnot (a : Bitboard) (i : Nat) :
    a.bitnot.get_bit i = !a.get_bit i := by
  have h : i % 64 < 64 := Nat.mod_lt _ (by norm_num)
  simp only [get_bit, lane_bitnot, u64not, Nat.testBit_xor,
    Nat.testBit_two_pow_sub_one]
  simp [h]

theorem get_bit_set_bit (b : Bitboard) {i j : Nat}
    (hi : i < 256) (hj : j < 256) :
    (b.set_bit j).get_bit i = ((i == j) || b.get_bit i) := by
  unfold get_bit set_bit
  rw [lane_setLane b _ (by omega) (by omega)]
  have h1 : (1 : Nat) <<< (j % 64) = 2 ^ (j % 64) := by
    simp [Nat.shiftLeft_eq]
  by_cases h : i / 64 = j / 64
  · rw [if_pos h]
    by_cases hij : i = j
    · subst hij
      simp [h1, Nat.testBit_two_pow_self]
    · have hne : i % 64 ≠ j % 64 := by omega
      simp [h1, Nat.testBit_two_pow_of_ne (Ne.symm hne), hij, h]
  · rw [if_neg h]
    have hij : i ≠ j := by omega
    simp [hij]

theorem get_bit_unset_bit (b : Bitboard) {i j : Nat}
    (hi : i < 256) (hj : j < 256) :
    (b.unset_bit j).get_bit i = (!(i == j) && b.get_bit i) := by
  unfold get_bit unset_bit
  rw [lane_setLane b _ (by omega) (by omega)]
  have h1 : (1 : Nat) <<< (j % 64) = 2 ^ (j % 64) := by
    simp [Nat.shiftLeft_eq]
  have h64 : i % 64 < 64 := Nat.mod_lt _ (by norm_num)
  by_cases h : i / 64 = j / 64
  · rw [if_pos h]
    by_cases hij : i = j
    · subst hij
      simp only [u64not, h1, Nat.testBit_and, Nat.testBit_xor,
        Nat.testBit_two_pow_self, Nat.testBit_two_pow_sub_one]
      simp [h64]
    · have hne : i % 64 ≠ j % 64 := by omega
      simp only [u64not, h1, Nat.testBit_and, Nat.testBit_xor,
        Nat.testBit_two_pow_of_ne (Ne.symm hne),
        Nat.testBit_two_pow_sub_one]
      simp [h64, hij, h]
  · rw [if_neg h]
    have hij : i ≠ j := by omega
    simp [hij]

theorem get_bit_bit {i j : Nat} (hi : i < 256) (hj : j < 256) :
    (bit j).get_bit i = (i == j) := by
  simp [bit, get_bit_set_bit _ hi hj, get_bit_default]

/-! Wellformedness is preserved by every bitboard operation. -/

theorem wf_default : default.Wf := by
  decide

theorem wf_bitand {a b : Bitboard} (ha : a.Wf) : (a.bitand b).Wf := by
  obtain ⟨h0, h1, h2, h3⟩ := ha
  exact ⟨Nat.lt_of_le_of_lt (Nat.and_le_left) h0,
    Nat.lt_of_le_of_lt (Nat.and_le_left) h1,
    Nat.lt_of_le_of_lt (Nat.and_le_left) h2,
    Nat.lt_of_le_of_lt (Nat.and_le_left) h3⟩

theorem wf_bitor {a b : Bitboard} (ha : a.Wf) (hb : b.Wf) :
    (a.bitor b).Wf := by
  obtain ⟨a0, a1, a2, a3⟩ := ha
  obtain ⟨b0, b1, b2, b3⟩ := hb
  exact ⟨Nat.or_lt_two_pow a0 b0, Nat.or_lt_two_pow a1 b1,
    Nat.or_lt_two_pow a2 b2, Nat.or_lt_two_pow a3 b3⟩

theorem wf_bitxor {a b : Bitboard} (ha : a.Wf) (hb : b.Wf) :
    (a.bitxor b).Wf := by
  obtain ⟨a0, a1, a2, a3⟩ := ha
  obtain ⟨b0, b1, b2, b3⟩ := hb
  exact ⟨Nat.xor_lt_two_pow a0 b0, Nat.xor_lt_two_pow a1 b1,
    Nat.xor_lt_two_pow a2 b2, Nat.xor_lt_two_pow a3 b3⟩

theorem wf_bitnot {a : Bitboard} (ha : a.Wf) : a.bitnot.Wf := by
  obtain ⟨a0, a1, a2, a3⟩ := ha
  have hm : (2 ^ 64 - 1 : Nat) < 2 ^ 64 := by norm_num
  exact ⟨Nat.xor_lt_two_pow a0 hm, Nat.xor_lt_two_pow a1 hm,
    Nat.xor_lt_two_pow a2 hm, Nat.xor_lt_two_pow a3 hm⟩

theorem u64_lt (x : Nat) : u64 x < 2 ^ 64 :=
  Nat.mod_lt _ (by norm_num)

theorem u64shl_lt (x n : Nat) : u64shl x n < 2 ^ 64 :=
  u64_lt _

theorem u64shr_lt {x : Nat} (hx : x < 2 ^ 64) (n : Nat) :
    u64shr x n < 2 ^ 64 := by
  have h : x >>> (n % 64) ≤ x := by
    rw [Nat.shiftRight_eq_div_pow]
    exact Nat.div_le_self _ _
  exact Nat.lt_of_le_of_lt h hx

theorem wf_shl {a : Bitboard} (ha : a.Wf) (n : Nat) : (a.shl n).Wf := by
  obtain ⟨a0, a1, a2, a3⟩ := ha
  exact ⟨u64shl_lt _ _,
    Nat.or_lt_two_pow (u64shl_lt _ _) (u64shr_lt a0 _),
    Nat.or_lt_two_pow (u64shl_lt _ _) (u64shr_lt a1 _),
    Nat.or_lt_two_pow (u64shl_lt _ _) (u64shr_lt a2 _)⟩

theorem wf_shr {a : Bitboard} (ha : a.Wf) (n : Nat) : (a.shr n).Wf := by
  obtain ⟨a0, a1, a2, a3⟩ := ha
  exact ⟨Nat.or_lt_two_pow (u64shr_lt a0 _) (u64shl_lt _ _),
    Nat.or_lt_two_pow (u64shr_lt a1 _) (u64shl_lt _ _),
    Nat.or_lt_two_pow (u64shr_lt a2 _) (u64shl_lt _ _),
    u64shr_lt a3 _⟩

theorem lane_lt_of_wf {a : Bitboard} (ha : a.Wf) (k : Nat) :
    a.lane k < 2 ^ 64 := by
  obtain ⟨a0, a1, a2, a3⟩ := ha
  rcases k with _ | _ | _ | k <;> assumption

theorem wf_setLane {a : Bitboard} (ha : a.Wf) {k v : Nat}
    (hv : v < 2 ^ 64) : (a.setLane k v).Wf := by
  obtain ⟨a0, a1, a2, a3⟩ := ha
  rcases k with _ | _ | _ | k <;> exact ⟨by simpa [setLane], by simpa [setLane],
    by simpa [setLane], by simpa [setLane]⟩

theorem wf_set_bit {a : Bitboard} (ha : a.Wf) (i : Nat) :
    (a.set_bit i).Wf := by
  refine wf_setLane ha (Nat.or_lt_two_pow (lane_lt_of_wf ha _) ?_)
  have h : i % 64 < 64 := Nat.mod_lt _ (by norm_num)
  calc (1 : Nat) <<< (i % 64) = 2 ^ (i % 64) := by simp [Nat.shiftLeft_eq]
    _ < 2 ^ 64 := Nat.pow_lt_pow_right (by norm_num) h

theorem wf_unset_bit {a : Bitboard} (ha : a.Wf) (i : Nat) :
    (a.unset_bit i).Wf := by
  refine wf_setLane ha ?_
  exact Nat.lt_of_le_of_lt (Nat.and_le_left) (lane_lt_of_wf ha _)

theorem wf_bit (i : Nat) : (bit i).Wf :=
  wf_set_bit wf_default i

/-! Characterization of the full-width shifts on wellformed boards. -/

theorem shlCarry_testBit {lo hi n : Nat} (hlo : lo < 2 ^ 64)
    (hn1 : 1 ≤ n) (hn2 : n ≤ 63) {j : Nat} (hj : j < 64) :
    (u64shl hi n ||| u64shr lo (64 - n)).testBit j =
      if n ≤ j then hi.testBit (j - n) else lo.testBit (64 - n + j) := by
  have hmod : n % 64 = n := Nat.mod_eq_of_lt (by omega)
  have hmod2 : (64 - n) % 64 = 64 - n := Nat.mod_eq_of_lt (by omega)
  simp only [u64shl, u64shr, u64, hmod, hmod2, Nat.testBit_or,
    Nat.testBit_mod_two_pow, Nat.testBit_shiftLeft, Nat.testBit_shiftRight]
  by_cases h : n ≤ j
  · have hfalse : lo.testBit (64 - n + j) = false := by
      refine Nat.testBit_lt_two_pow (Nat.lt_of_lt_of_le hlo ?_)
      exact Nat.pow_le_pow_right (by norm_num) (by omega)
    simp [h, hj, hfalse, ge_iff_le]
  · simp [h, hj, ge_iff_le]

theorem shrCarry_testBit {a b n : Nat} (ha : a < 2 ^ 64)
    (hn1 : 1 ≤ n) (hn2 : n ≤ 63) {j : Nat} (hj : j < 64) :
    (u64shr a n ||| u64shl b (64 - n)).testBit j =
      if j < 64 - n then a.testBit (n + j) else b.testBit (j - (64 - n)) := by
  have hmod : n % 64 = n := Nat.mod_eq_of_lt (by omega)
  have hmod2 : (64 - n) % 64 = 64 - n := Nat.mod_eq_of_lt (by omega)
  simp only [u64shl, u64shr, u64, hmod, hmod2, Nat.testBit_or,
    Nat.testBit_mod_two_pow, Nat.testBit_shiftLeft, Nat.testBit_shiftRight]
  by_cases h : j < 64 - n
  · have hge : ¬ (64 - n ≤ j) := by omega
    simp [h, hj, ge_iff_le, hge]
  · have hfalse : a.testBit (n + j) = false := by
      refine Nat.testBit_lt_two_pow (Nat.lt_of_lt_of_le ha ?_)
      exact Nat.pow_le_pow_right (by norm_num) (by omega)
    simp [h, hj, hfalse, ge_iff_le, show 64 - n ≤ j by omega]

theorem lane0_shl_testBit {lo n : Nat} (hn1 : 1 ≤ n) (hn2 : n ≤ 63)
    {j : Nat} (hj : j < 64) :
    (u64shl lo n).testBit j = (decide (n ≤ j) && lo.testBit (j - n)) := by
  have hmod : n % 64 = n := Nat.mod_eq_of_lt (by omega)
  simp only [u64shl, u64, hmod, Nat.testBit_mod_two_pow,
    Nat.testBit_shiftLeft]
  simp [hj, ge_iff_le]

theorem get_bit_decomp (b : Bitboard) {i k j : Nat}
    (hk : i / 64 = k) (hj : i % 64 = j) :
    b.get_bit i = (b.lane k).testBit j := by
  unfold get_bit
  rw [hk, hj]

theorem get_bit_shl {b : Bitboard} (hw : b.Wf) {n : Nat}
    (hn1 : 1 ≤ n) (hn2 : n ≤ 63) {i : Nat} (hi : i < 256) :
    (b.shl n).get_bit i = (decide (n ≤ i) && b.get_bit (i - n)) := by
  obtain ⟨w0, w1, w2, w3⟩ := hw
  obtain ⟨k, j, hk, hj, rfl⟩ :
      ∃ k j, k < 4 ∧ j < 64 ∧ i = 64 * k + j :=
    ⟨i / 64, i % 64, by omega, by omega, by omega⟩
  interval_cases k
  · have e1 : (64 * 0 + j) / 64 = 0 := by omega
    have e2 : (64 * 0 + j) % 64 = j := by omega
    rw [get_bit_decomp (b.shl n) e1 e2]
    show (u64shl b.l0 n).testBit j = _
    rw [lane0_shl_testBit hn1 hn2 hj]
    by_cases h : n ≤ j
    · have e3 : (64 * 0 + j - n) / 64 = 0 := by omega
      have e4 : (64 * 0 + j - n) % 64 = j - n := by omega
      rw [get_bit_decomp b e3 e4]
      simp [lane, h, show n ≤ 64 * 0 + j by omega]
    · simp [h, show ¬ n ≤ 64 * 0 + j by omega]
  · have e1 : (64 * 1 + j) / 64 = 1 := by omega
    have e2 : (64 * 1 + j) % 64 = j := by omega
    rw [get_bit_decomp (b.shl n) e1 e2]
    show (u64shl b.l1 n ||| u64shr b.l0 (64 - n)).testBit j = _
    rw [shlCarry_testBit w0 hn1 hn2 hj]
    by_cases h : n ≤ j
    · have e3 : (64 * 1 + j - n) / 64 = 1 := by omega
      have e4 : (64 * 1 + j - n) % 64 = j - n := by omega
      rw [if_pos h, get_bit_decomp b e3 e4]
      simp [lane, show n ≤ 64 * 1 + j by omega]
    · have e3 : (64 * 1 + j - n) / 64 = 0 := by omega
      have e4 : (64 * 1 + j - n) % 64 = 64 - n + j := by omega
      rw [if_neg h, get_bit_decomp b e3 e4]
      simp [lane, show n ≤ 64 * 1 + j by omega]
  · have e1 : (64 * 2 + j) / 64 = 2 := by omega
    have e2 : (64 * 2 + j) % 64 = j := by omega
    rw [get_bit_decomp (b.shl n) e1 e2]
    show (u64shl b.l2 n ||| u64shr b.l1 (64 - n)).testBit j = _
    rw [shlCarry_testBit w1 hn1 hn2 hj]
    by_cases h : n ≤ j
    · have e3 : (64 * 2 + j - n) / 64 = 2 := by omega
      have e4 : (64 * 2 + j - n) % 64 = j - n := by omega
      rw [if_pos h, get_bit_decomp b e3 e4]
      simp [lane, show n ≤ 64 * 2 + j by omega]
    · have e3 : (64 * 2 + j - n) / 64 = 1 := by omega
      have e4 : (64 * 2 + j - n) % 64 = 64 - n + j := by omega
      rw [if_neg h, get_bit_decomp b e3 e4]
      simp [lane, show n ≤ 64 * 2 + j by omega]
  · have e1 : (64 * 3 + j) / 64 = 3 := by omega
    have e2 : (64 * 3 + j) % 64 = j := by omega
    rw [get_bit_decomp (b.shl n) e1 e2]
    show (u64shl b.l3 n ||| u64shr b.l2 (64 - n)).testBit j = _
    rw [shlCarry_testBit w2 hn1 hn2 hj]
    by_cases h : n ≤ j
    · have e3 : (64 * 3 + j - n) / 64 = 3 := by omega
      have e4 : (64 * 3 + j - n) % 64 = j - n := by omega
      rw [if_pos h, get_bit_decomp b e3 e4]
      simp [lane, show n ≤ 64 * 3 + j by omega]
    · have e3 : (64 * 3 + j - n) / 64 = 2 := by omega
      have e4 : (64 * 3 + j - n) % 64 = 64 - n + j := by omega
      rw [if_neg h, get_bit_decomp b e3 e4]
      simp [lane, show n ≤ 64 * 3 + j by omega]

theorem get_bit_shr {b : Bitboard} (hw : b.Wf) {n : Nat}
    (hn1 : 1 ≤ n) (hn2 : n ≤ 63) {i : Nat} (hi : i < 256) :
    (b.shr n).get_bit i = (decide (i + n < 256) && b.get_bit (i + n)) := by
  obtain ⟨w0, w1, w2, w3⟩ := hw
  obtain ⟨k, j, hk, hj, rfl⟩ :
      ∃ k j, k < 4 ∧ j < 64 ∧ i = 64 * k + j :=
    ⟨i / 64, i % 64, by omega, by omega, by omega⟩
  interval_cases k
  · have e1 : (64 * 0 + j) / 64 = 0 := by omega
    have e2 : (64 * 0 + j) % 64 = j := by omega
    rw [get_bit_decomp (b.shr n) e1 e2]
    show (u64shr b.l0 n ||| u64shl b.l1 (64 - n)).testBit j = _
    rw [shrCarry_testBit w0 hn1 hn2 hj]
    by_cases h : j < 64 - n
    · have e3 : (64 * 0 + j + n) / 64 = 0 := by omega
      have e4 : (64 * 0 + j + n) % 64 = n + j := by omega
      rw [if_pos h, get_bit_decomp b e3 e4,
        decide_eq_true (show 64 * 0 + j + n < 256 by omega),
        Bool.true_and]
      rfl
    · have e3 : (64 * 0 + j + n) / 64 = 1 := by omega
      have e4 : (64 * 0 + j + n) % 64 = j - (64 - n) := by omega
      rw [if_neg h, get_bit_decomp b e3 e4,
        decide_eq_true (show 64 * 0 + j + n < 256 by omega),
        Bool.true_and]
      rfl
  · have e1 : (64 * 1 + j) / 64 = 1 := by omega
    have e2 : (64 * 1 + j) % 64 = j := by omega
    rw [get_bit_decomp (b.shr n) e1 e2]
    show (u64shr b.l1 n ||| u64shl b.l2 (64 - n)).testBit j = _
    rw [shrCarry_testBit w1 hn1 hn2 hj]
    by_cases h : j < 64 - n
    · have e3 : (64 * 1 + j + n) / 64 = 1 := by omega
      have e4 : (64 * 1 + j + n) % 64 = n + j := by omega
      rw [if_pos h, get_bit_decomp b e3 e4,
        decide_eq_true (show 64 * 1 + j + n < 256 by omega),
        Bool.true_and]
      rfl
    · have e3 : (64 * 1 + j + n) / 64 = 2 := by omega
      have e4 : (64 * 1 + j + n) % 64 = j - (64 - n) := by omega
      rw [if_neg h, get_bit_decomp b e3 e4,
        decide_eq_true (show 64 * 1 + j + n < 256 by omega),
        Bool.true_and]
      rfl
  · have e1 : (64 * 2 + j) / 64 = 2 := by omega
    have e2 : (64 * 2 + j) % 64 = j := by omega
    rw [get_bit_decomp (b.shr n) e1 e2]
    show (u64shr b.l2 n ||| u64shl b.l3 (64 - n)).testBit j = _
    rw [shrCarry_testBit w2 hn1 hn2 hj]
    by_cases h : j < 64 - n
    · have e3 : (64 * 2 + j + n) / 64 = 2 := by omega
      have e4 : (64 * 2 + j + n) % 64 = n + j := by omega
      rw [if_pos h, get_bit_decomp b e3 e4,
        decide_eq_true (show 64 * 2 + j + n < 256 by omega),
        Bool.true_and]
      rfl
    · have e3 : (64 * 2 + j + n) / 64 = 3 := by omega
      have e4 : (64 * 2 + j + n) % 64 = j - (64 - n) := by omega
      rw [if_neg h, get_bit_decomp b e3 e4,
        decide_eq_true (show 64 * 2 + j + n < 256 by omega),
        Bool.true_and]
      rfl
  · have e1 : (64 * 3 + j) / 64 = 3 := by omega
    have e2 : (64 * 3 + j) % 64 = j := by omega
    rw [get_bit_decomp (b.shr n) e1 e2]
    show (u64shr b.l3 n).testBit j = _
    have hmod : n % 64 = n := Nat.mod_eq_of_lt (by omega)
    rw [u64shr, hmod, Nat.testBit_shiftRight]
    by_cases h : j < 64 - n
    · have e3 : (64 * 3 + j + n) / 64 = 3 := by omega
      have e4 : (64 * 3 + j + n) % 64 = n + j := by omega
      rw [get_bit_decomp b e3 e4,
        decide_eq_true (show 64 * 3 + j + n < 256 by omega),
        Bool.true_and]
      rfl
    · have hfalse : b.l3.testBit (n + j) = false := by
        refine Nat.testBit_lt_two_pow (Nat.lt_of_lt_of_le w3 ?_)
        exact Nat.pow_le_pow_right (by norm_num) (by omega)
      rw [hfalse,
        decide_eq_false (show ¬ (64 * 3 + j + n < 256) by omega),
        Bool.false_and]

theorem toNat_testBit {b : Bitboard} (hw : b.Wf) (m : Nat) :
    b.toNat.testBit m = (decide (m < 256) && b.get_bit m) := by
  obtain ⟨w0, w1, w2, w3⟩ := hw
  have h1 : b.toNat =
      2 ^ 64 * (b.l1 + 2 ^ 64 * (b.l2 + 2 ^ 64 * b.l3)) + b.l0 := by
    unfold toNat; ring
  rw [h1, Nat.testBit_mul_pow_two_add _ w0]
  by_cases hm0 : m < 64
  · rw [if_pos hm0,
      show b.get_bit m = b.l0.testBit m from
        @get_bit_decomp b m 0 m (by omega) (by omega)]
    simp [show m < 256 by omega]
  · rw [if_neg hm0,
      show b.l1 + 2 ^ 64 * (b.l2 + 2 ^ 64 * b.l3) =
        2 ^ 64 * (b.l2 + 2 ^ 64 * b.l3) + b.l1 from by ring,
      Nat.testBit_mul_pow_two_add _ w1]
    by_cases hm1 : m - 64 < 64
    · rw [if_pos hm1,
        show b.get_bit m = b.l1.testBit (m - 64) from
          @get_bit_decomp b m 1 (m - 64) (by omega) (by omega)]
      simp [show m < 256 by omega]
    · rw [if_neg hm1,
        show b.l2 + 2 ^ 64 * b.l3 = 2 ^ 64 * b.l3 + b.l2 from by ring,
        Nat.testBit_mul_pow_two_add _ w2]
      by_cases hm2 : m - 64 - 64 < 64
      · rw [if_pos hm2,
          show b.get_bit m = b.l2.testBit (m - 128) from
            @get_bit_decomp b m 2 (m - 128) (by omega) (by omega),
          show m - 64 - 64 = m - 128 by omega]
        simp [show m < 256 by omega]
      · rw [if_neg hm2, show m - 64 - 64 - 64 = m - 192 by omega]
        by_cases hm3 : m < 256
        · rw [show b.get_bit m = b.l3.testBit (m - 192) from
            @get_bit_decomp b m 3 (m - 192) (by omega) (by omega)]
          simp [hm3]
        · have hfalse : b.l3.testBit (m - 192) = false := by
            refine Nat.testBit_lt_two_pow (Nat.lt_of_lt_of_le w3 ?_)
            exact Nat.pow_le_pow_right (by norm_num) (by omega)
          simp [hfalse, hm3]

theorem toNat_lt {b : Bitboard} (hw : b.Wf) : b.toNat < 2 ^ 256 := by
  obtain ⟨w0, w1, w2, w3⟩ := hw
  unfold toNat
  calc b.l0 + 2 ^ 64 * b.l1 + 2 ^ 128 * b.l2 + 2 ^ 192 * b.l3
      ≤ (2 ^ 64 - 1) + 2 ^ 64 * (2 ^ 64 - 1) + 2 ^ 128 * (2 ^ 64 - 1) +
        2 ^ 192 * (2 ^ 64 - 1) := by
        gcongr <;> omega
    _ < 2 ^ 256 := by norm_num

end Bitboard

/-! ## Theorems about the full-width bitboard shifts (claim C9) -/

/-- C9 (counterexample): shifting by 0 does not return the board unchanged.
With `bits = 0` the carry term shifts the neighbouring lane by `64 - 0 = 64`
bits, which overflows the `u64` shift: debug builds abort, release builds
mask the shift amount to 0 and leak the whole neighbouring lane into the
result, as computed here for the single-bit boards `⟨1,0,0,0⟩` and
`⟨0,1,0,0⟩`. -/
theorem C9_shift_by_zero_counterexample :
    (Bitboard.shl ⟨1, 0, 0, 0⟩ 0 ≠ ⟨1, 0, 0, 0⟩) ∧
      Bitboard.shl ⟨1, 0, 0, 0⟩ 0 = ⟨1, 1, 0, 0⟩ ∧
      (Bitboard.shr ⟨0, 1, 0, 0⟩ 0 ≠ ⟨0, 1, 0, 0⟩) ∧
      Bitboard.shr ⟨0, 1, 0, 0⟩ 0 = ⟨1, 1, 0, 0⟩ := by
  refine ⟨by decide, by decide, by decide, by decide⟩

/-- C9 (amended): for every wellformed board and every shift amount `n` with
`1 ≤ n ≤ 63`, `b << n` and `b >> n` compute exactly the 256-bit left and
right shifts of the packed 256-bit value, with carry between the four lanes
and the bits shifted past the ends dropped.  (For `n = 0` the carry term is
broken, see the counterexample.) -/
theorem C9_full_width_shift_correct {b : Bitboard} (hw : b.Wf) {n : Nat}
    (hn1 : 1 ≤ n) (hn2 : n ≤ 63) :
    (b.shl n).toNat = b.toNat * 2 ^ n % 2 ^ 256 ∧
      (b.shr n).toNat = b.toNat / 2 ^ n := by
  constructor
  · apply Nat.eq_of_testBit_eq
    intro m
    rw [Bitboard.toNat_testBit (Bitboard.wf_shl hw n) m,
      Nat.testBit_mod_two_pow, ← Nat.shiftLeft_eq, Nat.testBit_shiftLeft]
    by_cases hm : m < 256
    · simp only [Bitboard.get_bit_shl hw hn1 hn2 hm]
      by_cases hnm : n ≤ m
      · simp only [Bitboard.toNat_testBit hw]
        simp [hm, hnm, ge_iff_le, show m - n < 256 by omega]
      · simp [hm, hnm, ge_iff_le]
    · simp [hm]
  · apply Nat.eq_of_testBit_eq
    intro m
    rw [Bitboard.toNat_testBit (Bitboard.wf_shr hw n) m,
      ← Nat.shiftRight_eq_div_pow, Nat.testBit_shiftRight,
      Bitboard.toNat_testBit hw]
    by_cases hm : m < 256
    · simp only [Bitboard.get_bit_shr hw hn1 hn2 hm]
      by_cases hnm : m + n < 256
      · simp [hm, hnm, show n + m = m + n by omega,
          show n + m < 256 by omega]
      · simp [hm, hnm, show ¬ n + m < 256 by omega]
    · simp [hm, show ¬ n + m < 256 by omega]

/-- C9 (witness): the shift correctness applied to a concrete board and the
concrete shift amount 8. -/
theorem C9_full_width_shift_correct_witness :
    (Bitboard.shl ⟨3, 5, 7, 9⟩ 8).toNat =
        (Bitboard.toNat ⟨3, 5, 7, 9⟩) * 2 ^ 8 % 2 ^ 256 ∧
      (Bitboard.shr ⟨3, 5, 7, 9⟩ 8).toNat =
        (Bitboard.toNat ⟨3, 5, 7, 9⟩) / 2 ^ 8 :=
  C9_full_width_shift_correct (by decide) (by decide) (by decide)

/-! ## Theorems about the transposition table of `src/ai/tt.rs` -/

/-- C5 (counterexample): the replacement policy does not replace an entry
that is exactly 6 plies older when the new entry is shallower and not from a
PV node, although the claim's aging clause (old at least 6 plies older than
new) demands replacement.  Old entry: depth 1, stored at game ply 0; new
entry: depth 0, game ply 6. -/
theorem C5_aging_exactly_six_counterexample :
    (tt.Transposition.should_be_replaced_by
        ⟨tt.ScoreType.Exact 0, ⟨0, 0⟩, 1, 0⟩
        ⟨tt.ScoreType.Exact 0, ⟨0, 0⟩, 0, 6⟩ false = false) ∧
      (0 : Nat) + 6 ≤ 6 := by
  constructor
  · rfl
  · decide

/-- C5 (amended): `should_be_replaced_by old new pv` returns true iff the new
entry came from a PV node, or the old entry's game ply is more than 6 (i.e.
at least 7) smaller than the new entry's, or the new entry's depth is at
least the old entry's depth. -/
theorem C5_should_be_replaced_by_characterization
    (old new : tt.Transposition) (pv : Bool) :
    old.should_be_replaced_by new pv = true ↔
      pv = true ∨ old.ply + 6 < new.ply ∨ old.depth ≤ new.depth := by
  cases pv
  · simp only [tt.Transposition.should_be_replaced_by, if_false]
    split_ifs with h1 h2 <;> simp_all
  · simp [tt.Transposition.should_be_replaced_by]

/-- C10: `TranspositionTable::insert` unconditionally overwrites slot
`hash % 2^20` (for any previous table content, without consulting
`should_be_replaced_by`), after which `get` at the same hash returns the
stored entry for the stored state and `none` for any other state. -/
theorem C10_tt_insert_get_round_trip (t : tt.TranspositionTable) (hash : Nat)
    (s : InternalGameState) (tr : tt.Transposition) :
    ((t.insert hash s tr).table (hash % tt.TT_SIZE) = some (s, tr)) ∧
      ((t.insert hash s tr).get hash s = some tr) ∧
      ∀ s2 : InternalGameState, s2 ≠ s →
        (t.insert hash s tr).get hash s2 = none := by
  refine ⟨?_, ?_, fun s2 hne => ?_⟩
  · simp [tt.TranspositionTable.insert]
  · simp [tt.TranspositionTable.get, tt.TranspositionTable.insert]
  · simp [tt.TranspositionTable.get, tt.TranspositionTable.insert, Ne.symm hne]

/-- C10 (witness): the round trip evaluated on a concrete table, hash, state
and entry, with a second state differing in its ply counter. -/
theorem C10_tt_insert_get_round_trip_witness :
    ((tt.TranspositionTable.default.insert 12345
        ⟨Bitboard.default, Bitboard.default, 0, 0⟩
        ⟨tt.ScoreType.Exact 3, ⟨1, 2⟩, 5, 7⟩).get 12345
        ⟨Bitboard.default, Bitboard.default, 0, 0⟩ =
      some ⟨tt.ScoreType.Exact 3, ⟨1, 2⟩, 5, 7⟩) ∧
    ((tt.TranspositionTable.default.insert 12345
        ⟨Bitboard.default, Bitboard.default, 0, 0⟩
        ⟨tt.ScoreType.Exact 3, ⟨1, 2⟩, 5, 7⟩).get 12345
        ⟨Bitboard.default, Bitboard.default, 1, 0⟩ = none) :=
  ⟨(C10_tt_insert_get_round_trip _ 12345 _ _).2.1,
   (C10_tt_insert_get_round_trip _ 12345 _ _).2.2
     ⟨Bitboard.default, Bitboard.default, 1, 0⟩ (by decide)⟩

/-! ## Bitboard extensionality and counting -/

theorem Bitboard.ext_of_wf {a b : Bitboard} (ha : a.Wf) (hb : b.Wf)
    (h : ∀ i, i < 256 → a.get_bit i = b.get_bit i) : a = b := by
  have g : ∀ k j : Nat, k < 4 → j < 64 →
      (a.lane k).testBit j = (b.lane k).testBit j := by
    intro k j hk hj
    have h2 := h (64 * k + j) (by omega)
    rw [@get_bit_decomp a (64 * k + j) k j (by omega) (by omega),
      @get_bit_decomp b (64 * k + j) k j (by omega) (by omega)] at h2
    exact h2
  have e : ∀ k : Nat, k < 4 → a.lane k = b.lane k := by
    intro k hk
    apply Nat.eq_of_testBit_eq
    intro j
    by_cases hj : j < 64
    · exact g k j hk hj
    · have l1 : a.lane k < 2 ^ j :=
        Nat.lt_of_lt_of_le (lane_lt_of_wf ha k)
          (Nat.pow_le_pow_right (by norm_num) (by omega))
      have l2 : b.lane k < 2 ^ j :=
        Nat.lt_of_lt_of_le (lane_lt_of_wf hb k)
          (Nat.pow_le_pow_right (by norm_num) (by omega))
      rw [Nat.testBit_lt_two_pow l1, Nat.testBit_lt_two_pow l2]
  have e0 := e 0 (by norm_num)
  have e1 := e 1 (by norm_num)
  have e2 := e 2 (by norm_num)
  have e3 := e 3 (by norm_num)
  cases a
  cases b
  simp only [lane] at e0 e1 e2 e3
  simp_all

theorem filterLengthMono {α : Type} (p q : α → Bool) :
    ∀ l : List α, (∀ x ∈ l, p x = true → q x = true) →
      (l.filter p).length ≤ (l.filter q).length := by
  intro l
  induction l with
  | nil => simp
  | cons a t ih =>
    intro h
    have ht := ih (fun x hx => h x (List.mem_cons_of_mem a hx))
    by_cases hpa : p a = true
    · have hqa := h a (List.mem_cons_self a t) hpa
      simp [List.filter_cons, hpa, hqa]
      omega
    · rw [Bool.not_eq_true] at hpa
      by_cases hqa : q a = true
      · simp [List.filter_cons, hpa, hqa]
        omega
      · rw [Bool.not_eq_true] at hqa
        simp [List.filter_cons, hpa, hqa]
        omega

theorem filterEqOfLen {α : Type} (p q : α → Bool) :
    ∀ l : List α, (∀ x ∈ l, p x = true → q x = true) →
      (l.filter p).length = (l.filter q).length → l.filter p = l.filter q := by
  intro l
  induction l with
  | nil => simp
  | cons a t ih =>
    intro h hlen
    have himp := fun x hx => h x (List.mem_cons_of_mem a hx)
    have hmono := filterLengthMono p q t himp
    by_cases hpa : p a = true
    · have hqa := h a (List.mem_cons_self a t) hpa
      simp only [List.filter_cons, hpa, hqa, if_true] at hlen ⊢
      simp only [List.length_cons] at hlen
      rw [ih himp (by omega)]
    · rw [Bool.not_eq_true] at hpa
      by_cases hqa : q a = true
      · exfalso
        simp only [List.filter_cons, hpa, hqa, if_true, Bool.false_eq_true,
          if_false, List.length_cons] at hlen
        omega
      · rw [Bool.not_eq_true] at hqa
        simp only [List.filter_cons, hpa, hqa, Bool.false_eq_true,
          if_false] at hlen ⊢
        exact ih himp hlen

/-! ## Theorems about win detection (claim C1) -/

/-- C1 (counterexample): a state satisfying the invariants in which the
claim's formula `(pieces[0] | pieces[1]) & target[0] = target[0]` and
`pieces[0] & target[0] ≠ 0` holds, yet `won(0)` returns false: player 1
parks one piece in player 0's goal. -/
theorem C1_won_formula_counterexample :
    wonCounterexampleState.won 0 = false ∧
      wonCounterexampleState.occupied_bb.bitand (BB_TARGET 0) =
        BB_TARGET 0 ∧
      (wonCounterexampleState.p0.bitand (BB_TARGET 0)).is_empty = false ∧
      wonCounterexampleState.Invariant := by
  refine ⟨by decide, by decide, by decide, by decide⟩

/-- C1 (amended): `won(p)` returns true iff the player's piece bitboard
equals the target mask exactly; for a wellformed board with exactly 15
pieces this is equivalent to every goal cell of `p` being occupied by a
piece of `p` (the condition `GameState::won` checks). -/
theorem C1_won_iff_targets_covered (s : InternalGameState) (p : Nat)
    (hw : (s.pieces p).Wf) (hcount : (s.pieces p).ones.length = 15) :
    s.won p = true ↔
      ∀ i, i < 256 → (BB_TARGET p).get_bit i = true →
        (s.pieces p).get_bit i = true := by
  constructor
  · intro h i hi ht
    have he : s.pieces p = BB_TARGET p := by
      simpa [InternalGameState.won] using h
    rw [he]
    exact ht
  · intro h
    have htw : (BB_TARGET p).Wf := by
      by_cases hp : p = 0 <;> simp [BB_TARGET, hp] <;> decide
    have hlen :
        ((List.range 256).filter
          (fun i => (BB_TARGET p).get_bit i)).length = 15 := by
      by_cases hp : p = 0
      · subst hp
        decide
      · have ht : BB_TARGET p = ⟨0x7C01E00700180040, 0, 0, 0⟩ := by
          simp [BB_TARGET, hp]
        rw [ht]
        decide
    have himp : ∀ i ∈ List.range 256,
        (BB_TARGET p).get_bit i = true → (s.pieces p).get_bit i = true :=
      fun i hi => h i (List.mem_range.mp hi)
    have heq := filterEqOfLen _ _ (List.range 256) himp
      (by rw [hlen]; exact hcount.symm)
    have hpt : ∀ i, i < 256 →
        (s.pieces p).get_bit i = (BB_TARGET p).get_bit i := by
      intro i hi
      by_cases htg : (BB_TARGET p).get_bit i = true
      · rw [htg, h i hi htg]
      · by_cases hpc : (s.pieces p).get_bit i = true
        · exfalso
          have hm : i ∈ (List.range 256).filter
              (fun i => (s.pieces p).get_bit i) :=
            List.mem_filter.mpr ⟨List.mem_range.mpr hi, hpc⟩
          rw [← heq] at hm
          exact htg (List.mem_filter.mp hm).2
        · simp only [Bool.not_eq_true] at htg hpc
          rw [htg, hpc]
    have he : s.pieces p = BB_TARGET p := Bitboard.ext_of_wf hw htw hpt
    simp [InternalGameState.won, he]

/-- C1 (witness): the amended characterization applied to the concrete state
in which player 0's pieces fill their goal triangle exactly. -/
theorem C1_won_iff_targets_covered_witness :
    (InternalGameState.won ⟨BB_TARGET 0, BB_TARGET 1, 0, 0⟩ 0 = true ↔
      ∀ i, i < 256 → (BB_TARGET 0).get_bit i = true →
        ((⟨BB_TARGET 0, BB_TARGET 1, 0, 0⟩ :
            InternalGameState).pieces 0).get_bit i = true) :=
  C1_won_iff_targets_covered ⟨BB_TARGET 0, BB_TARGET 1, 0, 0⟩ 0
    (by decide) (by decide)

/-! ## Theorems about the `move_piece` caller contract (claim C7) -/

/-- C7 (counterexample): `move_piece` does not abort on contract-violating
moves whose endpoints are valid cells.  Three concrete violations, all of
which complete: a move whose `from` is unoccupied (internal state and
external `GameState`), and a move whose `to` is occupied by the mover. -/
theorem C7_move_piece_completes_on_contract_violation :
    (InternalGameState.move_piece
        ⟨Bitboard.default, Bitboard.default, 0, 0⟩ ⟨0x06, 0x13⟩).isSome =
      true ∧
    (InternalGameState.move_piece
        ⟨(Bitboard.bit 0x06).set_bit 0x13, Bitboard.default, 0, 0⟩
        ⟨0x06, 0x13⟩).isSome = true ∧
    (GameState.move_piece GameState.defaultState ⟨(2, 8), (3, 8)⟩).isSome =
      true := by
  refine ⟨by decide, by decide, by decide⟩

/-- C7 (amended): `move_piece` aborts exactly when an endpoint of the move is
an invalid cell; a `from` cell not occupied by the side to move or an
occupied `to` cell is not detected (the move is applied silently, corrupting
the state), in both the internal and the external representation. -/
theorem C7_move_piece_aborts_iff_invalid (s : InternalGameState)
    (mov : InternalMove) (g : GameState) (m : Move) :
    (s.move_piece mov = none ↔
      (¬ InternalGameState.is_valid_location mov.fr ∨
        ¬ InternalGameState.is_valid_location mov.dst)) ∧
    (g.move_piece m = none ↔
      (¬ GameState.is_valid_location m.fr.1 m.fr.2 ∨
        ¬ GameState.is_valid_location m.dst.1 m.dst.2)) := by
  constructor
  · unfold InternalGameState.move_piece
    split_ifs with h
    · exact iff_of_true rfl h
    · exact iff_of_false (by simp) h
  · unfold GameState.move_piece
    split_ifs with h
    · exact iff_of_true rfl h
    · exact iff_of_false (by simp) h

/-! ## The jumping-frontier fixed point: invariants (claim C8) -/

theorem jumpStep_bits {occ emp njt : Bitboard} {i : Nat}
    (h : (InternalGameState.jumpStep occ emp njt).get_bit i = true) :
    njt.get_bit i = true ∨ emp.get_bit i = true := by
  simp only [InternalGameState.jumpStep, Bitboard.get_bit_bitor,
    Bitboard.get_bit_bitand, Bool.or_eq_true, Bool.and_eq_true] at h
  rcases h with ((((((h | h) | h) | h) | h) | h) | h)
  · exact Or.inl h
  all_goals exact Or.inr h.1.2

theorem jumpLoop_bits (occ emp : Bitboard) :
    ∀ (fuel : Nat) (jt njt : Bitboard) (i : Nat),
      (InternalGameState.jumpLoop occ emp fuel jt njt).get_bit i = true →
      njt.get_bit i = true ∨ emp.get_bit i = true := by
  intro fuel
  induction fuel with
  | zero => intro jt njt i h; exact Or.inl h
  | succ fuel ih =>
    intro jt njt i h
    rw [InternalGameState.jumpLoop] at h
    split_ifs at h with hstop
    · exact Or.inl (hstop ▸ h)
    · rcases ih njt (InternalGameState.jumpStep occ emp njt) i h with
        h2 | h2
      · exact jumpStep_bits h2
      · exact Or.inr h2

theorem slideFold_bits (emp : Bitboard) (frm : Nat) :
    ∀ (l : List Nat) (res : Bitboard) (i : Nat), i < 256 →
      ((l.foldl (fun acc slide =>
          let dst := (frm + slide) % 256
          if emp.get_bit dst then acc.set_bit dst else acc) res).get_bit i =
        true) →
      res.get_bit i = true ∨ emp.get_bit i = true := by
  intro l
  induction l with
  | nil =>
    intro res i hi h
    exact Or.inl h
  | cons a t ih =>
    intro res i hi h
    simp only [List.foldl_cons] at h
    rcases ih _ i hi h with h2 | h2
    · by_cases hc : emp.get_bit ((frm + a) % 256) = true
      · rw [if_pos hc] at h2
        rw [Bitboard.get_bit_set_bit res hi (Nat.mod_lt _ (by norm_num))]
          at h2
        rcases Bool.or_eq_true_iff.mp h2 with h3 | h3
        · exact Or.inr (by rwa [show i = (frm + a) % 256 from by
            simpa using h3])
        · exact Or.inl h3
      · rw [if_neg hc] at h2
        exact Or.inl h2
    · exact Or.inr h2

/-- C8: every destination produced by `reachable_from` is an empty valid
cell (not on the invalid mask and not occupied), and the starting cell
itself is never a destination — in particular the wrap-around of the west
offset modulo 256 cannot yield a destination outside the 121 valid cells. -/
theorem C8_reachable_from_destinations_safe (s : InternalGameState)
    (frm : Nat) (hfrm : frm < 256) (hinv : s.Invariant)
    (hocc : (s.pieces s.current_player).get_bit frm = true) :
    (∀ i, i < 256 → (s.reachable_from frm).get_bit i = true →
        BB_INVALID.get_bit i = false ∧ s.occupied_bb.get_bit i = false) ∧
      (s.reachable_from frm).get_bit frm = false := by
  have hemp : ∀ i, i < 256 →
      (BB_INVALID.bitnot.bitand s.empty_bb).get_bit i = true →
      BB_INVALID.get_bit i = false ∧ s.occupied_bb.get_bit i = false := by
    intro i _ h
    rw [Bitboard.get_bit_bitand, Bitboard.get_bit_bitnot,
      Bool.and_eq_true] at h
    obtain ⟨h1, h2⟩ := h
    rw [InternalGameState.empty_bb, Bitboard.get_bit_bitnot] at h2
    exact ⟨by simpa using h1, by simpa using h2⟩
  constructor
  · intro i hi h
    unfold InternalGameState.reachable_from at h
    rw [Bitboard.get_bit_unset_bit _ hi hfrm, Bool.and_eq_true] at h
    obtain ⟨hne, h2⟩ := h
    rcases slideFold_bits _ frm _ _ i hi h2 with h3 | h3
    · rcases jumpLoop_bits _ _ 257 _ _ i h3 with h4 | h4
      · exfalso
        rw [Bitboard.get_bit_bit hi hfrm] at h4
        simp only [beq_iff_eq] at h4
        simp [h4] at hne
      · exact hemp i hi h4
    · exact hemp i hi h3
  · unfold InternalGameState.reachable_from
    rw [Bitboard.get_bit_unset_bit _ hfrm hfrm]
    simp

/-- C8 (witness): the safety statement evaluated on a concrete state — both
camps in their goal triangles, player 0 to move, generating from goal cell
`0xDE`. -/
theorem C8_reachable_from_destinations_safe_witness :
    (∀ i, i < 256 →
        (InternalGameState.reachable_from
          ⟨BB_TARGET 0, BB_TARGET 1, 0, 0⟩ 0xDE).get_bit i = true →
        BB_INVALID.get_bit i = false ∧
          (InternalGameState.occupied_bb
            ⟨BB_TARGET 0, BB_TARGET 1, 0, 0⟩).get_bit i = false) ∧
      (InternalGameState.reachable_from
        ⟨BB_TARGET 0, BB_TARGET 1, 0, 0⟩ 0xDE).get_bit 0xDE = false :=
  C8_reachable_from_destinations_safe ⟨BB_TARGET 0, BB_TARGET 1, 0, 0⟩
    0xDE (by decide) (by decide) (by decide)

/-! ## Make/unmake round trip (claim C3) -/

theorem updIdx_cancel (f : Nat → Int) (j k : Nat) :
    ai.updIdx (ai.updIdx (ai.updIdx (ai.updIdx f j (-1)) k 1) k (-1)) j 1
      = f := by
  funext i
  simp only [ai.updIdx]
  split_ifs <;> omega

theorem GameState.valid_in_bounds {x y : Int}
    (h : GameState.is_valid_location x y = true) :
    0 ≤ x ∧ x < 13 ∧ 0 ≤ y ∧ y < 17 := by
  unfold GameState.is_valid_location at h
  by_cases hy : (decide (y < 0) || decide (y ≥ BOARD_HEIGHT)) = true
  · rw [if_pos hy] at h
    exact absurd h (by simp)
  · rw [if_neg hy] at h
    have hy' : 0 ≤ y ∧ y < 17 := by
      simp only [BOARD_HEIGHT, Bool.or_eq_true, decide_eq_true_eq] at hy
      push_neg at hy
      omega
    have h01 : (0 : Int) ≤ y := hy'.1
    have h17 : y < 17 := hy'.2
    clear hy
    interval_cases y <;> simp [GameState.validBounds] at h <;> omega

theorem GameState.get_eq_board (s : GameState) {x y : Int}
    (hx1 : 0 ≤ x) (hx2 : x < 13) (hy1 : 0 ≤ y) (hy2 : y < 17) :
    s.get x y = s.board ⟨x.toNat, by omega⟩ ⟨y.toNat, by omega⟩ := by
  unfold GameState.get
  rw [dif_pos ⟨hx1, hx2, hy1, hy2⟩]

theorem ai.EvaluationCache.update_update_inverse (c : ai.EvaluationCache)
    (p : Nat) (mov : Move) :
    (c.update p mov).update p mov.inverse = c := by
  obtain ⟨t0, t1, k0, k1, y0, y1, d0, d1, c0, c1⟩ := c
  by_cases hp : p = 0
  · subst hp
    simp [ai.EvaluationCache.update, Move.inverse, updIdx_cancel]
    omega
  · by_cases hp1 : p = 1
    · subst hp1
      simp [ai.EvaluationCache.update, Move.inverse, updIdx_cancel, hp]
      omega
    · simp [ai.EvaluationCache.update, hp, hp1]

/-- C3: after a legal move (valid endpoints, `from` occupied by the side to
move, `to` empty), `unmake_move` after `make_move` restores the engine
bit-exactly: board tiles, `current_player`, ply counter, incremental hash,
evaluation cache — the whole `AI` record. -/
theorem C3_make_unmake_round_trip (a : ai.AI) (mov : Move)
    (hv1 : GameState.is_valid_location mov.fr.1 mov.fr.2 = true)
    (hv2 : GameState.is_valid_location mov.dst.1 mov.dst.2 = true)
    (hocc : a.state.get mov.fr.1 mov.fr.2 =
      Tile.Player a.state.current_player)
    (hemp : a.state.get mov.dst.1 mov.dst.2 = Tile.Empty)
    (hcp : a.state.current_player ≤ 1) :
    (a.make_move mov).bind (fun b => b.unmake_move mov) = some a := by
  obtain ⟨hfx1, hfx2, hfy1, hfy2⟩ := GameState.valid_in_bounds hv1
  obtain ⟨htx1, htx2, hty1, hty2⟩ := GameState.valid_in_bounds hv2
  have hneq : ¬ (mov.fr.1.toNat = mov.dst.1.toNat ∧
      mov.fr.2.toNat = mov.dst.2.toNat) := by
    rintro ⟨he1, he2⟩
    have e1 : mov.fr.1 = mov.dst.1 := by omega
    have e2 : mov.fr.2 = mov.dst.2 := by omega
    rw [e1, e2, hemp] at hocc
    exact Tile.noConfusion hocc
  simp only [ai.AI.make_move, ai.AI.internal_make_move, ai.AI.unmake_move,
    ai.AI.internal_unmake_move, ai.AI.update_hash, GameState.move_piece,
    GameState.set, GameState.get, Move.inverse, hv1, hv2, not_true,
    or_self, if_false, Option.map_some', Option.some_bind, Option.map_map]
  have hcz : 1 - (1 - a.state.current_player) = a.state.current_player := by
    omega
  rw [hcz]
  have hply : a.state.ply + 1 - 1 = a.state.ply := by omega
  rw [hply]
  rw [show ({ fr := mov.dst, dst := mov.fr } : Move) = mov.inverse from rfl,
    ai.EvaluationCache.update_update_inverse]
  have hhash : ∀ f t m h : Nat,
      h ^^^ (f ^^^ t ^^^ m) ^^^ (t ^^^ f ^^^ m) = h := by
    intro f t m h
    rw [Nat.xor_comm t f, Nat.xor_assoc, Nat.xor_self, Nat.xor_zero]
  rw [hhash]
  refine congrArg some ?_
  obtain ⟨⟨brd, ply, cp⟩, ps, tt0, cache, v1, v2, v3, v4, v5, v6, v7, v8,
    me, hsr, hsh⟩ := a
  simp only [ai.AI.mk.injEq, GameState.mk.injEq, and_true, true_and]
  have hdx : mov.dst.1.toNat < 13 := by omega
  have hdy : mov.dst.2.toNat < 17 := by omega
  have hgx : mov.fr.1.toNat < 13 := by omega
  have hgy : mov.fr.2.toNat < 17 := by omega
  funext i j
  simp only at hocc hemp hcp hneq ⊢
  by_cases h1 : (↑i : Nat) = mov.dst.1.toNat ∧ (↑j : Nat) = mov.dst.2.toNat
  · rw [if_pos h1]
    have hi : i = ⟨mov.dst.1.toNat, hdx⟩ := Fin.ext h1.1
    have hj : j = ⟨mov.dst.2.toNat, hdy⟩ := Fin.ext h1.2
    have hb : brd ⟨mov.dst.1.toNat, hdx⟩ ⟨mov.dst.2.toNat, hdy⟩ =
        Tile.Empty := by
      have h := hemp
      rw [GameState.get_eq_board ⟨brd, ply, cp⟩ htx1 htx2 hty1 hty2] at h
      simpa using h
    subst hi
    subst hj
    exact hb.symm
  · rw [if_neg h1]
    by_cases h2 : (↑i : Nat) = mov.fr.1.toNat ∧ (↑j : Nat) = mov.fr.2.toNat
    · rw [if_pos h2]
      rw [dif_pos ⟨htx1, htx2, hty1, hty2⟩]
      rw [if_neg (by
        rintro ⟨e1, e2⟩
        exact hneq ⟨e1.symm, e2.symm⟩)]
      rw [if_pos trivial]
      rw [dif_pos ⟨hfx1, hfx2, hfy1, hfy2⟩]
      have hi : i = ⟨mov.fr.1.toNat, hgx⟩ := Fin.ext h2.1
      have hj : j = ⟨mov.fr.2.toNat, hgy⟩ := Fin.ext h2.2
      subst hi
      subst hj
      rfl
    · rw [if_neg h2, if_neg h2, if_neg h1]

/-- C3 (witness): the round trip evaluated at the default starting
position with a concrete legal slide of player 0. -/
theorem C3_make_unmake_round_trip_witness :
    GameState.is_valid_location 4 4 = true ∧
      GameState.is_valid_location 3 4 = true ∧
      c3AI.state.get 4 4 = Tile.Player c3AI.state.current_player ∧
      c3AI.state.get 3 4 = Tile.Empty ∧
      c3AI.state.current_player ≤ 1 ∧
      (c3AI.make_move c3Move).bind (fun b => b.unmake_move c3Move) =
        some c3AI :=
  ⟨by decide, by decide, by decide, by decide, by decide,
    C3_make_unmake_round_trip c3AI c3Move (by decide) (by decide)
      (by decide) (by decide) (by decide)⟩

/-! ## The search leaf condition (claim C4) -/

/-- C4: the search leafs out exactly at non-positive depth: whenever the
opponent has not already won and `depth <= 0`, `search_negamax` returns the
static evaluation after bumping the node counter, with no recursion. -/
theorem C4_leaf_exactly_at_nonpositive_depth (fuel : Nat) (a0 : ai.AI)
    (ply : Int) (alpha beta : ai.Score) (depth : Int)
    (hwon : a0.state.won (1 - a0.state.current_player) = false)
    (hd : depth ≤ 0) :
    ai.AI.search_negamax (fuel + 1) a0 ply alpha beta depth =
      some (({ a0 with visited_nodes := a0.visited_nodes + 1 } :
        ai.AI).evaluate_position) := by
  simp only [ai.AI.search_negamax]
  rw [if_neg (by simp [hwon]), if_pos hd]

theorem C4_leaf_witness :
    c4AI.state.won (1 - c4AI.state.current_player) = false ∧ (0 : Int) ≤ 0 ∧
      ai.AI.search_negamax 1 c4AI 0 (-ai.ISIZE_MAX) ai.ISIZE_MAX 0 =
        some (({ c4AI with visited_nodes := c4AI.visited_nodes + 1 } :
          ai.AI).evaluate_position) :=
  ⟨by decide, by decide,
    C4_leaf_exactly_at_nonpositive_depth 0 c4AI 0 (-ai.ISIZE_MAX)
      ai.ISIZE_MAX 0 (by decide) (by decide)⟩

set_option maxRecDepth 10000 in
/-- C4 (counterexample): at depth 500, inside the claimed leaf range
`0 < depth < ONE_PLY = 1000`, the search from the start position is not a
leaf: it visits 23 nodes (recursing 22 times) and returns 956, not the
static evaluation 0. -/
theorem C4_shallow_depth_not_leaf :
    (0 : Int) < 500 ∧ (500 : Int) < ai.ONE_PLY ∧
      c4AI.state.won (1 - c4AI.state.current_player) = false ∧
      (ai.AI.search_negamax 3 c4AI 0 (-ai.ISIZE_MAX) ai.ISIZE_MAX 500).map
          (fun r => r.2.visited_nodes) = some 23 ∧
      (ai.AI.search_negamax 3 c4AI 0 (-ai.ISIZE_MAX) ai.ISIZE_MAX 500).map
          Prod.fst ≠ some (c4AI.evaluate_position).1 :=
  ⟨by decide, by decide, by decide, by decide, by decide⟩

/-! ## The move-picker emission ordering (claim C6) -/

set_option maxRecDepth 10000 in
theorem cellGeom : ∀ i, i < 256 → BB_INVALID.get_bit i = false →
    2 * (i : Int) = 27 * (index_to_pos i).2 + 2 * (index_to_pos i).1 -
        (index_to_pos i).2 % 2 ∧
      0 ≤ (index_to_pos i).1 ∧ (index_to_pos i).1 ≤ 12 ∧
      0 ≤ (index_to_pos i).2 ∧ (index_to_pos i).2 ≤ 16 := by decide

set_option maxRecDepth 10000 in
theorem slideGeom : ∀ i, i < 256 → BB_INVALID.get_bit i = false →
    ∀ o ∈ InternalGameState.slideOffsets,
      BB_INVALID.get_bit ((i + o) % 256) = false →
      ((index_to_pos ((i + o) % 256)).2 - (index_to_pos i).2 = 1 ∧
          ((((i + o) % 256 : Nat) : Int) - (i : Nat) = 13 ∨ (((i + o) % 256 : Nat) : Int) - (i : Nat) = 14)) ∨
      ((index_to_pos ((i + o) % 256)).2 - (index_to_pos i).2 = -1 ∧
          ((((i + o) % 256 : Nat) : Int) - (i : Nat) = -13 ∨ (((i + o) % 256 : Nat) : Int) - (i : Nat) = -14)) ∨
      ((index_to_pos ((i + o) % 256)).2 - (index_to_pos i).2 = 0 ∧
          ((((i + o) % 256 : Nat) : Int) - (i : Nat) = 1 ∨ (((i + o) % 256 : Nat) : Int) - (i : Nat) = -1)) := by decide

set_option maxRecDepth 10000 in
theorem jumpParity : ∀ i, i < 256 →
    ∀ p ∈ [(1, 2), (13, 26), (14, 28)], i + p.2 < 256 →
    BB_INVALID.get_bit i = false → BB_INVALID.get_bit (i + p.1) = false →
    BB_INVALID.get_bit (i + p.2) = false →
    (index_to_pos (i + p.2)).2 % 2 = (index_to_pos i).2 % 2 := by decide

theorem get_bit_of_is_empty {c : Bitboard} (h : c.is_empty = true) (i : Nat) :
    c.get_bit i = false := by
  simp only [Bitboard.is_empty, Bool.and_eq_true, beq_iff_eq] at h
  obtain ⟨⟨⟨h0, h1⟩, h2⟩, h3⟩ := h
  unfold Bitboard.get_bit Bitboard.lane
  split <;> simp [h0, h1, h2, h3]

theorem get_bit_false_of_disjoint {a b : Bitboard}
    (h : (a.bitand b).is_empty = true) {i : Nat}
    (ha : a.get_bit i = true) : b.get_bit i = false := by
  have hc := get_bit_of_is_empty h i
  rw [Bitboard.get_bit_bitand, ha, Bool.true_and] at hc
  exact hc

theorem occ_valid {s : InternalGameState} (hinv : s.Invariant) :
    ∀ i, s.occupied_bb.get_bit i = true → BB_INVALID.get_bit i = false := by
  intro i h
  rw [InternalGameState.occupied_bb, Bitboard.get_bit_bitor,
    Bool.or_eq_true] at h
  rcases h with h | h
  · exact get_bit_false_of_disjoint hinv.2.2.1 h
  · exact get_bit_false_of_disjoint hinv.2.2.2.1 h

theorem emp_valid (s : InternalGameState) :
    ∀ i, (BB_INVALID.bitnot.bitand s.empty_bb).get_bit i = true →
      BB_INVALID.get_bit i = false := by
  intro i h
  rw [Bitboard.get_bit_bitand, Bitboard.get_bit_bitnot, Bool.and_eq_true] at h
  have h1 := h.1
  cases hb : BB_INVALID.get_bit i
  · rfl
  · rw [hb] at h1
    exact absurd h1 (by simp)

theorem jumpStep_inv {occ emp jt : Bitboard} (hwocc : occ.Wf) (hwjt : jt.Wf)
    (r : Nat)
    (hocc : ∀ i, occ.get_bit i = true → BB_INVALID.get_bit i = false)
    (hemp : ∀ i, emp.get_bit i = true → BB_INVALID.get_bit i = false)
    (hjt : ∀ i, i < 256 → jt.get_bit i = true →
      BB_INVALID.get_bit i = false ∧
        (index_to_pos i).2 % 2 = (index_to_pos r).2 % 2) :
    ∀ i, i < 256 →
      (InternalGameState.jumpStep occ emp jt).get_bit i = true →
      BB_INVALID.get_bit i = false ∧
        (index_to_pos i).2 % 2 = (index_to_pos r).2 % 2 := by
  intro i hi h
  simp only [InternalGameState.jumpStep, Bitboard.get_bit_bitor,
    Bitboard.get_bit_bitand, Bool.or_eq_true, Bool.and_eq_true] at h
  have hshl : ∀ p ∈ [(1, 2), (13, 26), (14, 28)],
      (occ.shl p.1).get_bit i = true → emp.get_bit i = true →
      (jt.shl p.2).get_bit i = true →
      BB_INVALID.get_bit i = false ∧
        (index_to_pos i).2 % 2 = (index_to_pos r).2 % 2 := by
    intro p hp ho he hj
    have hp' : p = (1, 2) ∨ p = (13, 26) ∨ p = (14, 28) := by simpa using hp
    have hsk1 : 1 ≤ p.1 ∧ p.1 ≤ 63 ∧ 1 ≤ p.2 ∧ p.2 ≤ 63 ∧ p.2 = 2 * p.1 := by
      rcases hp' with rfl | rfl | rfl <;> simp
    rw [Bitboard.get_bit_shl hwocc hsk1.1 hsk1.2.1 hi, Bool.and_eq_true,
      decide_eq_true_eq] at ho
    rw [Bitboard.get_bit_shl hwjt hsk1.2.2.1 hsk1.2.2.2.1 hi,
      Bool.and_eq_true, decide_eq_true_eq] at hj
    obtain ⟨hji, hjbit⟩ := hj
    obtain ⟨hvo, hpo⟩ := hjt (i - p.2) (by omega) hjbit
    have hvm : BB_INVALID.get_bit (i - p.2 + p.1) = false := by
      rw [show i - p.2 + p.1 = i - p.1 from by omega]
      exact hocc _ ho.2
    have hvi := hemp i he
    have hpar := jumpParity (i - p.2) (by omega) p hp
      (by omega) hvo hvm (by rw [show i - p.2 + p.2 = i from by omega]; exact hvi)
    rw [show i - p.2 + p.2 = i from by omega] at hpar
    exact ⟨hvi, hpar.trans hpo⟩
  have hshr : ∀ p ∈ [(1, 2), (13, 26), (14, 28)],
      (occ.shr p.1).get_bit i = true → emp.get_bit i = true →
      (jt.shr p.2).get_bit i = true →
      BB_INVALID.get_bit i = false ∧
        (index_to_pos i).2 % 2 = (index_to_pos r).2 % 2 := by
    intro p hp ho he hj
    have hp' : p = (1, 2) ∨ p = (13, 26) ∨ p = (14, 28) := by simpa using hp
    have hsk1 : 1 ≤ p.1 ∧ p.1 ≤ 63 ∧ 1 ≤ p.2 ∧ p.2 ≤ 63 := by
      rcases hp' with rfl | rfl | rfl <;> simp
    rw [Bitboard.get_bit_shr hwocc hsk1.1 hsk1.2.1 hi, Bool.and_eq_true,
      decide_eq_true_eq] at ho
    rw [Bitboard.get_bit_shr hwjt hsk1.2.2.1 hsk1.2.2.2 hi,
      Bool.and_eq_true, decide_eq_true_eq] at hj
    obtain ⟨hji, hjbit⟩ := hj
    obtain ⟨hvo, hpo⟩ := hjt (i + p.2) hji hjbit
    have hvi := hemp i he
    have hpar := jumpParity i (by omega) p hp hji hvi (hocc _ ho.2) hvo
    exact ⟨hvi, hpar.symm.trans hpo⟩
  rcases h with ((((((h | h) | h) | h) | h) | h) | h)
  · exact hjt i hi h
  · exact hshl (1, 2) (by simp) h.1.1 h.1.2 h.2
  · exact hshl (13, 26) (by simp) h.1.1 h.1.2 h.2
  · exact hshl (14, 28) (by simp) h.1.1 h.1.2 h.2
  · exact hshr (1, 2) (by simp) h.1.1 h.1.2 h.2
  · exact hshr (13, 26) (by simp) h.1.1 h.1.2 h.2
  · exact hshr (14, 28) (by simp) h.1.1 h.1.2 h.2

theorem jumpStep_wf {occ emp jt : Bitboard} (hwocc : occ.Wf) (hwjt : jt.Wf) :
    (InternalGameState.jumpStep occ emp jt).Wf := by
  unfold InternalGameState.jumpStep
  refine Bitboard.wf_bitor (Bitboard.wf_bitor (Bitboard.wf_bitor
    (Bitboard.wf_bitor (Bitboard.wf_bitor (Bitboard.wf_bitor hwjt ?_) ?_)
      ?_) ?_) ?_) ?_ <;>
    exact Bitboard.wf_bitand (Bitboard.wf_bitand
      (by first
        | exact Bitboard.wf_shl hwocc _
        | exact Bitboard.wf_shr hwocc _))

theorem jumpLoop_inv {occ emp : Bitboard} (hwocc : occ.Wf) (r : Nat)
    (hocc : ∀ i, occ.get_bit i = true → BB_INVALID.get_bit i = false)
    (hemp : ∀ i, emp.get_bit i = true → BB_INVALID.get_bit i = false) :
    ∀ (fuel : Nat) (jt njt : Bitboard), njt.Wf →
      (∀ i, i < 256 → njt.get_bit i = true →
        BB_INVALID.get_bit i = false ∧
          (index_to_pos i).2 % 2 = (index_to_pos r).2 % 2) →
      ∀ i, i < 256 →
        (InternalGameState.jumpLoop occ emp fuel jt njt).get_bit i = true →
        BB_INVALID.get_bit i = false ∧
          (index_to_pos i).2 % 2 = (index_to_pos r).2 % 2 := by
  intro fuel
  induction fuel with
  | zero => intro jt njt _ hn i hi h; exact hn i hi h
  | succ fuel ih =>
    intro jt njt hw hn i hi h
    rw [InternalGameState.jumpLoop] at h
    split_ifs at h with hstop
    · exact hn i hi (hstop ▸ h)
    · exact ih njt (InternalGameState.jumpStep occ emp njt)
        (jumpStep_wf hwocc hw)
        (jumpStep_inv hwocc hw r hocc hemp hn) i hi h

theorem slideFold_src (emp : Bitboard) (frm : Nat) :
    ∀ (l : List Nat) (res : Bitboard) (i : Nat), i < 256 →
      ((l.foldl (fun acc slide =>
          let dst := (frm + slide) % 256
          if emp.get_bit dst then acc.set_bit dst else acc) res).get_bit i =
        true) →
      res.get_bit i = true ∨
        ∃ o ∈ l, i = (frm + o) % 256 ∧ emp.get_bit i = true := by
  intro l
  induction l with
  | nil => intro res i hi h; exact Or.inl h
  | cons a t ih =>
    intro res i hi h
    simp only [List.foldl_cons] at h
    rcases ih _ i hi h with h2 | h2
    · by_cases hc : emp.get_bit ((frm + a) % 256) = true
      · rw [if_pos hc] at h2
        rw [Bitboard.get_bit_set_bit res hi (Nat.mod_lt _ (by norm_num))]
          at h2
        rcases Bool.or_eq_true_iff.mp h2 with h3 | h3
        · have he : i = (frm + a) % 256 := by simpa using h3
          exact Or.inr ⟨a, by simp, he, he ▸ hc⟩
        · exact Or.inl h3
      · rw [if_neg hc] at h2
        exact Or.inl h2
    · obtain ⟨o, ho, he⟩ := h2
      exact Or.inr ⟨o, by simp [ho], he⟩

theorem reachable_from_geom (s : InternalGameState) (hinv : s.Invariant)
    (frm : Nat) (hfrm : frm < 256)
    (hvf : BB_INVALID.get_bit frm = false) :
    ∀ dst, dst < 256 → (s.reachable_from frm).get_bit dst = true →
      BB_INVALID.get_bit dst = false ∧
      ((index_to_pos dst).2 % 2 = (index_to_pos frm).2 % 2 ∨
       ((index_to_pos dst).2 - (index_to_pos frm).2 = 1 ∧
         ((dst : Int) - frm = 13 ∨ (dst : Int) - frm = 14)) ∨
       ((index_to_pos dst).2 - (index_to_pos frm).2 = -1 ∧
         ((dst : Int) - frm = -13 ∨ (dst : Int) - frm = -14))) := by
  intro dst hdst h
  unfold InternalGameState.reachable_from at h
  rw [Bitboard.get_bit_unset_bit _ hdst hfrm, Bool.and_eq_true] at h
  obtain ⟨hne, h2⟩ := h
  have hepv := emp_valid s
  have hwocc : s.occupied_bb.Wf :=
    Bitboard.wf_bitor hinv.1 hinv.2.1
  rcases slideFold_src _ frm _ _ dst hdst h2 with h3 | h3
  · have hj := jumpLoop_inv hwocc frm (occ_valid hinv) hepv 257
      Bitboard.default (Bitboard.bit frm) (Bitboard.wf_bit frm)
      (fun i hi hbit => by
        rw [Bitboard.get_bit_bit hi hfrm] at hbit
        have he : i = frm := by simpa using hbit
        exact ⟨he ▸ hvf, by rw [he]⟩)
      dst hdst h3
    exact ⟨hj.1, Or.inl hj.2⟩
  · obtain ⟨o, ho, he, hemp2⟩ := h3
    have hvd : BB_INVALID.get_bit dst = false := hepv dst hemp2
    have hsg := slideGeom frm hfrm hvf o ho (he ▸ hvd)
    rw [← he] at hsg
    refine ⟨hvd, ?_⟩
    rcases hsg with ⟨h4, h5⟩ | ⟨h4, h5⟩ | ⟨h4, h5⟩
    · exact Or.inr (Or.inl ⟨h4, h5⟩)
    · exact Or.inr (Or.inr ⟨h4, h5⟩)
    · exact Or.inl (by omega)

theorem pieces_valid {s : InternalGameState} (hinv : s.Invariant) (p i : Nat)
    (h : (s.pieces p).get_bit i = true) : BB_INVALID.get_bit i = false := by
  unfold InternalGameState.pieces at h
  split_ifs at h
  · exact get_bit_false_of_disjoint hinv.2.2.1 h
  · exact get_bit_false_of_disjoint hinv.2.2.2.1 h

theorem moveOrderTransfer (s : InternalGameState) (hinv : s.Invariant)
    {m1 m2 : InternalMove}
    (h1f : m1.fr < 256) (h1d : m1.dst < 256)
    (h1p : (s.pieces s.current_player).get_bit m1.fr = true)
    (h1r : (s.reachable_from m1.fr).get_bit m1.dst = true)
    (h2f : m2.fr < 256) (h2d : m2.dst < 256)
    (h2p : (s.pieces s.current_player).get_bit m2.fr = true)
    (h2r : (s.reachable_from m2.fr).get_bit m2.dst = true)
    (hrow : move_picker.rowScore s.current_player m1 <
      move_picker.rowScore s.current_player m2) :
    move_picker.move_score s.current_player m1 <
      move_picker.move_score s.current_player m2 := by
  have hv1f := pieces_valid hinv _ _ h1p
  have hv2f := pieces_valid hinv _ _ h2p
  obtain ⟨hv1d, hg1⟩ := reachable_from_geom s hinv m1.fr h1f hv1f m1.dst h1d h1r
  obtain ⟨hv2d, hg2⟩ := reachable_from_geom s hinv m2.fr h2f hv2f m2.dst h2d h2r
  obtain ⟨he1f, hx1f0, hx1f, hy1f0, hy1f⟩ := cellGeom m1.fr h1f hv1f
  obtain ⟨he1d, hx1d0, hx1d, hy1d0, hy1d⟩ := cellGeom m1.dst h1d hv1d
  obtain ⟨he2f, hx2f0, hx2f, hy2f0, hy2f⟩ := cellGeom m2.fr h2f hv2f
  obtain ⟨he2d, hx2d0, hx2d, hy2d0, hy2d⟩ := cellGeom m2.dst h2d hv2d
  unfold move_picker.rowScore at hrow
  unfold move_picker.move_score
  split_ifs at hrow ⊢ with hcp
  · show (m1.dst : Int) - (m1.fr : Int) < (m2.dst : Int) - (m2.fr : Int)
    rcases hg1 with hp1 | ⟨hp1, hq1 | hq1⟩ | ⟨hp1, hq1 | hq1⟩ <;>
      rcases hg2 with hp2 | ⟨hp2, hq2 | hq2⟩ | ⟨hp2, hq2 | hq2⟩ <;> omega
  · show (m1.fr : Int) - (m1.dst : Int) < (m2.fr : Int) - (m2.dst : Int)
    rcases hg1 with hp1 | ⟨hp1, hq1 | hq1⟩ | ⟨hp1, hq1 | hq1⟩ <;>
      rcases hg2 with hp2 | ⟨hp2, hq2 | hq2⟩ | ⟨hp2, hq2 | hq2⟩ <;> omega

theorem argmaxFold_spec {α : Type} (f : α → ai.Score) (m : α) :
    ∀ (t seen : List α) (bi : Nat) (bs : ai.Score),
      bi ≤ seen.length →
      bs = f ((m :: seen).getD bi m) →
      (∀ x ∈ m :: seen, f x ≤ bs) →
      ((t.foldl
          (fun (acc : Nat × ai.Score × Nat) mv =>
            let (bi, bs, ci) := acc
            if f mv > bs then (ci, f mv, ci + 1) else (bi, bs, ci + 1))
          (bi, bs, seen.length + 1)).1 ≤ (seen ++ t).length ∧
        (t.foldl
          (fun (acc : Nat × ai.Score × Nat) mv =>
            let (bi, bs, ci) := acc
            if f mv > bs then (ci, f mv, ci + 1) else (bi, bs, ci + 1))
          (bi, bs, seen.length + 1)).2.1 =
          f ((m :: (seen ++ t)).getD
            (t.foldl
              (fun (acc : Nat × ai.Score × Nat) mv =>
                let (bi, bs, ci) := acc
                if f mv > bs then (ci, f mv, ci + 1) else (bi, bs, ci + 1))
              (bi, bs, seen.length + 1)).1 m) ∧
        (∀ x ∈ m :: (seen ++ t),
          f x ≤ (t.foldl
            (fun (acc : Nat × ai.Score × Nat) mv =>
              let (bi, bs, ci) := acc
              if f mv > bs then (ci, f mv, ci + 1) else (bi, bs, ci + 1))
            (bi, bs, seen.length + 1)).2.1)) := by
  intro t
  induction t with
  | nil =>
    intro seen bi bs hbi hbs hmax
    simp only [List.foldl_nil, List.append_nil]
    exact ⟨hbi.trans (Nat.le_refl _), hbs, hmax⟩
  | cons a t ih =>
    intro seen bi bs hbi hbs hmax
    simp only [List.foldl_cons]
    by_cases hgt : f a > bs
    · rw [if_pos hgt]
      have hstep : seen.length + 1 + 1 = (seen ++ [a]).length + 1 := by simp
      rw [hstep]
      have h1 : seen.length + 1 ≤ (seen ++ [a]).length := by simp
      have h2 : f a = f ((m :: (seen ++ [a])).getD (seen.length + 1) m) := by
        rw [List.getD_cons_succ, List.getD_eq_getElem _ _ (by simp)]
        congr 1
        exact (List.getElem_concat_length seen a _ rfl (by simp)).symm
      have h3 : ∀ x ∈ m :: (seen ++ [a]), f x ≤ f a := by
        intro x hx
        rcases List.mem_cons.mp hx with rfl | hx2
        · exact le_of_lt (lt_of_le_of_lt
            (hmax _ (List.mem_cons_self _ _)) hgt)
        · rcases List.mem_append.mp hx2 with hh | hh
          · exact le_of_lt (lt_of_le_of_lt
              (hmax _ (List.mem_cons_of_mem _ hh)) hgt)
          · rw [List.mem_singleton] at hh
            subst hh
            exact le_refl _
      have := ih (seen ++ [a]) (seen.length + 1) (f a) h1 h2 h3
      simpa [List.append_assoc] using this
    · rw [if_neg hgt]
      have hstep : seen.length + 1 + 1 = (seen ++ [a]).length + 1 := by simp
      rw [hstep]
      have h1 : bi ≤ (seen ++ [a]).length := by simp; omega
      have h2 : bs = f ((m :: (seen ++ [a])).getD bi m) := by
        rw [show m :: (seen ++ [a]) = (m :: seen) ++ [a] from rfl,
          List.getD_append _ _ _ _ (by simp; omega)]
        exact hbs
      have h3 : ∀ x ∈ m :: (seen ++ [a]), f x ≤ bs := by
        intro x hx
        rcases List.mem_cons.mp hx with rfl | hx2
        · exact hmax _ (List.mem_cons_self _ _)
        · rcases List.mem_append.mp hx2 with hh | hh
          · exact hmax _ (List.mem_cons_of_mem _ hh)
          · rw [List.mem_singleton] at hh
            subst hh
            exact le_of_not_lt hgt
      have := ih (seen ++ [a]) bi bs h1 h2 h3
      simpa [List.append_assoc] using this

theorem argmaxIdx_spec {α : Type} (f : α → ai.Score) (m : α)
    (rest : List α) :
    ai.argmaxIdx f m rest ≤ rest.length ∧
    ∀ x ∈ m :: rest, f x ≤ f ((m :: rest).getD (ai.argmaxIdx f m rest) m) := by
  have h := argmaxFold_spec f m rest [] 0 (f m) (by simp) (by simp) (by
    intro x hx
    rcases List.mem_cons.mp hx with rfl | hx
    · exact le_refl _
    · simp at hx)
  simp only [List.nil_append, List.length_nil] at h
  obtain ⟨h1, h2, h3⟩ := h
  unfold ai.argmaxIdx
  refine ⟨h1, fun x hx => ?_⟩
  have := h3 x hx
  rw [h2] at this
  exact this

theorem selStep_max {α : Type} [Inhabited α] (f : α → ai.Score) (m : α)
    (rest : List α) :
    ∀ x ∈ m :: rest, f x ≤ f (ai.selStep f m rest).1 := by
  obtain ⟨hle, hmax⟩ := argmaxIdx_spec f m rest
  intro x hx
  show f x ≤ f (if ai.argmaxIdx f m rest = 0 then (m, rest)
    else (rest.getD (ai.argmaxIdx f m rest - 1) m,
      rest.set (ai.argmaxIdx f m rest - 1) m)).1
  split_ifs with hp
  · have := hmax x hx
    rwa [hp, List.getD_cons_zero] at this
  · have := hmax x hx
    rwa [show ai.argmaxIdx f m rest = (ai.argmaxIdx f m rest - 1) + 1 from
      by omega, List.getD_cons_succ] at this

theorem selStep_perm {α : Type} [Inhabited α] (f : α → ai.Score) (m : α)
    (rest : List α) :
    ((ai.selStep f m rest).1 :: (ai.selStep f m rest).2).Perm (m :: rest) := by
  obtain ⟨hle, _⟩ := argmaxIdx_spec f m rest
  show ((if ai.argmaxIdx f m rest = 0 then (m, rest)
    else (rest.getD (ai.argmaxIdx f m rest - 1) m,
      rest.set (ai.argmaxIdx f m rest - 1) m)).1 ::
    (if ai.argmaxIdx f m rest = 0 then (m, rest)
    else (rest.getD (ai.argmaxIdx f m rest - 1) m,
      rest.set (ai.argmaxIdx f m rest - 1) m)).2).Perm (m :: rest)
  split_ifs with hp
  · exact List.Perm.refl _
  · have hn : ai.argmaxIdx f m rest - 1 < rest.length := by omega
    rw [List.getD_eq_getElem _ _ hn,
      List.set_eq_take_cons_drop _ hn]
    conv => rw [show m :: rest =
      m :: (rest.take (ai.argmaxIdx f m rest - 1) ++
        rest.drop (ai.argmaxIdx f m rest - 1)) from by rw [List.take_append_drop],
      List.drop_eq_getElem_cons hn]
    refine List.Perm.trans (List.Perm.cons _ List.perm_middle) ?_
    refine List.Perm.trans (List.Perm.swap _ _ _) ?_
    exact List.Perm.cons _ List.perm_middle.symm

theorem selStep_length {α : Type} [Inhabited α] (f : α → ai.Score) (m : α)
    (rest : List α) : (ai.selStep f m rest).2.length = rest.length := by
  show (if ai.argmaxIdx f m rest = 0 then (m, rest)
    else (rest.getD (ai.argmaxIdx f m rest - 1) m,
      rest.set (ai.argmaxIdx f m rest - 1) m)).2.length = rest.length
  split_ifs with hp
  · rfl
  · exact List.length_set ..

theorem selEmit_perm {α : Type} [Inhabited α] (f : α → ai.Score) (n : Nat) :
    ∀ (fuel idx : Nat) (l : List α), l.length = fuel →
      (ai.selEmit f n fuel idx l).Perm l := by
  intro fuel
  induction fuel with
  | zero =>
    intro idx l hlen
    rw [List.eq_nil_of_length_eq_zero hlen]
    simp [ai.selEmit]
  | succ fuel ih =>
    intro idx l hlen
    cases l with
    | nil => simp at hlen
    | cons m rest =>
      rcases hsel : ai.selStep f m rest with ⟨e, rest'⟩
      by_cases hidx : idx < n
      · have hred : ai.selEmit f n (fuel + 1) idx (m :: rest) =
            e :: ai.selEmit f n fuel (idx + 1) rest' := by
          rw [ai.selEmit, if_pos hidx, hsel]
        rw [hred]
        have hlen' : rest'.length = fuel := by
          have := selStep_length f m rest
          rw [hsel] at this
          simp at this hlen
          omega
        refine List.Perm.trans (List.Perm.cons _ (ih (idx + 1) rest' hlen')) ?_
        have := selStep_perm f m rest
        rwa [hsel] at this
      · have hred : ai.selEmit f n (fuel + 1) idx (m :: rest) =
            m :: ai.selEmit f n fuel (idx + 1) rest := by
          rw [ai.selEmit, if_neg hidx]
        rw [hred]
        exact List.Perm.cons _ (ih (idx + 1) rest (by simp at hlen; omega))

theorem selEmit_prefix_max {α : Type} [Inhabited α] (f : α → ai.Score)
    (n : Nat) :
    ∀ (fuel idx : Nat) (l : List α), l.length = fuel →
      ∀ k j : Nat, k + idx < n → k ≤ j → j < fuel →
        f ((ai.selEmit f n fuel idx l).getD j default) ≤
          f ((ai.selEmit f n fuel idx l).getD k default) := by
  intro fuel
  induction fuel with
  | zero => intro idx l hlen k j hk hkj hj; omega
  | succ fuel ih =>
    intro idx l hlen k j hk hkj hj
    cases l with
    | nil => simp at hlen
    | cons m rest =>
      have hidx : idx < n := by omega
      rcases hsel : ai.selStep f m rest with ⟨e, rest'⟩
      have hred : ai.selEmit f n (fuel + 1) idx (m :: rest) =
          e :: ai.selEmit f n fuel (idx + 1) rest' := by
        rw [ai.selEmit, if_pos hidx, hsel]
      rw [hred]
      have hlen' : rest'.length = fuel := by
        have := selStep_length f m rest
        rw [hsel] at this
        simp at this hlen
        omega
      cases k with
      | zero =>
        rw [List.getD_cons_zero]
        cases j with
        | zero => rw [List.getD_cons_zero]
        | succ j' =>
          rw [List.getD_cons_succ]
          have hperm' := selEmit_perm f n fuel (idx + 1) rest' hlen'
          have hjlen : j' < (ai.selEmit f n fuel (idx + 1) rest').length := by
            rw [hperm'.length_eq, hlen']
            omega
          have hmem : (ai.selEmit f n fuel (idx + 1) rest').getD j' default ∈
              m :: rest := by
            have h1 : (ai.selEmit f n fuel (idx + 1) rest').getD j' default ∈
                ai.selEmit f n fuel (idx + 1) rest' := by
              rw [List.getD_eq_getElem _ _ hjlen]
              exact List.getElem_mem _
            have h2 := hperm'.mem_iff.mp h1
            have h3 : (ai.selEmit f n fuel (idx + 1) rest').getD j' default ∈
                e :: rest' := List.mem_cons_of_mem _ h2
            have h4 := selStep_perm f m rest
            rw [hsel] at h4
            exact h4.mem_iff.mp h3
          have := selStep_max f m rest _ hmem
          rwa [hsel] at this
      | succ k' =>
        cases j with
        | zero => omega
        | succ j' =>
          rw [List.getD_cons_succ, List.getD_cons_succ]
          exact ih (idx + 1) rest' hlen' k' j' (by omega) (by omega) (by omega)

/-- C6: in the emission (`All`) stage of the staged move picker, each of the
first 8 moves yielded maximises the signed row-advance score over all
generated moves not yet yielded (the tail of the emission sequence, which is
a permutation of the generated list) — the picker's index-delta
`move_score` refines the row-delta ordering on legal moves. -/
theorem C6_first8_emissions_maximize_row_advance
    (s : InternalGameState) (hinv : s.Invariant)
    (moves : List InternalMove)
    (hleg : ∀ m ∈ moves, m.fr < 256 ∧ m.dst < 256 ∧
      (s.pieces s.current_player).get_bit m.fr = true ∧
      (s.reachable_from m.fr).get_bit m.dst = true) :
    (move_picker.allEmission s.current_player moves).Perm moves ∧
    ∀ k j : Nat, k < 8 → k ≤ j →
      j < (move_picker.allEmission s.current_player moves).length →
      move_picker.rowScore s.current_player
          ((move_picker.allEmission s.current_player moves).getD j default) ≤
        move_picker.rowScore s.current_player
          ((move_picker.allEmission s.current_player moves).getD k default) := by
  have hperm : (move_picker.allEmission s.current_player moves).Perm moves :=
    selEmit_perm _ 8 moves.length 0 moves rfl
  refine ⟨hperm, fun k j hk hkj hj => ?_⟩
  have hlen : (move_picker.allEmission s.current_player moves).length =
      moves.length := hperm.length_eq
  have hidx : move_picker.move_score s.current_player
      ((move_picker.allEmission s.current_player moves).getD j default) ≤
      move_picker.move_score s.current_player
      ((move_picker.allEmission s.current_player moves).getD k default) :=
    selEmit_prefix_max (move_picker.move_score s.current_player) 8
      moves.length 0 moves rfl k j (by omega) hkj (by omega)
  by_contra hrow
  push_neg at hrow
  have hkl : k < (move_picker.allEmission s.current_player moves).length :=
    lt_of_le_of_lt hkj hj
  have hmemk : (move_picker.allEmission s.current_player moves).getD k
      default ∈ moves := by
    refine hperm.mem_iff.mp ?_
    rw [List.getD_eq_getElem _ _ hkl]
    exact List.getElem_mem _
  have hmemj : (move_picker.allEmission s.current_player moves).getD j
      default ∈ moves := by
    refine hperm.mem_iff.mp ?_
    rw [List.getD_eq_getElem _ _ hj]
    exact List.getElem_mem _
  obtain ⟨hkf, hkd, hkp, hkr⟩ := hleg _ hmemk
  obtain ⟨hjf, hjd, hjp, hjr⟩ := hleg _ hmemj
  exact absurd hidx (not_le.mpr
    (moveOrderTransfer s hinv hkf hkd hkp hkr hjf hjd hjp hjr hrow))

/-- C6 (witness): the statement evaluated on a concrete two-piece state with
three generated moves of mixed row advance. -/
theorem C6_first8_emissions_maximize_row_advance_witness :
    c6S.Invariant ∧
      (∀ m ∈ c6Moves, m.fr < 256 ∧ m.dst < 256 ∧
        (c6S.pieces c6S.current_player).get_bit m.fr = true ∧
        (c6S.reachable_from m.fr).get_bit m.dst = true) ∧
      ((move_picker.allEmission c6S.current_player c6Moves).Perm c6Moves ∧
      ∀ k j : Nat, k < 8 → k ≤ j →
        j < (move_picker.allEmission c6S.current_player c6Moves).length →
        move_picker.rowScore c6S.current_player
            ((move_picker.allEmission c6S.current_player c6Moves).getD j
              default) ≤
          move_picker.rowScore c6S.current_player
            ((move_picker.allEmission c6S.current_player c6Moves).getD k
              default)) :=
  ⟨by decide, by decide,
    C6_first8_emissions_maximize_row_advance c6S (by decide) c6Moves
      (by decide)⟩

/-! ## Move-generation equivalence (claim C2) -/

theorem pos_to_index_lt (x y : Nat) : pos_to_index x y < 256 :=
  Nat.mod_lt _ (by norm_num)

theorem pieceFold_nil (g : GameState) (pc : Bitboard × Bitboard) :
    pieceFold g [] pc = pc := rfl

theorem pieceFold_cons (g : GameState) (c : Nat × Nat) (t : List (Nat × Nat))
    (pc : Bitboard × Bitboard) :
    pieceFold g (c :: t) pc = pieceFold g t
      (match g.get (c.1 : Int) (c.2 : Int) with
        | Tile.Player 0 => (pc.1.set_bit (pos_to_index c.1 c.2), pc.2)
        | Tile.Player 1 => (pc.1, pc.2.set_bit (pos_to_index c.1 c.2))
        | _ => pc) := rfl

theorem pieceFold_wf (g : GameState) :
    ∀ (l : List (Nat × Nat)) (pc : Bitboard × Bitboard),
      pc.1.Wf → pc.2.Wf →
      (pieceFold g l pc).1.Wf ∧ (pieceFold g l pc).2.Wf := by
  intro l
  induction l with
  | nil => intro pc h1 h2; exact ⟨h1, h2⟩
  | cons c t ih =>
    intro pc h1 h2
    rw [pieceFold_cons]
    rcases hg : g.get (c.1 : Int) (c.2 : Int) with _ | _ | p
    · simp only [hg]
      exact ih pc h1 h2
    · simp only [hg]
      exact ih pc h1 h2
    · match p with
      | 0 =>
        simp only [hg]
        exact ih _ (Bitboard.wf_set_bit h1 _) h2
      | 1 =>
        simp only [hg]
        exact ih _ h1 (Bitboard.wf_set_bit h2 _)
      | n + 2 =>
        simp only [hg]
        exact ih pc h1 h2

theorem pieceFold_bit_fst (g : GameState) (i : Nat) (hi : i < 256) :
    ∀ (l : List (Nat × Nat)) (pc : Bitboard × Bitboard),
      ((pieceFold g l pc).1.get_bit i = true ↔
        pc.1.get_bit i = true ∨ ∃ c ∈ l, pos_to_index c.1 c.2 = i ∧
          g.get (c.1 : Int) (c.2 : Int) = Tile.Player 0) := by
  intro l
  induction l with
  | nil =>
    intro pc
    simp [pieceFold_nil]
  | cons c t ih =>
    intro pc
    rw [pieceFold_cons]
    have hskip : ∀ (pc' : Bitboard × Bitboard), pc'.1 = pc.1 →
        g.get (c.1 : Int) (c.2 : Int) ≠ Tile.Player 0 →
        ((pieceFold g t pc').1.get_bit i = true ↔
          pc.1.get_bit i = true ∨ ∃ c' ∈ c :: t, pos_to_index c'.1 c'.2 = i ∧
            g.get (c'.1 : Int) (c'.2 : Int) = Tile.Player 0) := by
      intro pc' hpc h
      rw [ih pc', hpc]
      constructor
      · rintro (h2 | ⟨c', hc', he, hgc⟩)
        · exact Or.inl h2
        · exact Or.inr ⟨c', List.mem_cons_of_mem _ hc', he, hgc⟩
      · rintro (h2 | ⟨c', hc', he, hgc⟩)
        · exact Or.inl h2
        · rcases List.mem_cons.mp hc' with rfl | hc''
          · exact absurd hgc h
          · exact Or.inr ⟨c', hc'', he, hgc⟩
    rcases hg : g.get (c.1 : Int) (c.2 : Int) with _ | _ | q
    · simp only [hg]
      exact hskip pc rfl (by rw [hg]; simp)
    · simp only [hg]
      exact hskip pc rfl (by rw [hg]; simp)
    · match q with
      | 0 =>
        simp only [hg]
        rw [ih _]
        constructor
        · rintro (h | ⟨c', hc', he, hgc⟩)
          · rw [Bitboard.get_bit_set_bit _ hi (pos_to_index_lt _ _)] at h
            rcases Bool.or_eq_true_iff.mp h with h2 | h2
            · exact Or.inr ⟨c, List.mem_cons_self _ _,
                (by simpa using h2 : i = pos_to_index c.1 c.2).symm, hg⟩
            · exact Or.inl h2
          · exact Or.inr ⟨c', List.mem_cons_of_mem _ hc', he, hgc⟩
        · rintro (h | ⟨c', hc', he, hgc⟩)
          · refine Or.inl ?_
            rw [Bitboard.get_bit_set_bit _ hi (pos_to_index_lt _ _), h]
            simp
          · rcases List.mem_cons.mp hc' with rfl | hc''
            · refine Or.inl ?_
              rw [Bitboard.get_bit_set_bit _ hi (pos_to_index_lt _ _), he]
              simp
            · exact Or.inr ⟨c', hc'', he, hgc⟩
      | 1 =>
        simp only [hg]
        exact hskip (pc.1, pc.2.set_bit (pos_to_index c.1 c.2)) rfl
          (by rw [hg]; simp)
      | n + 2 =>
        simp only [hg]
        exact hskip pc rfl (by rw [hg]; simp)

theorem pieceFold_bit_snd (g : GameState) (i : Nat) (hi : i < 256) :
    ∀ (l : List (Nat × Nat)) (pc : Bitboard × Bitboard),
      ((pieceFold g l pc).2.get_bit i = true ↔
        pc.2.get_bit i = true ∨ ∃ c ∈ l, pos_to_index c.1 c.2 = i ∧
          g.get (c.1 : Int) (c.2 : Int) = Tile.Player 1) := by
  intro l
  induction l with
  | nil =>
    intro pc
    simp [pieceFold_nil]
  | cons c t ih =>
    intro pc
    rw [pieceFold_cons]
    have hskip : ∀ (pc' : Bitboard × Bitboard), pc'.2 = pc.2 →
        g.get (c.1 : Int) (c.2 : Int) ≠ Tile.Player 1 →
        ((pieceFold g t pc').2.get_bit i = true ↔
          pc.2.get_bit i = true ∨ ∃ c' ∈ c :: t, pos_to_index c'.1 c'.2 = i ∧
            g.get (c'.1 : Int) (c'.2 : Int) = Tile.Player 1) := by
      intro pc' hpc h
      rw [ih pc', hpc]
      constructor
      · rintro (h2 | ⟨c', hc', he, hgc⟩)
        · exact Or.inl h2
        · exact Or.inr ⟨c', List.mem_cons_of_mem _ hc', he, hgc⟩
      · rintro (h2 | ⟨c', hc', he, hgc⟩)
        · exact Or.inl h2
        · rcases List.mem_cons.mp hc' with rfl | hc''
          · exact absurd hgc h
          · exact Or.inr ⟨c', hc'', he, hgc⟩
    rcases hg : g.get (c.1 : Int) (c.2 : Int) with _ | _ | q
    · simp only [hg]
      exact hskip pc rfl (by rw [hg]; simp)
    · simp only [hg]
      exact hskip pc rfl (by rw [hg]; simp)
    · match q with
      | 0 =>
        simp only [hg]
        exact hskip (pc.1.set_bit (pos_to_index c.1 c.2), pc.2) rfl
          (by rw [hg]; simp)
      | 1 =>
        simp only [hg]
        rw [ih _]
        constructor
        · rintro (h | ⟨c', hc', he, hgc⟩)
          · rw [Bitboard.get_bit_set_bit _ hi (pos_to_index_lt _ _)] at h
            rcases Bool.or_eq_true_iff.mp h with h2 | h2
            · exact Or.inr ⟨c, List.mem_cons_self _ _,
                (by simpa using h2 : i = pos_to_index c.1 c.2).symm, hg⟩
            · exact Or.inl h2
          · exact Or.inr ⟨c', List.mem_cons_of_mem _ hc', he, hgc⟩
        · rintro (h | ⟨c', hc', he, hgc⟩)
          · refine Or.inl ?_
            rw [Bitboard.get_bit_set_bit _ hi (pos_to_index_lt _ _), h]
            simp
          · rcases List.mem_cons.mp hc' with rfl | hc''
            · refine Or.inl ?_
              rw [Bitboard.get_bit_set_bit _ hi (pos_to_index_lt _ _), he]
              simp
            · exact Or.inr ⟨c', hc'', he, hgc⟩
      | n + 2 =>
        simp only [hg]
        exact hskip pc rfl (by rw [hg]; simp)

theorem pos_to_index_eq {x y : Nat} (hx : x < 13) (hy : y < 17) :
    pos_to_index x y = y / 2 * 27 + y % 2 * 13 + x := by
  unfold pos_to_index LONG_ROW TWO_ROWS
  apply Nat.mod_eq_of_lt
  omega

theorem pos_to_index_inj {x y x' y' : Nat} (hx : x < 13) (hy : y < 17)
    (hx' : x' < 13) (hy' : y' < 17)
    (h : pos_to_index x y = pos_to_index x' y') : x = x' ∧ y = y' := by
  rw [pos_to_index_eq hx hy, pos_to_index_eq hx' hy'] at h
  omega

theorem mem_allCells {c : Nat × Nat} :
    c ∈ allCells ↔ c.1 < 13 ∧ c.2 < 17 := by
  rcases c with ⟨x, y⟩
  simp [allCells, List.mem_flatMap, List.mem_range]

theorem fromExternal_p0_bit (g : GameState) (i : Nat) (hi : i < 256) :
    ((InternalGameState.fromExternal g).p0.get_bit i = true ↔
      ∃ x y : Nat, x < 13 ∧ y < 17 ∧ pos_to_index x y = i ∧
        g.get (x : Int) (y : Int) = Tile.Player 0) := by
  show ((pieceFold g allCells (Bitboard.default, Bitboard.default)).1.get_bit
      i = true ↔ _)
  rw [pieceFold_bit_fst g i hi allCells _]
  constructor
  · rintro (h | ⟨c, hc, he, hgc⟩)
    · rw [Bitboard.get_bit_default] at h
      exact absurd h (by simp)
    · exact ⟨c.1, c.2, (mem_allCells.mp hc).1, (mem_allCells.mp hc).2,
        he, hgc⟩
  · rintro ⟨x, y, hx, hy, he, hgc⟩
    exact Or.inr ⟨(x, y), mem_allCells.mpr ⟨hx, hy⟩, he, hgc⟩

theorem fromExternal_p1_bit (g : GameState) (i : Nat) (hi : i < 256) :
    ((InternalGameState.fromExternal g).p1.get_bit i = true ↔
      ∃ x y : Nat, x < 13 ∧ y < 17 ∧ pos_to_index x y = i ∧
        g.get (x : Int) (y : Int) = Tile.Player 1) := by
  show ((pieceFold g allCells (Bitboard.default, Bitboard.default)).2.get_bit
      i = true ↔ _)
  rw [pieceFold_bit_snd g i hi allCells _]
  constructor
  · rintro (h | ⟨c, hc, he, hgc⟩)
    · rw [Bitboard.get_bit_default] at h
      exact absurd h (by simp)
    · exact ⟨c.1, c.2, (mem_allCells.mp hc).1, (mem_allCells.mp hc).2,
        he, hgc⟩
  · rintro ⟨x, y, hx, hy, he, hgc⟩
    exact Or.inr ⟨(x, y), mem_allCells.mpr ⟨hx, hy⟩, he, hgc⟩

theorem fromExternal_wf (g : GameState) :
    (InternalGameState.fromExternal g).p0.Wf ∧
      (InternalGameState.fromExternal g).p1.Wf := by
  exact pieceFold_wf g allCells (Bitboard.default, Bitboard.default)
    Bitboard.wf_default Bitboard.wf_default

theorem fromExternal_occ_at (g : GameState) (x y : Nat)
    (hx : x < 13) (hy : y < 17) :
    ((InternalGameState.fromExternal g).occupied_bb.get_bit
        (pos_to_index x y) = true ↔
      (∃ p, g.get (x : Int) (y : Int) = Tile.Player p ∧ p ≤ 1)) := by
  rw [InternalGameState.occupied_bb, Bitboard.get_bit_bitor,
    Bool.or_eq_true]
  rw [fromExternal_p0_bit g _ (pos_to_index_lt _ _),
    fromExternal_p1_bit g _ (pos_to_index_lt _ _)]
  constructor
  · rintro (⟨x', y', hx', hy', he, hgc⟩ | ⟨x', y', hx', hy', he, hgc⟩) <;>
      obtain ⟨rfl, rfl⟩ := pos_to_index_inj hx' hy' hx hy he
    · exact ⟨0, hgc, by omega⟩
    · exact ⟨1, hgc, by omega⟩
  · rintro ⟨p, hgc, hp⟩
    match p, hp with
    | 0, _ => exact Or.inl ⟨x, y, hx, hy, rfl, hgc⟩
    | 1, _ => exact Or.inr ⟨x, y, hx, hy, rfl, hgc⟩

theorem validCellIndex : ∀ x : Nat, x < 13 → ∀ y : Nat, y < 17 →
    GameState.is_valid_location (x : Int) (y : Int) = true →
    BB_INVALID.get_bit (pos_to_index x y) = false ∧
      index_to_pos (pos_to_index x y) = ((x : Int), (y : Int)) := by decide

set_option maxRecDepth 10000 in
theorem validIndexCell : ∀ i, i < 256 → BB_INVALID.get_bit i = false →
    GameState.is_valid_location (index_to_pos i).1 (index_to_pos i).2 =
        true ∧
      (index_to_pos i).1.toNat < 13 ∧ (index_to_pos i).2.toNat < 17 ∧
      ((index_to_pos i).1.toNat : Int) = (index_to_pos i).1 ∧
      ((index_to_pos i).2.toNat : Int) = (index_to_pos i).2 ∧
      pos_to_index (index_to_pos i).1.toNat (index_to_pos i).2.toNat =
        i := by decide

theorem fromExternal_emp_at (g : GameState) (hwf : g.WellFormed)
    (x y : Nat) (hx : x < 13) (hy : y < 17)
    (hv : GameState.is_valid_location (x : Int) (y : Int) = true) :
    ((BB_INVALID.bitnot.bitand
        (InternalGameState.fromExternal g).empty_bb).get_bit
          (pos_to_index x y) = true ↔
      g.get (x : Int) (y : Int) = Tile.Empty) := by
  rw [Bitboard.get_bit_bitand, Bitboard.get_bit_bitnot,
    InternalGameState.empty_bb, Bitboard.get_bit_bitnot, Bool.and_eq_true]
  have hval := (validCellIndex x hx y hy hv).1
  rw [hval]
  constructor
  · rintro ⟨-, h2⟩
    rw [Bool.not_eq_true'] at h2
    rcases (hwf x hx y hy).1 hv with he | hp | hp
    · exact he
    all_goals
      exact absurd ((fromExternal_occ_at g x y hx hy).mpr
        ⟨_, hp, by omega⟩) (by rw [h2]; simp)
  · intro he
    refine ⟨by simp, ?_⟩
    rw [Bool.not_eq_true']
    cases hocc : (InternalGameState.fromExternal g).occupied_bb.get_bit
        (pos_to_index x y)
    · rfl
    · obtain ⟨p, hp, -⟩ := (fromExternal_occ_at g x y hx hy).mp hocc
      rw [he] at hp
      exact absurd hp (by simp)

set_option maxRecDepth 10000 in
theorem jumpIdxToCoord : ∀ i, i < 256 →
    ∀ p ∈ [((1 : Nat), (2 : Nat)), (13, 26), (14, 28)],
    (i + p.2 < 256 ∧ BB_INVALID.get_bit i = false ∧
      BB_INVALID.get_bit (i + p.1) = false ∧
      BB_INVALID.get_bit (i + p.2) = false) →
    ∃ d ∈ GameState.jumpDirs (index_to_pos i).2,
      index_to_pos (i + p.2) =
        ((index_to_pos i).1 + d.2.2.1, (index_to_pos i).2 + d.2.2.2) ∧
      index_to_pos (i + p.1) =
        ((index_to_pos i).1 + d.1, (index_to_pos i).2 + d.2.1) := by decide

set_option maxRecDepth 10000 in
theorem jumpIdxToCoordDown : ∀ i, i < 256 →
    ∀ p ∈ [((1 : Nat), (2 : Nat)), (13, 26), (14, 28)],
    (i + p.2 < 256 ∧ BB_INVALID.get_bit i = false ∧
      BB_INVALID.get_bit (i + p.1) = false ∧
      BB_INVALID.get_bit (i + p.2) = false) →
    ∃ d ∈ GameState.jumpDirs (index_to_pos (i + p.2)).2,
      index_to_pos i = ((index_to_pos (i + p.2)).1 + d.2.2.1,
        (index_to_pos (i + p.2)).2 + d.2.2.2) ∧
      index_to_pos (i + p.1) = ((index_to_pos (i + p.2)).1 + d.1,
        (index_to_pos (i + p.2)).2 + d.2.1) := by decide

set_option maxRecDepth 10000 in
theorem jumpCoordBounds : ∀ x : Nat, x < 13 → ∀ y : Nat, y < 17 →
    ∀ d ∈ GameState.jumpDirs (y : Int),
    (GameState.is_valid_location (x : Int) (y : Int) = true ∧
      GameState.is_valid_location ((x : Int) + d.2.2.1)
        ((y : Int) + d.2.2.2) = true) →
    0 ≤ (x : Int) + d.1 ∧ (x : Int) + d.1 < 13 ∧
      0 ≤ (y : Int) + d.2.1 ∧ (y : Int) + d.2.1 < 17 ∧
      0 ≤ (x : Int) + d.2.2.1 ∧ (x : Int) + d.2.2.1 < 13 ∧
      0 ≤ (y : Int) + d.2.2.2 ∧ (y : Int) + d.2.2.2 < 17 := by decide

set_option maxRecDepth 10000 in
theorem jumpCoordToIdx : ∀ x : Nat, x < 13 → ∀ y : Nat, y < 17 →
    ∀ d ∈ GameState.jumpDirs (y : Int),
    (GameState.is_valid_location (x : Int) (y : Int) = true ∧
      GameState.is_valid_location ((x : Int) + d.2.2.1)
        ((y : Int) + d.2.2.2) = true ∧
      GameState.is_valid_location ((x : Int) + d.1)
        ((y : Int) + d.2.1) = true) →
    ∃ p ∈ [((1 : Nat), (2 : Nat)), (13, 26), (14, 28)],
      (pos_to_index ((x : Int) + d.2.2.1).toNat
            ((y : Int) + d.2.2.2).toNat = pos_to_index x y + p.2 ∧
          pos_to_index ((x : Int) + d.1).toNat
            ((y : Int) + d.2.1).toNat = pos_to_index x y + p.1 ∧
          pos_to_index x y + p.2 < 256) ∨
        (pos_to_index x y = pos_to_index ((x : Int) + d.2.2.1).toNat
            ((y : Int) + d.2.2.2).toNat + p.2 ∧
          pos_to_index ((x : Int) + d.1).toNat
              ((y : Int) + d.2.1).toNat =
            pos_to_index ((x : Int) + d.2.2.1).toNat
              ((y : Int) + d.2.2.2).toNat + p.1 ∧
          pos_to_index x y < 256) := by decide

set_option maxRecDepth 10000 in
theorem slideIdxToCoord : ∀ i, i < 256 →
    ∀ o ∈ InternalGameState.slideOffsets,
    (BB_INVALID.get_bit i = false ∧
      BB_INVALID.get_bit ((i + o) % 256) = false) →
    ∃ d ∈ GameState.slideDirs (index_to_pos i).2,
      index_to_pos ((i + o) % 256) =
        ((index_to_pos i).1 + d.1, (index_to_pos i).2 + d.2) := by decide

set_option maxRecDepth 10000 in
theorem slideCoordToIdx : ∀ x : Nat, x < 13 → ∀ y : Nat, y < 17 →
    ∀ d ∈ GameState.slideDirs (y : Int),
    (GameState.is_valid_location (x : Int) (y : Int) = true ∧
      GameState.is_valid_location ((x : Int) + d.1) ((y : Int) + d.2) =
        true) →
    0 ≤ (x : Int) + d.1 ∧ (x : Int) + d.1 < 13 ∧
      0 ≤ (y : Int) + d.2 ∧ (y : Int) + d.2 < 17 ∧
      ∃ o ∈ InternalGameState.slideOffsets,
        pos_to_index ((x : Int) + d.1).toNat ((y : Int) + d.2).toNat =
          (pos_to_index x y + o) % 256 := by decide

theorem jumpStep_bits_src {occ emp njt : Bitboard} (hwocc : occ.Wf)
    (hwjt : njt.Wf) {j : Nat} (hj : j < 256)
    (h : (InternalGameState.jumpStep occ emp njt).get_bit j = true) :
    njt.get_bit j = true ∨
      ∃ i, i < 256 ∧ njt.get_bit i = true ∧ jstepIdx occ emp i j := by
  simp only [InternalGameState.jumpStep, Bitboard.get_bit_bitor,
    Bitboard.get_bit_bitand, Bool.or_eq_true, Bool.and_eq_true] at h
  rcases h with ((((((h | h) | h) | h) | h) | h) | h)
  · exact Or.inl h
  · obtain ⟨⟨ho, he⟩, hn⟩ := h
    rw [Bitboard.get_bit_shl hwocc (by norm_num) (by norm_num) hj,
      Bool.and_eq_true, decide_eq_true_eq] at ho
    rw [Bitboard.get_bit_shl hwjt (by norm_num) (by norm_num) hj,
      Bool.and_eq_true, decide_eq_true_eq] at hn
    refine Or.inr ⟨j - 2, by omega, hn.2, hj, he, Or.inl ⟨by omega, ?_⟩⟩
    rw [show j - 2 + 1 = j - 1 from by omega]
    exact ho.2
  · obtain ⟨⟨ho, he⟩, hn⟩ := h
    rw [Bitboard.get_bit_shl hwocc (by norm_num) (by norm_num) hj,
      Bool.and_eq_true, decide_eq_true_eq] at ho
    rw [Bitboard.get_bit_shl hwjt (by norm_num) (by norm_num) hj,
      Bool.and_eq_true, decide_eq_true_eq] at hn
    refine Or.inr ⟨j - 26, by omega, hn.2, hj, he,
      Or.inr (Or.inl ⟨by omega, ?_⟩)⟩
    rw [show j - 26 + 13 = j - 13 from by omega]
    exact ho.2
  · obtain ⟨⟨ho, he⟩, hn⟩ := h
    rw [Bitboard.get_bit_shl hwocc (by norm_num) (by norm_num) hj,
      Bool.and_eq_true, decide_eq_true_eq] at ho
    rw [Bitboard.get_bit_shl hwjt (by norm_num) (by norm_num) hj,
      Bool.and_eq_true, decide_eq_true_eq] at hn
    refine Or.inr ⟨j - 28, by omega, hn.2, hj, he,
      Or.inr (Or.inr (Or.inl ⟨by omega, ?_⟩))⟩
    rw [show j - 28 + 14 = j - 14 from by omega]
    exact ho.2
  · obtain ⟨⟨ho, he⟩, hn⟩ := h
    rw [Bitboard.get_bit_shr hwocc (by norm_num) (by norm_num) hj,
      Bool.and_eq_true, decide_eq_true_eq] at ho
    rw [Bitboard.get_bit_shr hwjt (by norm_num) (by norm_num) hj,
      Bool.and_eq_true, decide_eq_true_eq] at hn
    exact Or.inr ⟨j + 2, hn.1, hn.2, hj, he,
      Or.inr (Or.inr (Or.inr (Or.inl ⟨rfl, ho.2⟩)))⟩
  · obtain ⟨⟨ho, he⟩, hn⟩ := h
    rw [Bitboard.get_bit_shr hwocc (by norm_num) (by norm_num) hj,
      Bool.and_eq_true, decide_eq_true_eq] at ho
    rw [Bitboard.get_bit_shr hwjt (by norm_num) (by norm_num) hj,
      Bool.and_eq_true, decide_eq_true_eq] at hn
    exact Or.inr ⟨j + 26, hn.1, hn.2, hj, he,
      Or.inr (Or.inr (Or.inr (Or.inr (Or.inl ⟨rfl, ho.2⟩))))⟩
  · obtain ⟨⟨ho, he⟩, hn⟩ := h
    rw [Bitboard.get_bit_shr hwocc (by norm_num) (by norm_num) hj,
      Bool.and_eq_true, decide_eq_true_eq] at ho
    rw [Bitboard.get_bit_shr hwjt (by norm_num) (by norm_num) hj,
      Bool.and_eq_true, decide_eq_true_eq] at hn
    exact Or.inr ⟨j + 28, hn.1, hn.2, hj, he,
      Or.inr (Or.inr (Or.inr (Or.inr (Or.inr ⟨rfl, ho.2⟩))))⟩

theorem jumpLoop_sound {occ emp : Bitboard} (hwocc : occ.Wf) (start : Nat) :
    ∀ (fuel : Nat) (jt njt : Bitboard), njt.Wf →
      (∀ i, i < 256 → njt.get_bit i = true → JReachB occ emp start i) →
      ∀ j, j < 256 →
        (InternalGameState.jumpLoop occ emp fuel jt njt).get_bit j = true →
        JReachB occ emp start j := by
  intro fuel
  induction fuel with
  | zero => intro jt njt _ hn j hj h; exact hn j hj h
  | succ fuel ih =>
    intro jt njt hw hn j hj h
    rw [InternalGameState.jumpLoop] at h
    split_ifs at h with hstop
    · exact hn j hj (hstop ▸ h)
    · refine ih njt (InternalGameState.jumpStep occ emp njt)
        (jumpStep_wf hwocc hw) ?_ j hj h
      intro i hi hbit
      rcases jumpStep_bits_src hwocc hw hi hbit with h2 | ⟨i0, hi0, hb0, hs0⟩
      · exact hn i hi h2
      · exact JReachB.step (hn i0 hi0 hb0) hs0

theorem jumpLoop_wf {occ emp : Bitboard} (hwocc : occ.Wf) :
    ∀ (fuel : Nat) (jt njt : Bitboard), jt.Wf → njt.Wf →
      (InternalGameState.jumpLoop occ emp fuel jt njt).Wf := by
  intro fuel
  induction fuel with
  | zero => intro jt njt _ h2; exact h2
  | succ fuel ih =>
    intro jt njt h1 h2
    rw [InternalGameState.jumpLoop]
    split_ifs with hstop
    · exact h1
    · exact ih njt _ h2 (jumpStep_wf hwocc h2)

theorem jumpStep_mono (occ emp njt : Bitboard) (i : Nat)
    (h : njt.get_bit i = true) :
    (InternalGameState.jumpStep occ emp njt).get_bit i = true := by
  simp only [InternalGameState.jumpStep, Bitboard.get_bit_bitor,
    Bool.or_eq_true]
  exact Or.inl (Or.inl (Or.inl (Or.inl (Or.inl (Or.inl h)))))

theorem popcount_lt_of_ne {a b : Bitboard} (ha : a.Wf) (hb : b.Wf)
    (hsub : ∀ i, a.get_bit i = true → b.get_bit i = true) (hne : a ≠ b) :
    (((List.range 256).filter (fun i => a.get_bit i)).length <
      ((List.range 256).filter (fun i => b.get_bit i)).length) := by
  have hle := filterLengthMono (fun i => a.get_bit i) (fun i => b.get_bit i)
    (List.range 256) (fun x _ h => hsub x h)
  rcases Nat.lt_or_ge
      (((List.range 256).filter (fun i => a.get_bit i)).length)
      (((List.range 256).filter (fun i => b.get_bit i)).length) with h | h
  · exact h
  · exfalso
    have heq := filterEqOfLen (fun i => a.get_bit i) (fun i => b.get_bit i)
      (List.range 256) (fun x _ hx => hsub x hx) (by omega)
    refine hne (Bitboard.ext_of_wf ha hb ?_)
    intro i hi
    have hmem : i ∈ List.range 256 := List.mem_range.mpr hi
    cases hbit : b.get_bit i
    · cases habit : a.get_bit i
      · rfl
      · exfalso
        have : i ∈ (List.range 256).filter (fun i => a.get_bit i) :=
          List.mem_filter.mpr ⟨hmem, habit⟩
        rw [heq] at this
        have := (List.mem_filter.mp this).2
        simp only [hbit] at this
        exact absurd this (by simp)
    · cases habit : a.get_bit i
      · exfalso
        have : i ∈ (List.range 256).filter (fun i => b.get_bit i) :=
          List.mem_filter.mpr ⟨hmem, hbit⟩
        rw [← heq] at this
        have := (List.mem_filter.mp this).2
        simp only [habit] at this
        exact absurd this (by simp)
      · rfl

theorem popcount_le (b : Bitboard) :
    ((List.range 256).filter (fun i => b.get_bit i)).length ≤ 256 := by
  have := List.length_filter_le (fun i => b.get_bit i) (List.range 256)
  simpa using this

theorem jumpLoop_fix {occ emp : Bitboard} (hwocc : occ.Wf) :
    ∀ (fuel : Nat) (jt : Bitboard), jt.Wf →
      256 - ((List.range 256).filter (fun i => jt.get_bit i)).length <
        fuel →
      (InternalGameState.jumpStep occ emp
          (InternalGameState.jumpLoop occ emp fuel jt
            (InternalGameState.jumpStep occ emp jt)) =
        InternalGameState.jumpLoop occ emp fuel jt
          (InternalGameState.jumpStep occ emp jt)) ∧
      (∀ i, jt.get_bit i = true →
        (InternalGameState.jumpLoop occ emp fuel jt
          (InternalGameState.jumpStep occ emp jt)).get_bit i = true) := by
  intro fuel
  induction fuel with
  | zero => intro jt _ h; omega
  | succ fuel ih =>
    intro jt hw hfuel
    rw [InternalGameState.jumpLoop]
    split_ifs with hstop
    · exact ⟨hstop.symm, fun i h => h⟩
    · have hsub : ∀ i, jt.get_bit i = true →
          (InternalGameState.jumpStep occ emp jt).get_bit i = true :=
        fun i h => jumpStep_mono occ emp jt i h
      have hlt := popcount_lt_of_ne hw (jumpStep_wf hwocc hw) hsub hstop
      have hle2 := popcount_le (InternalGameState.jumpStep occ emp jt)
      have := ih (InternalGameState.jumpStep occ emp jt)
        (jumpStep_wf hwocc hw) (by omega)
      exact ⟨this.1, fun i h => this.2 i (hsub i h)⟩

theorem JReachB_lt {occ emp : Bitboard} {start j : Nat}
    (hstart : start < 256) (h : JReachB occ emp start j) : j < 256 := by
  induction h with
  | base => exact hstart
  | step hr hs ih => exact hs.1

theorem jstep_to_stepbit {occ emp R : Bitboard} (hwocc : occ.Wf)
    (hwR : R.Wf) {i j : Nat} (hi : i < 256) (hRi : R.get_bit i = true)
    (hs : jstepIdx occ emp i j) :
    (InternalGameState.jumpStep occ emp R).get_bit j = true := by
  obtain ⟨hj, hemp, hcases⟩ := hs
  simp only [InternalGameState.jumpStep, Bitboard.get_bit_bitor,
    Bitboard.get_bit_bitand, Bool.or_eq_true, Bool.and_eq_true]
  rcases hcases with ⟨he, ho⟩ | ⟨he, ho⟩ | ⟨he, ho⟩ |
    ⟨he, ho⟩ | ⟨he, ho⟩ | ⟨he, ho⟩
  · refine Or.inl (Or.inl (Or.inl (Or.inl (Or.inl (Or.inr
      ⟨⟨?_, hemp⟩, ?_⟩)))))
    · rw [Bitboard.get_bit_shl hwocc (by norm_num) (by norm_num) hj]
      simp only [Bool.and_eq_true, decide_eq_true_eq]
      refine ⟨by omega, ?_⟩
      rw [show j - 1 = i + 1 from by omega]
      exact ho
    · rw [Bitboard.get_bit_shl hwR (by norm_num) (by norm_num) hj]
      simp only [Bool.and_eq_true, decide_eq_true_eq]
      refine ⟨by omega, ?_⟩
      rw [show j - 2 = i from by omega]
      exact hRi
  · refine Or.inl (Or.inl (Or.inl (Or.inl (Or.inr ⟨⟨?_, hemp⟩, ?_⟩))))
    · rw [Bitboard.get_bit_shl hwocc (by norm_num) (by norm_num) hj]
      simp only [Bool.and_eq_true, decide_eq_true_eq]
      refine ⟨by omega, ?_⟩
      rw [show j - 13 = i + 13 from by omega]
      exact ho
    · rw [Bitboard.get_bit_shl hwR (by norm_num) (by norm_num) hj]
      simp only [Bool.and_eq_true, decide_eq_true_eq]
      refine ⟨by omega, ?_⟩
      rw [show j - 26 = i from by omega]
      exact hRi
  · refine Or.inl (Or.inl (Or.inl (Or.inr ⟨⟨?_, hemp⟩, ?_⟩)))
    · rw [Bitboard.get_bit_shl hwocc (by norm_num) (by norm_num) hj]
      simp only [Bool.and_eq_true, decide_eq_true_eq]
      refine ⟨by omega, ?_⟩
      rw [show j - 14 = i + 14 from by omega]
      exact ho
    · rw [Bitboard.get_bit_shl hwR (by norm_num) (by norm_num) hj]
      simp only [Bool.and_eq_true, decide_eq_true_eq]
      refine ⟨by omega, ?_⟩
      rw [show j - 28 = i from by omega]
      exact hRi
  · refine Or.inl (Or.inl (Or.inr ⟨⟨?_, hemp⟩, ?_⟩))
    · rw [Bitboard.get_bit_shr hwocc (by norm_num) (by norm_num) hj]
      simp only [Bool.and_eq_true, decide_eq_true_eq]
      exact ⟨by omega, ho⟩
    · rw [Bitboard.get_bit_shr hwR (by norm_num) (by norm_num) hj]
      simp only [Bool.and_eq_true, decide_eq_true_eq]
      refine ⟨by omega, ?_⟩
      rw [show j + 2 = i from by omega]
      exact hRi
  · refine Or.inl (Or.inr ⟨⟨?_, hemp⟩, ?_⟩)
    · rw [Bitboard.get_bit_shr hwocc (by norm_num) (by norm_num) hj]
      simp only [Bool.and_eq_true, decide_eq_true_eq]
      exact ⟨by omega, ho⟩
    · rw [Bitboard.get_bit_shr hwR (by norm_num) (by norm_num) hj]
      simp only [Bool.and_eq_true, decide_eq_true_eq]
      refine ⟨by omega, ?_⟩
      rw [show j + 26 = i from by omega]
      exact hRi
  · refine Or.inr ⟨⟨?_, hemp⟩, ?_⟩
    · rw [Bitboard.get_bit_shr hwocc (by norm_num) (by norm_num) hj]
      simp only [Bool.and_eq_true, decide_eq_true_eq]
      exact ⟨by omega, ho⟩
    · rw [Bitboard.get_bit_shr hwR (by norm_num) (by norm_num) hj]
      simp only [Bool.and_eq_true, decide_eq_true_eq]
      refine ⟨by omega, ?_⟩
      rw [show j + 28 = i from by omega]
      exact hRi

theorem jumpLoop_complete {occ emp : Bitboard} (hwocc : occ.Wf)
    (start : Nat) (hstart : start < 256) :
    ∀ j, JReachB occ emp start j →
      (InternalGameState.jumpLoop occ emp 257 Bitboard.default
        (Bitboard.bit start)).get_bit j = true := by
  have hne : Bitboard.default ≠ Bitboard.bit start := by
    intro h
    have h1 := Bitboard.get_bit_default start
    have h2 := Bitboard.get_bit_bit hstart hstart
    rw [← h] at h2
    rw [h1] at h2
    simp at h2
  have hred : InternalGameState.jumpLoop occ emp 257 Bitboard.default
      (Bitboard.bit start) = InternalGameState.jumpLoop occ emp 256
      (Bitboard.bit start)
      (InternalGameState.jumpStep occ emp (Bitboard.bit start)) := by
    rw [InternalGameState.jumpLoop, if_neg hne]
  rw [hred]
  have hpop : 1 ≤ ((List.range 256).filter
      (fun i => (Bitboard.bit start).get_bit i)).length := by
    have hmem : start ∈ (List.range 256).filter
        (fun i => (Bitboard.bit start).get_bit i) := by
      refine List.mem_filter.mpr ⟨List.mem_range.mpr hstart, ?_⟩
      rw [Bitboard.get_bit_bit hstart hstart]
      simp
    have := List.length_pos_of_mem hmem
    omega
  obtain ⟨hfix, hsup⟩ := jumpLoop_fix hwocc 256 (Bitboard.bit start)
    (Bitboard.wf_bit start) (by omega)
  set R := InternalGameState.jumpLoop occ emp 256 (Bitboard.bit start)
    (InternalGameState.jumpStep occ emp (Bitboard.bit start)) with hR
  have hwR : R.Wf := jumpLoop_wf hwocc 256 _ _ (Bitboard.wf_bit start)
    (jumpStep_wf hwocc (Bitboard.wf_bit start))
  intro j hreach
  induction hreach with
  | base =>
    refine hsup start ?_
    rw [Bitboard.get_bit_bit hstart hstart]
    simp
  | step hr hs ih =>
    rw [← hfix]
    exact jstep_to_stepbit hwocc hwR (JReachB_lt hstart hr) ih hs

theorem tmod_neg_ofNat (m : Nat) :
    Int.tmod (-(m : Int)) 2 = -((m % 2 : Nat) : Int) := by
  cases m with
  | zero => rfl
  | succ k => rfl

theorem jumpDirs_eq_parity {a b : Nat} (hpar : a % 2 = b % 2) :
    GameState.jumpDirs (a : Int) = GameState.jumpDirs (b : Int) := by
  unfold GameState.jumpDirs
  rw [tmod_neg_ofNat a, tmod_neg_ofNat b, hpar]

theorem jumpDirs_eq_of_shift (a k : Int) (ha : 0 ≤ a) (hak : 0 ≤ a + k)
    (hk : k = 0 ∨ k = 2 ∨ k = -2) :
    GameState.jumpDirs (a + k) = GameState.jumpDirs a := by
  have e1 : a + k = (((a + k).toNat : Nat) : Int) := by omega
  have e2 : a = ((a.toNat : Nat) : Int) := by omega
  have hpar : (a + k).toNat % 2 = a.toNat % 2 := by
    rcases hk with rfl | rfl | rfl <;> omega
  have h := jumpDirs_eq_parity hpar
  rwa [← e1, ← e2] at h

theorem jumpDirs_jy {m : Int} {d : Int × Int × Int × Int}
    (hd : d ∈ GameState.jumpDirs m) :
    d.2.2.2 = 0 ∨ d.2.2.2 = 2 ∨ d.2.2.2 = -2 := by
  simp only [GameState.jumpDirs, List.mem_cons, List.not_mem_nil,
    or_false] at hd
  rcases hd with rfl | rfl | rfl | rfl | rfl | rfl <;> simp

theorem jumpDirsFold_spec (s : GameState) (x y sx sy : Int) :
    ∀ (dl : List (Int × Int × Int × Int))
      (acc : List (Int × Int) × List Move),
      (∃ new : List (Int × Int),
        (dl.foldl (fun acc d =>
          let (dx, dy, jx, jy) := d
          if ¬ GameState.is_valid_location (sx + jx) (sy + jy) then acc
          else
            match s.get (sx + dx) (sy + dy) with
            | Tile.Player _ =>
                let t : Int × Int := (sx + jx, sy + jy)
                if s.get t.1 t.2 = Tile.Empty ∧ t ∉ acc.1 ∧
                    (⟨(x, y), t⟩ : Move) ∉ acc.2 then
                  (acc.1 ++ [t], acc.2 ++ [⟨(x, y), t⟩])
                else acc
            | _ => acc) acc).1 = acc.1 ++ new ∧
        (dl.foldl (fun acc d =>
          let (dx, dy, jx, jy) := d
          if ¬ GameState.is_valid_location (sx + jx) (sy + jy) then acc
          else
            match s.get (sx + dx) (sy + dy) with
            | Tile.Player _ =>
                let t : Int × Int := (sx + jx, sy + jy)
                if s.get t.1 t.2 = Tile.Empty ∧ t ∉ acc.1 ∧
                    (⟨(x, y), t⟩ : Move) ∉ acc.2 then
                  (acc.1 ++ [t], acc.2 ++ [⟨(x, y), t⟩])
                else acc
            | _ => acc) acc).2 =
          acc.2 ++ new.map (fun t => (⟨(x, y), t⟩ : Move)) ∧
        new.Nodup ∧
        (∀ t ∈ new, t ∉ acc.1 ∧ (⟨(x, y), t⟩ : Move) ∉ acc.2 ∧
          (∃ d ∈ dl, t = (sx + d.2.2.1, sy + d.2.2.2) ∧
            GameState.is_valid_location t.1 t.2 = true ∧
            (∃ p, s.get (sx + d.1) (sy + d.2.1) = Tile.Player p) ∧
            s.get t.1 t.2 = Tile.Empty))) ∧
      (∀ d ∈ dl,
        GameState.is_valid_location (sx + d.2.2.1) (sy + d.2.2.2) = true →
        (∃ p, s.get (sx + d.1) (sy + d.2.1) = Tile.Player p) →
        s.get (sx + d.2.2.1) (sy + d.2.2.2) = Tile.Empty →
        ((sx + d.2.2.1, sy + d.2.2.2) ∈
            (dl.foldl (fun acc d =>
              let (dx, dy, jx, jy) := d
              if ¬ GameState.is_valid_location (sx + jx) (sy + jy) then acc
              else
                match s.get (sx + dx) (sy + dy) with
                | Tile.Player _ =>
                    let t : Int × Int := (sx + jx, sy + jy)
                    if s.get t.1 t.2 = Tile.Empty ∧ t ∉ acc.1 ∧
                        (⟨(x, y), t⟩ : Move) ∉ acc.2 then
                      (acc.1 ++ [t], acc.2 ++ [⟨(x, y), t⟩])
                    else acc
                | _ => acc) acc).1 ∨
          (⟨(x, y), (sx + d.2.2.1, sy + d.2.2.2)⟩ : Move) ∈
            (dl.foldl (fun acc d =>
              let (dx, dy, jx, jy) := d
              if ¬ GameState.is_valid_location (sx + jx) (sy + jy) then acc
              else
                match s.get (sx + dx) (sy + dy) with
                | Tile.Player _ =>
                    let t : Int × Int := (sx + jx, sy + jy)
                    if s.get t.1 t.2 = Tile.Empty ∧ t ∉ acc.1 ∧
                        (⟨(x, y), t⟩ : Move) ∉ acc.2 then
                      (acc.1 ++ [t], acc.2 ++ [⟨(x, y), t⟩])
                    else acc
                | _ => acc) acc).2)) := by
  intro dl
  induction dl with
  | nil =>
    intro acc
    refine ⟨⟨[], by simp, by simp, List.nodup_nil, by simp⟩, by simp⟩
  | cons d0 rest ih =>
    intro acc
    obtain ⟨dx, dy, jx, jy⟩ := d0
    simp only [List.foldl_cons]
    by_cases hval : GameState.is_valid_location (sx + jx) (sy + jy) = true
    · rw [if_neg (by simp [hval])]
      rcases hmid : s.get (sx + dx) (sy + dy) with _ | _ | p
      · obtain ⟨⟨new, h1, h2, h3, h4⟩, h5⟩ := ih acc
        refine ⟨⟨new, h1, h2, h3, ?_⟩, ?_⟩
        · intro t ht
          obtain ⟨ha, hb, dd, hdd, hrest⟩ := h4 t ht
          exact ⟨ha, hb, dd, List.mem_cons_of_mem _ hdd, hrest⟩
        · intro d hd hv ho he
          rcases List.mem_cons.mp hd with rfl | hd'
          · exfalso
            obtain ⟨p, hp⟩ := ho
            simp only at hp
            rw [hmid] at hp
            exact Tile.noConfusion hp
          · exact h5 d hd' hv ho he
      · obtain ⟨⟨new, h1, h2, h3, h4⟩, h5⟩ := ih acc
        refine ⟨⟨new, h1, h2, h3, ?_⟩, ?_⟩
        · intro t ht
          obtain ⟨ha, hb, dd, hdd, hrest⟩ := h4 t ht
          exact ⟨ha, hb, dd, List.mem_cons_of_mem _ hdd, hrest⟩
        · intro d hd hv ho he
          rcases List.mem_cons.mp hd with rfl | hd'
          · exfalso
            obtain ⟨p, hp⟩ := ho
            simp only at hp
            rw [hmid] at hp
            exact Tile.noConfusion hp
          · exact h5 d hd' hv ho he
      · by_cases hpush : s.get (sx + jx) (sy + jy) = Tile.Empty ∧
            (sx + jx, sy + jy) ∉ acc.1 ∧
            (⟨(x, y), (sx + jx, sy + jy)⟩ : Move) ∉ acc.2
        · rw [if_pos hpush]
          obtain ⟨⟨new, h1, h2, h3, h4⟩, h5⟩ :=
            ih (acc.1 ++ [(sx + jx, sy + jy)],
              acc.2 ++ [⟨(x, y), (sx + jx, sy + jy)⟩])
          refine ⟨⟨(sx + jx, sy + jy) :: new, ?_, ?_, ?_, ?_⟩, ?_⟩
          · rw [h1]
            simp
          · rw [h2]
            simp
          · refine List.Nodup.cons ?_ h3
            intro hmem
            exact ((h4 _ hmem).1) (by simp)
          · intro t ht
            rcases List.mem_cons.mp ht with rfl | ht'
            · exact ⟨hpush.2.1, hpush.2.2, (dx, dy, jx, jy),
                List.mem_cons_self _ _, rfl, hval, ⟨p, hmid⟩, hpush.1⟩
            · obtain ⟨ha, hb, dd, hdd, hrest⟩ := h4 t ht'
              refine ⟨fun hmem => ha (by simp [hmem]), fun hmem => hb
                (by simp [hmem]), dd, List.mem_cons_of_mem _ hdd, hrest⟩
          · intro d hd hv ho he
            rcases List.mem_cons.mp hd with rfl | hd'
            · refine Or.inl ?_
              rw [h1]
              simp
            · rcases h5 d hd' hv ho he with hc | hc
              · exact Or.inl hc
              · exact Or.inr hc
        · rw [if_neg hpush]
          obtain ⟨⟨new, h1, h2, h3, h4⟩, h5⟩ := ih acc
          refine ⟨⟨new, h1, h2, h3, ?_⟩, ?_⟩
          · intro t ht
            obtain ⟨ha, hb, dd, hdd, hrest⟩ := h4 t ht
            exact ⟨ha, hb, dd, List.mem_cons_of_mem _ hdd, hrest⟩
          · intro d hd hv ho he
            rcases List.mem_cons.mp hd with rfl | hd'
            · simp only at hv ho he
              rcases Decidable.not_and_iff_or_not.mp hpush with hc |
                  hc
              · exact absurd he hc
              · rcases Decidable.not_and_iff_or_not.mp hc with hc' | hc'
                · refine Or.inl ?_
                  rw [h1]
                  have := Decidable.not_not.mp hc'
                  exact List.mem_append_left _ this
                · refine Or.inr ?_
                  rw [h2]
                  have := Decidable.not_not.mp hc'
                  exact List.mem_append_left _ this
            · exact h5 d hd' hv ho he
    · rw [if_pos (by simpa using hval)]
      obtain ⟨⟨new, h1, h2, h3, h4⟩, h5⟩ := ih acc
      refine ⟨⟨new, h1, h2, h3, ?_⟩, ?_⟩
      · intro t ht
        obtain ⟨ha, hb, dd, hdd, hrest⟩ := h4 t ht
        exact ⟨ha, hb, dd, List.mem_cons_of_mem _ hdd, hrest⟩
      · intro d hd hv ho he
        rcases List.mem_cons.mp hd with rfl | hd'
        · exact absurd hv (by simpa using hval)
        · exact h5 d hd' hv ho he

set_option maxRecDepth 10000 in
theorem nodupValidBound (l : List (Int × Int)) (hnd : l.Nodup)
    (hv : ∀ c ∈ l, GameState.is_valid_location c.1 c.2 = true) :
    l.length ≤ 221 := by
  have hsub : l.toFinset ⊆
      (allCells.map (fun c => ((c.1 : Int), (c.2 : Int)))).toFinset := by
    intro c hc
    rw [List.mem_toFinset] at hc ⊢
    obtain ⟨h1, h2, h3, h4⟩ := GameState.valid_in_bounds (hv c hc)
    refine List.mem_map.mpr ⟨(c.1.toNat, c.2.toNat), ?_, ?_⟩
    · exact mem_allCells.mpr ⟨by omega, by omega⟩
    · simp only
      rw [Int.toNat_of_nonneg h1, Int.toNat_of_nonneg h3]
  have h1 : l.toFinset.card = l.length := List.toFinset_card_of_nodup hnd
  have h2 := Finset.card_le_card hsub
  have h3 := List.toFinset_card_le
    (allCells.map (fun c => ((c.1 : Int), (c.2 : Int))))
  have h4 : (allCells.map (fun c => ((c.1 : Int), (c.2 : Int)))).length =
      221 := by decide
  omega

theorem jumpDirsFold_out (g : GameState) (x y sx sy : Int)
    (acc : List (Int × Int) × List Move) :
    (∃ new : List (Int × Int),
      (GameState.jumpDirsFold g x y sx sy acc).1 = acc.1 ++ new ∧
      (GameState.jumpDirsFold g x y sx sy acc).2 =
        acc.2 ++ new.map (fun t => (⟨(x, y), t⟩ : Move)) ∧
      new.Nodup ∧
      (∀ t ∈ new, t ∉ acc.1 ∧ (⟨(x, y), t⟩ : Move) ∉ acc.2 ∧
        (∃ d ∈ GameState.jumpDirs y, t = (sx + d.2.2.1, sy + d.2.2.2) ∧
          GameState.is_valid_location t.1 t.2 = true ∧
          (∃ p, g.get (sx + d.1) (sy + d.2.1) = Tile.Player p) ∧
          g.get t.1 t.2 = Tile.Empty))) ∧
    (∀ d ∈ GameState.jumpDirs y,
      GameState.is_valid_location (sx + d.2.2.1) (sy + d.2.2.2) = true →
      (∃ p, g.get (sx + d.1) (sy + d.2.1) = Tile.Player p) →
      g.get (sx + d.2.2.1) (sy + d.2.2.2) = Tile.Empty →
      ((sx + d.2.2.1, sy + d.2.2.2) ∈
          (GameState.jumpDirsFold g x y sx sy acc).1 ∨
        (⟨(x, y), (sx + d.2.2.1, sy + d.2.2.2)⟩ : Move) ∈
          (GameState.jumpDirsFold g x y sx sy acc).2)) :=
  jumpDirsFold_spec g x y sx sy (GameState.jumpDirs y) acc

theorem movesFromLoop_spec (g : GameState) (x y : Int)
    (hso : ∃ p, g.get x y = Tile.Player p) :
    ∀ (fuel : Nat) (jt : List (Int × Int)) (result : List Move),
      jt.length + 221 ≤ fuel + result.length →
      (∀ c ∈ jt, JReachC g (x, y) c) →
      (∀ c ∈ jt, c = (x, y) ∨ (⟨(x, y), c⟩ : Move) ∈ result) →
      (∀ c ∈ jt, GameState.is_valid_location c.1 c.2 = true ∧
        GameState.jumpDirs c.2 = GameState.jumpDirs y) →
      (∀ mv ∈ result, mv.fr = (x, y) ∧ JReachC g (x, y) mv.dst ∧
        mv.dst ≠ (x, y) ∧
        GameState.is_valid_location mv.dst.1 mv.dst.2 = true ∧
        g.get mv.dst.1 mv.dst.2 = Tile.Empty) →
      (∀ t, (t = (x, y) ∨ (⟨(x, y), t⟩ : Move) ∈ result) →
        t ∈ jt ∨ ∀ u, jstepCoord g t u → (⟨(x, y), u⟩ : Move) ∈ result) →
      ((result.map Move.dst).Nodup) →
      ((∀ mv ∈ GameState.movesFromLoop g x y fuel jt result,
          mv.fr = (x, y) ∧ JReachC g (x, y) mv.dst ∧ mv.dst ≠ (x, y) ∧
          GameState.is_valid_location mv.dst.1 mv.dst.2 = true ∧
          g.get mv.dst.1 mv.dst.2 = Tile.Empty) ∧
        (∀ t, (t = (x, y) ∨
            (⟨(x, y), t⟩ : Move) ∈ GameState.movesFromLoop g x y fuel jt
              result) →
          ∀ u, jstepCoord g t u →
            (⟨(x, y), u⟩ : Move) ∈ GameState.movesFromLoop g x y fuel jt
              result)) := by
  intro fuel
  induction fuel with
  | zero =>
    intro jt result hm hjr hjs hjv hrs hcl hnd
    have hrv : ∀ c ∈ result.map Move.dst,
        GameState.is_valid_location c.1 c.2 = true := by
      intro c hc
      obtain ⟨mv, hmv, rfl⟩ := List.mem_map.mp hc
      exact (hrs mv hmv).2.2.2.1
    have hbound := nodupValidBound _ hnd hrv
    rw [List.length_map] at hbound
    have hjt : jt = [] := by
      have : jt.length = 0 := by omega
      exact List.eq_nil_of_length_eq_zero this
    subst hjt
    show (∀ mv ∈ result, _) ∧ _
    refine ⟨hrs, ?_⟩
    intro t ht u hu
    rcases hcl t ht with hin | hclosed
    · exact absurd hin (List.not_mem_nil t)
    · exact hclosed u hu
  | succ fuel ih =>
    intro jt result hm hjr hjs hjv hrs hcl hnd
    rw [GameState.movesFromLoop]
    cases hpop : jt.getLast? with
    | none =>
      simp only []
      have hjt : jt = [] := by
        cases jt with
        | nil => rfl
        | cons a t => simp [List.getLast?_concat] at hpop
      subst hjt
      refine ⟨hrs, ?_⟩
      intro t ht u hu
      rcases hcl t ht with hin | hclosed
      · exact absurd hin (List.not_mem_nil t)
      · exact hclosed u hu
    | some c =>
      obtain ⟨sx, sy⟩ := c
      simp only []
      have hne : jt ≠ [] := by
        intro h
        rw [h] at hpop
        simp at hpop
      have hlast : jt.getLast hne = (sx, sy) := by
        have := List.getLast?_eq_getLast jt hne
        rw [hpop] at this
        exact (Option.some_injective _ this).symm
      have hsplit : jt.dropLast ++ [(sx, sy)] = jt := by
        rw [← hlast]
        exact List.dropLast_append_getLast hne
      have hsmem : (sx, sy) ∈ jt := by
        rw [← hlast]
        exact List.getLast_mem hne
      obtain ⟨⟨new, h1, h2, hnodup, hprop⟩, hclose⟩ :=
        jumpDirsFold_out g x y sx sy (jt.dropLast, result)
      set acc := GameState.jumpDirsFold g x y sx sy (jt.dropLast, result)
        with hacc
      -- facts about the popped cell
      have hsreach : JReachC g (x, y) (sx, sy) := hjr _ hsmem
      have hsval := hjv _ hsmem
      have hsv1 : GameState.is_valid_location sx sy = true := hsval.1
      have hsv2 : GameState.jumpDirs sy = GameState.jumpDirs y := hsval.2
      have hstep_of_new : ∀ t ∈ new, jstepCoord g (sx, sy) t := by
        intro t ht
        obtain ⟨-, -, d, hd, hte, htv, htp, hemp⟩ := hprop t ht
        refine ⟨d, ?_, hte, htv, htp, hemp⟩
        show d ∈ GameState.jumpDirs sy
        rw [hsv2]
        exact hd
      have hnew_reach : ∀ t ∈ new, JReachC g (x, y) t :=
        fun t ht => JReachC.step hsreach (hstep_of_new t ht)
      have hnew_props : ∀ t ∈ new,
          GameState.is_valid_location t.1 t.2 = true ∧
          g.get t.1 t.2 = Tile.Empty ∧ t ≠ (x, y) := by
        intro t ht
        obtain ⟨-, -, d, hd, hte, htv, htp, hemp⟩ := hprop t ht
        refine ⟨htv, hemp, ?_⟩
        intro hteq
        obtain ⟨p, hp⟩ := hso
        rw [hteq] at hemp
        rw [hp] at hemp
        exact Tile.noConfusion hemp
      have hnew_dirs : ∀ t ∈ new,
          GameState.jumpDirs t.2 = GameState.jumpDirs y := by
        intro t ht
        obtain ⟨-, -, d, hd, hte, htv, htp, hemp⟩ := hprop t ht
        have hjy := jumpDirs_jy (m := y) hd
        obtain ⟨hs1, hs2, hs3, hs4⟩ := GameState.valid_in_bounds hsv1
        obtain ⟨ht1, ht2, ht3, ht4⟩ := GameState.valid_in_bounds htv
        have hty : t.2 = sy + d.2.2.2 := by rw [hte]
        rw [hty, jumpDirs_eq_of_shift sy d.2.2.2 (by omega) (by omega) hjy,
          hsv2]
      refine ih acc.1 acc.2 ?_ ?_ ?_ ?_ ?_ ?_ ?_
      · rw [h1, h2]
        simp only [List.length_append, List.length_map]
        have : jt.dropLast.length + 1 = jt.length := by
          rw [← hsplit]
          simp
        omega
      · intro c hc
        rw [h1] at hc
        rcases List.mem_append.mp hc with hc | hc
        · exact hjr c (by rw [← hsplit]; exact List.mem_append_left _ hc)
        · exact hnew_reach c hc
      · intro c hc
        rw [h1] at hc
        rcases List.mem_append.mp hc with hc | hc
        · rcases hjs c (by rw [← hsplit]; exact List.mem_append_left _ hc)
            with h | h
          · exact Or.inl h
          · refine Or.inr ?_
            rw [h2]
            exact List.mem_append_left _ h
        · refine Or.inr ?_
          rw [h2]
          refine List.mem_append_right _ ?_
          exact List.mem_map.mpr ⟨c, hc, rfl⟩
      · intro c hc
        rw [h1] at hc
        rcases List.mem_append.mp hc with hc | hc
        · exact hjv c (by rw [← hsplit]; exact List.mem_append_left _ hc)
        · exact ⟨(hnew_props c hc).1, hnew_dirs c hc⟩
      · intro mv hmv
        rw [h2] at hmv
        rcases List.mem_append.mp hmv with hmv | hmv
        · exact hrs mv hmv
        · obtain ⟨t, ht, rfl⟩ := List.mem_map.mp hmv
          obtain ⟨htv, hemp, htne⟩ := hnew_props t ht
          exact ⟨rfl, hnew_reach t ht, htne, htv, hemp⟩
      · intro t ht
        have hclosed_s : ∀ u, jstepCoord g (sx, sy) u →
            (⟨(x, y), u⟩ : Move) ∈ acc.2 := by
          intro u hu
          obtain ⟨d, hd, hue, huv, hup, huemp⟩ := hu
          subst hue
          have hd' : d ∈ GameState.jumpDirs y := by
            rw [← hsv2]
            exact hd
          have := hclose d hd' huv hup huemp
          rcases this with hin | hin
          · rw [h1] at hin
            rcases List.mem_append.mp hin with hin | hin
            · have hinjt : ((sx, sy).1 + d.2.2.1, (sx, sy).2 + d.2.2.2) ∈
                  jt := by
                rw [← hsplit]
                exact List.mem_append_left _ hin
              have hseen := hjs _ hinjt
              rcases hseen with he | he
              · exfalso
                obtain ⟨p, hp⟩ := hso
                have hx1 : g.get x y = Tile.Empty := by
                  have h' := huemp
                  rw [he] at h'
                  exact h'
                rw [hp] at hx1
                exact Tile.noConfusion hx1
              · rw [h2]
                exact List.mem_append_left _ he
            · rw [h2]
              refine List.mem_append_right _ ?_
              exact List.mem_map.mpr ⟨_, hin, rfl⟩
          · exact hin
        rcases ht with he | hmem
        · rcases hcl t (Or.inl he) with hin | hclosed
          · rw [← hsplit] at hin
            rcases List.mem_append.mp hin with hin | hin
            · refine Or.inl ?_
              rw [h1]
              exact List.mem_append_left _ hin
            · rw [List.mem_singleton] at hin
              subst hin
              exact Or.inr hclosed_s
          · refine Or.inr ?_
            intro u hu
            rw [h2]
            exact List.mem_append_left _ (hclosed u hu)
        · rw [h2] at hmem
          rcases List.mem_append.mp hmem with hmem | hmem
          · rcases hcl t (Or.inr hmem) with hin | hclosed
            · rw [← hsplit] at hin
              rcases List.mem_append.mp hin with hin | hin
              · refine Or.inl ?_
                rw [h1]
                exact List.mem_append_left _ hin
              · rw [List.mem_singleton] at hin
                subst hin
                exact Or.inr hclosed_s
            · refine Or.inr ?_
              intro u hu
              rw [h2]
              exact List.mem_append_left _ (hclosed u hu)
          · obtain ⟨t', ht', hte⟩ := List.mem_map.mp hmem
            have : t' = t := congrArg Move.dst hte
            subst this
            refine Or.inl ?_
            rw [h1]
            exact List.mem_append_right _ ht'
      · rw [h2, List.map_append]
        refine List.Nodup.append hnd ?_ ?_
        · rw [List.map_map]
          show (new.map (fun t => t)).Nodup
          simpa using hnodup
        · intro a ha hb
          rw [List.map_map] at hb
          have hb' : a ∈ new := by simpa using hb
          obtain ⟨hnotjt, hnotres, -⟩ := hprop a hb'
          obtain ⟨mv, hmv, hdst⟩ := List.mem_map.mp ha
          have hfr : mv.fr = (x, y) := (hrs mv hmv).1
          refine hnotres ?_
          have : mv = ⟨(x, y), a⟩ := by
            obtain ⟨fr, dst⟩ := mv
            simp only at hdst hfr
            rw [hdst, hfr]
          rw [← this]
          exact hmv

theorem JReachC_props {g : GameState} {s u : Int × Int}
    (h : JReachC g s u) :
    u = s ∨ (GameState.is_valid_location u.1 u.2 = true ∧
      g.get u.1 u.2 = Tile.Empty) := by
  induction h with
  | base => exact Or.inl rfl
  | step hr hs ih =>
    obtain ⟨d, hd, hte, htv, htp, hemp⟩ := hs
    exact Or.inr ⟨htv, hemp⟩

theorem fromExternal_occ_valid (g : GameState) (hwf : g.WellFormed) :
    ∀ m, m < 256 →
      (InternalGameState.fromExternal g).occupied_bb.get_bit m = true →
      BB_INVALID.get_bit m = false := by
  intro m hm h
  rw [InternalGameState.occupied_bb, Bitboard.get_bit_bitor,
    Bool.or_eq_true] at h
  have hcase : ∃ x y : Nat, x < 13 ∧ y < 17 ∧ pos_to_index x y = m ∧
      ∃ p, g.get (x : Int) (y : Int) = Tile.Player p := by
    rcases h with h | h
    · obtain ⟨x, y, hx, hy, he, hp⟩ := (fromExternal_p0_bit g m hm).mp h
      exact ⟨x, y, hx, hy, he, 0, hp⟩
    · obtain ⟨x, y, hx, hy, he, hp⟩ := (fromExternal_p1_bit g m hm).mp h
      exact ⟨x, y, hx, hy, he, 1, hp⟩
  obtain ⟨x, y, hx, hy, he, p, hp⟩ := hcase
  have hv : GameState.is_valid_location (x : Int) (y : Int) = true := by
    cases hvv : GameState.is_valid_location (x : Int) (y : Int)
    · have := (hwf x hx y hy).2 hvv
      rw [hp] at this
      exact absurd this (by simp)
    · rfl
  rw [← he]
  exact (validCellIndex x hx y hy hv).1

theorem wf_player_valid {g : GameState} (hwf : g.WellFormed) {x y : Int}
    {p : Nat} (hx1 : 0 ≤ x) (hx2 : x < 13) (hy1 : 0 ≤ y) (hy2 : y < 17)
    (h : g.get x y = Tile.Player p) :
    GameState.is_valid_location x y = true := by
  have ex : x = ((x.toNat : Nat) : Int) := by omega
  have ey : y = ((y.toNat : Nat) : Int) := by omega
  cases hvv : GameState.is_valid_location x y
  · exfalso
    rw [ex, ey] at hvv h
    have := (hwf x.toNat (by omega) y.toNat (by omega)).2 hvv
    rw [h] at this
    exact Tile.noConfusion this
  · rfl

theorem occ_at_idx (g : GameState) (hwf : g.WellFormed) {i : Nat}
    (hi : i < 256) (hv : BB_INVALID.get_bit i = false) :
    ((InternalGameState.fromExternal g).occupied_bb.get_bit i = true ↔
      ∃ p, g.get (index_to_pos i).1 (index_to_pos i).2 = Tile.Player p ∧
        p ≤ 1) := by
  obtain ⟨hval, hx, hy, hcx, hcy, hpos⟩ := validIndexCell i hi hv
  have := fromExternal_occ_at g (index_to_pos i).1.toNat
    (index_to_pos i).2.toNat hx hy
  rw [hpos] at this
  rw [this, hcx, hcy]

theorem emp_at_idx (g : GameState) (hwf : g.WellFormed) {i : Nat}
    (hi : i < 256) (hv : BB_INVALID.get_bit i = false) :
    ((BB_INVALID.bitnot.bitand
        (InternalGameState.fromExternal g).empty_bb).get_bit i = true ↔
      g.get (index_to_pos i).1 (index_to_pos i).2 = Tile.Empty) := by
  obtain ⟨hval, hx, hy, hcx, hcy, hpos⟩ := validIndexCell i hi hv
  have := fromExternal_emp_at g hwf (index_to_pos i).1.toNat
    (index_to_pos i).2.toNat hx hy (by rw [hcx, hcy]; exact hval)
  rw [hpos] at this
  rw [this, hcx, hcy]

theorem jstepCoord_of_up (g : GameState) (hwf : g.WellFormed) {i0 : Nat}
    (hi0 : i0 < 256) (hvi0 : BB_INVALID.get_bit i0 = false)
    {p : Nat × Nat} (hp : p ∈ [((1 : Nat), (2 : Nat)), (13, 26), (14, 28)])
    (hj : i0 + p.2 < 256)
    (ho : (InternalGameState.fromExternal g).occupied_bb.get_bit
      (i0 + p.1) = true)
    (hemp : (BB_INVALID.bitnot.bitand
      (InternalGameState.fromExternal g).empty_bb).get_bit (i0 + p.2) =
        true) :
    jstepCoord g (index_to_pos i0) (index_to_pos (i0 + p.2)) := by
  have hskip : p.1 < p.2 := by
    have hp' : p = ((1 : Nat), (2 : Nat)) ∨ p = (13, 26) ∨ p = (14, 28) :=
      by simpa using hp
    rcases hp' with rfl | rfl | rfl <;> decide
  have hvj : BB_INVALID.get_bit (i0 + p.2) = false :=
    emp_valid _ _ hemp
  have hvm : BB_INVALID.get_bit (i0 + p.1) = false :=
    fromExternal_occ_valid g hwf _ (by omega) ho
  obtain ⟨d, hd, he1, he2⟩ := jumpIdxToCoord i0 hi0 p hp
    ⟨hj, hvi0, hvm, hvj⟩
  refine ⟨d, hd, he1, ?_, ?_, ?_⟩
  · exact (validIndexCell _ hj hvj).1
  · obtain ⟨q, hq, hqle⟩ := (occ_at_idx g hwf (show i0 + p.1 < 256 by
      omega) hvm).mp ho
    refine ⟨q, ?_⟩
    have e1 : (index_to_pos (i0 + p.1)).1 = (index_to_pos i0).1 + d.1 := by
      rw [he2]
    have e2 : (index_to_pos (i0 + p.1)).2 = (index_to_pos i0).2 + d.2.1 :=
      by rw [he2]
    rw [← e1, ← e2]
    exact hq
  · exact (emp_at_idx g hwf hj hvj).mp hemp

theorem jstepCoord_of_down (g : GameState) (hwf : g.WellFormed) {j0 : Nat}
    {p : Nat × Nat} (hp : p ∈ [((1 : Nat), (2 : Nat)), (13, 26), (14, 28)])
    (hi : j0 + p.2 < 256)
    (hvtop : BB_INVALID.get_bit (j0 + p.2) = false)
    (ho : (InternalGameState.fromExternal g).occupied_bb.get_bit
      (j0 + p.1) = true)
    (hemp : (BB_INVALID.bitnot.bitand
      (InternalGameState.fromExternal g).empty_bb).get_bit j0 = true) :
    jstepCoord g (index_to_pos (j0 + p.2)) (index_to_pos j0) := by
  have hskip : 1 ≤ p.1 ∧ p.1 < p.2 := by
    have hp' : p = ((1 : Nat), (2 : Nat)) ∨ p = (13, 26) ∨ p = (14, 28) :=
      by simpa using hp
    rcases hp' with rfl | rfl | rfl <;> exact ⟨by decide, by decide⟩
  have hj0 : j0 < 256 := by omega
  have hvj : BB_INVALID.get_bit j0 = false := emp_valid _ _ hemp
  have hvm : BB_INVALID.get_bit (j0 + p.1) = false :=
    fromExternal_occ_valid g hwf _ (by omega) ho
  obtain ⟨d, hd, he1, he2⟩ := jumpIdxToCoordDown j0 hj0 p hp
    ⟨hi, hvj, hvm, hvtop⟩
  refine ⟨d, hd, he1, ?_, ?_, ?_⟩
  · exact (validIndexCell _ hj0 hvj).1
  · obtain ⟨q, hq, hqle⟩ := (occ_at_idx g hwf (show j0 + p.1 < 256 by
      omega) hvm).mp ho
    refine ⟨q, ?_⟩
    have e1 : (index_to_pos (j0 + p.1)).1 =
        (index_to_pos (j0 + p.2)).1 + d.1 := by rw [he2]
    have e2 : (index_to_pos (j0 + p.1)).2 =
        (index_to_pos (j0 + p.2)).2 + d.2.1 := by rw [he2]
    rw [← e1, ← e2]
    exact hq
  · exact (emp_at_idx g hwf hj0 hvj).mp hemp

theorem bridgeBtoC (g : GameState) (hwf : g.WellFormed) (x y : Nat)
    (hx : x < 13) (hy : y < 17)
    (hv : GameState.is_valid_location (x : Int) (y : Int) = true) :
    ∀ i, JReachB (InternalGameState.fromExternal g).occupied_bb
        (BB_INVALID.bitnot.bitand
          (InternalGameState.fromExternal g).empty_bb)
        (pos_to_index x y) i →
      i < 256 ∧ BB_INVALID.get_bit i = false ∧
        JReachC g ((x : Int), (y : Int)) (index_to_pos i) := by
  intro i h
  induction h with
  | base =>
    refine ⟨pos_to_index_lt _ _, (validCellIndex x hx y hy hv).1, ?_⟩
    rw [(validCellIndex x hx y hy hv).2]
    exact JReachC.base
  | step hr hs ih =>
    rename_i i0 j0
    obtain ⟨hi0, hvi0, hri0⟩ := ih
    obtain ⟨hj0, hempj, hcases⟩ := hs
    have hvj : BB_INVALID.get_bit j0 = false := emp_valid _ _ hempj
    refine ⟨hj0, hvj, ?_⟩
    rcases hcases with ⟨he, ho⟩ | ⟨he, ho⟩ | ⟨he, ho⟩ | ⟨he, ho⟩ |
      ⟨he, ho⟩ | ⟨he, ho⟩
    · subst he
      exact JReachC.step hri0 (jstepCoord_of_up g hwf hi0 hvi0
        (p := (1, 2)) (by simp) hj0 ho hempj)
    · subst he
      exact JReachC.step hri0 (jstepCoord_of_up g hwf hi0 hvi0
        (p := (13, 26)) (by simp) hj0 ho hempj)
    · subst he
      exact JReachC.step hri0 (jstepCoord_of_up g hwf hi0 hvi0
        (p := (14, 28)) (by simp) hj0 ho hempj)
    · rw [he] at hri0 hi0 hvi0
      exact JReachC.step hri0 (jstepCoord_of_down g hwf
        (p := (1, 2)) (by simp) hi0 hvi0 ho hempj)
    · rw [he] at hri0 hi0 hvi0
      exact JReachC.step hri0 (jstepCoord_of_down g hwf
        (p := (13, 26)) (by simp) hi0 hvi0 ho hempj)
    · rw [he] at hri0 hi0 hvi0
      exact JReachC.step hri0 (jstepCoord_of_down g hwf
        (p := (14, 28)) (by simp) hi0 hvi0 ho hempj)

theorem bridgeCtoB (g : GameState) (hwf : g.WellFormed) (x y : Nat)
    (hx : x < 13) (hy : y < 17)
    (hv : GameState.is_valid_location (x : Int) (y : Int) = true) :
    ∀ u, JReachC g ((x : Int), (y : Int)) u →
      ∃ j, j < 256 ∧ BB_INVALID.get_bit j = false ∧ u = index_to_pos j ∧
        JReachB (InternalGameState.fromExternal g).occupied_bb
          (BB_INVALID.bitnot.bitand
            (InternalGameState.fromExternal g).empty_bb)
          (pos_to_index x y) j := by
  intro u h
  induction h with
  | base =>
    exact ⟨pos_to_index x y, pos_to_index_lt _ _,
      (validCellIndex x hx y hy hv).1,
      ((validCellIndex x hx y hy hv).2).symm, JReachB.base⟩
  | step hr hs ih =>
    rename_i s t
    obtain ⟨i0, hi0, hvi0, hse, hrB⟩ := ih
    subst hse
    obtain ⟨d, hd, hte, htv, ⟨q, hmid⟩, htemp⟩ := hs
    subst hte
    obtain ⟨hval, hx13, hy17, hcx, hcy, hpos⟩ := validIndexCell i0 hi0 hvi0
    rw [← hcy] at hd
    rw [← hcx, ← hcy] at htv hmid htemp hval ⊢
    obtain ⟨hb1, hb2, hb3, hb4, hb5, hb6, hb7, hb8⟩ :=
      jumpCoordBounds _ hx13 _ hy17 d hd ⟨hval, htv⟩
    have hmidv := wf_player_valid hwf hb1 hb2 hb3 hb4 hmid
    obtain ⟨p, hp, hcase⟩ := jumpCoordToIdx _ hx13 _ hy17 d hd
      ⟨hval, htv, hmidv⟩
    have hctx : (((((index_to_pos i0).1.toNat : Int) + d.2.2.1).toNat :
        Int)) = ((index_to_pos i0).1.toNat : Int) + d.2.2.1 := by omega
    have hcty : (((((index_to_pos i0).2.toNat : Int) + d.2.2.2).toNat :
        Int)) = ((index_to_pos i0).2.toNat : Int) + d.2.2.2 := by omega
    have hcmx : (((((index_to_pos i0).1.toNat : Int) + d.1).toNat :
        Int)) = ((index_to_pos i0).1.toNat : Int) + d.1 := by omega
    have hcmy : (((((index_to_pos i0).2.toNat : Int) + d.2.1).toNat :
        Int)) = ((index_to_pos i0).2.toNat : Int) + d.2.1 := by omega
    have htx13 : ((((index_to_pos i0).1.toNat : Int) + d.2.2.1).toNat) <
        13 := by omega
    have hty17 : ((((index_to_pos i0).2.toNat : Int) + d.2.2.2).toNat) <
        17 := by omega
    have hmx13 : ((((index_to_pos i0).1.toNat : Int) + d.1).toNat) <
        13 := by omega
    have hmy17 : ((((index_to_pos i0).2.toNat : Int) + d.2.1).toNat) <
        17 := by omega
    rw [← hctx, ← hcty] at htv htemp ⊢
    rw [← hcmx, ← hcmy] at hmid hmidv
    obtain ⟨hvt, hidxt⟩ := validCellIndex _ htx13 _ hty17 htv
    obtain ⟨hvm, hidxm⟩ := validCellIndex _ hmx13 _ hmy17 hmidv
    have hq1 : q ≤ 1 := by
      have hh := (hwf _ hmx13 _ hmy17).1 hmidv
      rw [hmid] at hh
      rcases hh with h | h | h
      · exact absurd h (fun hc => Tile.noConfusion hc)
      · injection h with h1; omega
      · injection h with h1; omega
    have hoccm : (InternalGameState.fromExternal g).occupied_bb.get_bit
        (pos_to_index ((((index_to_pos i0).1.toNat : Int) + d.1).toNat)
          ((((index_to_pos i0).2.toNat : Int) + d.2.1).toNat)) = true :=
      (fromExternal_occ_at g _ _ hmx13 hmy17).mpr ⟨q, hmid, hq1⟩
    have hempt : (BB_INVALID.bitnot.bitand
        (InternalGameState.fromExternal g).empty_bb).get_bit
        (pos_to_index ((((index_to_pos i0).1.toNat : Int) +
            d.2.2.1).toNat)
          ((((index_to_pos i0).2.toNat : Int) + d.2.2.2).toNat)) = true :=
      (fromExternal_emp_at g hwf _ _ htx13 hty17 htv).mpr htemp
    rcases hcase with ⟨et, em, hlt⟩ | ⟨es, em, hlt⟩
    · rw [hpos] at et em hlt
      refine ⟨i0 + p.2, hlt, ?_, ?_, JReachB.step hrB ?_⟩
      · rw [← et]; exact hvt
      · rw [← et, hidxt]
      · refine ⟨hlt, ?_, ?_⟩
        · rw [← et]; exact hempt
        · have hocc' : (InternalGameState.fromExternal
              g).occupied_bb.get_bit (i0 + p.1) = true := by
            rw [← em]; exact hoccm
          have hp' : p = ((1 : Nat), (2 : Nat)) ∨ p = (13, 26) ∨
              p = (14, 28) := by simpa using hp
          rcases hp' with rfl | rfl | rfl
          · exact Or.inl ⟨rfl, hocc'⟩
          · exact Or.inr (Or.inl ⟨rfl, hocc'⟩)
          · exact Or.inr (Or.inr (Or.inl ⟨rfl, hocc'⟩))
    · rw [hpos] at es hlt
      refine ⟨_, pos_to_index_lt _ _, hvt, hidxt.symm,
        JReachB.step hrB ?_⟩
      refine ⟨pos_to_index_lt _ _, hempt, ?_⟩
      have hocc' : (InternalGameState.fromExternal g).occupied_bb.get_bit
          (pos_to_index ((((index_to_pos i0).1.toNat : Int) +
              d.2.2.1).toNat)
            ((((index_to_pos i0).2.toNat : Int) + d.2.2.2).toNat) +
          p.1) = true := by
        rw [← em]; exact hoccm
      have hp' : p = ((1 : Nat), (2 : Nat)) ∨ p = (13, 26) ∨
          p = (14, 28) := by simpa using hp
      rcases hp' with rfl | rfl | rfl
      · exact Or.inr (Or.inr (Or.inr (Or.inl ⟨es, hocc'⟩)))
      · exact Or.inr (Or.inr (Or.inr (Or.inr (Or.inl ⟨es, hocc'⟩))))
      · exact Or.inr (Or.inr (Or.inr (Or.inr (Or.inr ⟨es, hocc'⟩))))

theorem index_eq_of_coords_eq {i j : Nat} (hi : i < 256) (hj : j < 256)
    (hvi : BB_INVALID.get_bit i = false) (hvj : BB_INVALID.get_bit j = false)
    (h : index_to_pos i = index_to_pos j) : i = j := by
  obtain ⟨_, _, _, hcxi, hcyi, hposi⟩ := validIndexCell i hi hvi
  obtain ⟨_, _, _, hcxj, hcyj, hposj⟩ := validIndexCell j hj hvj
  have e1 : (index_to_pos i).1 = (index_to_pos j).1 := by rw [h]
  have e2 : (index_to_pos i).2 = (index_to_pos j).2 := by rw [h]
  have ex : (index_to_pos i).1.toNat = (index_to_pos j).1.toNat := by omega
  have ey : (index_to_pos i).2.toNat = (index_to_pos j).2.toNat := by omega
  rw [← hposi, ← hposj, ex, ey]

theorem slideDirs_nonzero {y : Int} {d : Int × Int}
    (hd : d ∈ GameState.slideDirs y) : ¬(d.1 = 0 ∧ d.2 = 0) := by
  intro hc
  have hd' : d = (-1, 0) ∨ d = (1, 0) ∨
      d = (Int.tmod (-y) 2 + 1, 1) ∨ d = (Int.tmod (-y) 2, 1) ∨
      d = (Int.tmod (-y) 2 + 1, -1) ∨ d = (Int.tmod (-y) 2, -1) := by
    simpa [GameState.slideDirs] using hd
  obtain ⟨h1, h2⟩ := hc
  rcases hd' with rfl | rfl | rfl | rfl | rfl | rfl <;> simp at h1 h2

theorem addSlides_fold_bit (empty : Bitboard) (frm : Nat) :
    ∀ (l : List Nat) (res : Bitboard) (j : Nat), j < 256 →
      ((l.foldl (fun acc slide =>
            let dst := (frm + slide) % 256
            if empty.get_bit dst then acc.set_bit dst else acc) res).get_bit
          j = true ↔
        res.get_bit j = true ∨
          ∃ o ∈ l, j = (frm + o) % 256 ∧ empty.get_bit j = true) := by
  intro l
  induction l with
  | nil =>
    intro res j hj
    simp
  | cons o t ih =>
    intro res j hj
    simp only [List.foldl_cons]
    by_cases hc : empty.get_bit ((frm + o) % 256) = true
    · rw [if_pos hc, ih _ j hj, Bitboard.get_bit_set_bit _ hj
        (Nat.mod_lt _ (by norm_num))]
      simp only [Bool.or_eq_true, beq_iff_eq]
      constructor
      · rintro ((rfl | hres) | ⟨o', ho', rfl, hemp⟩)
        · exact Or.inr ⟨o, List.mem_cons_self o t, rfl, hc⟩
        · exact Or.inl hres
        · exact Or.inr ⟨o', List.mem_cons_of_mem _ ho', rfl, hemp⟩
      · rintro (hres | ⟨o', ho', rfl, hemp⟩)
        · exact Or.inl (Or.inr hres)
        · rcases List.mem_cons.mp ho' with rfl | ho''
          · exact Or.inl (Or.inl rfl)
          · exact Or.inr ⟨o', ho'', rfl, hemp⟩
    · rw [if_neg hc, ih _ j hj]
      constructor
      · rintro (hres | ⟨o', ho', rfl, hemp⟩)
        · exact Or.inl hres
        · exact Or.inr ⟨o', List.mem_cons_of_mem _ ho', rfl, hemp⟩
      · rintro (hres | ⟨o', ho', rfl, hemp⟩)
        · exact Or.inl hres
        · rcases List.mem_cons.mp ho' with rfl | ho''
          · exact absurd hemp hc
          · exact Or.inr ⟨o', ho'', rfl, hemp⟩

theorem addSlides_bit (empty : Bitboard) (frm : Nat) (res : Bitboard)
    (j : Nat) (hj : j < 256) :
    ((InternalGameState.addSlides empty frm res).get_bit j = true ↔
      res.get_bit j = true ∨
        ∃ o ∈ InternalGameState.slideOffsets, j = (frm + o) % 256 ∧
          empty.get_bit j = true) :=
  addSlides_fold_bit empty frm InternalGameState.slideOffsets res j hj

theorem slideFold_mem (s : GameState) (x y : Int) :
    ∀ (l : List (Int × Int)) (acc : List Move) (mv : Move),
      (mv ∈ l.foldl (fun acc d =>
          if ¬ GameState.is_valid_location (x + d.1) (y + d.2) then acc
          else if s.get (x + d.1) (y + d.2) = Tile.Empty then
            acc ++ [⟨(x, y), (x + d.1, y + d.2)⟩]
          else acc) acc ↔
        mv ∈ acc ∨ ∃ d ∈ l, mv = ⟨(x, y), (x + d.1, y + d.2)⟩ ∧
          GameState.is_valid_location (x + d.1) (y + d.2) = true ∧
          s.get (x + d.1) (y + d.2) = Tile.Empty) := by
  intro l
  induction l with
  | nil => intro acc mv; simp
  | cons d t ih =>
    intro acc mv
    simp only [List.foldl_cons]
    by_cases hval : GameState.is_valid_location (x + d.1) (y + d.2) = true
    · rw [if_neg (not_not_intro hval)]
      by_cases hemp : s.get (x + d.1) (y + d.2) = Tile.Empty
      · rw [if_pos hemp, ih _ mv]
        simp only [List.mem_append, List.mem_cons, List.not_mem_nil,
          or_false]
        constructor
        · rintro ((hacc | rfl) | ⟨d', hd', rfl, hv', he'⟩)
          · exact Or.inl hacc
          · exact Or.inr ⟨d, Or.inl rfl, rfl, hval, hemp⟩
          · exact Or.inr ⟨d', Or.inr hd', rfl, hv', he'⟩
        · rintro (hacc | ⟨d', hd', rfl, hv', he'⟩)
          · exact Or.inl (Or.inl hacc)
          · rcases hd' with rfl | hd''
            · exact Or.inl (Or.inr rfl)
            · exact Or.inr ⟨d', hd'', rfl, hv', he'⟩
      · rw [if_neg hemp, ih _ mv]
        simp only [List.mem_cons]
        constructor
        · rintro (hacc | ⟨d', hd', rfl, hv', he'⟩)
          · exact Or.inl hacc
          · exact Or.inr ⟨d', Or.inr hd', rfl, hv', he'⟩
        · rintro (hacc | ⟨d', hd', rfl, hv', he'⟩)
          · exact Or.inl hacc
          · rcases hd' with rfl | hd''
            · exact absurd he' hemp
            · exact Or.inr ⟨d', hd'', rfl, hv', he'⟩
    · rw [if_pos hval, ih _ mv]
      simp only [List.mem_cons]
      constructor
      · rintro (hacc | ⟨d', hd', rfl, hv', he'⟩)
        · exact Or.inl hacc
        · exact Or.inr ⟨d', Or.inr hd', rfl, hv', he'⟩
      · rintro (hacc | ⟨d', hd', rfl, hv', he'⟩)
        · exact Or.inl hacc
        · rcases hd' with rfl | hd''
          · exact absurd hv' hval
          · exact Or.inr ⟨d', hd'', rfl, hv', he'⟩

theorem moves_from_mem (g : GameState) (x y : Int) (mv : Move) :
    mv ∈ g.moves_from x y ↔
      mv ∈ GameState.movesFromLoop g x y 512 [(x, y)] [] ∨
        ∃ d ∈ GameState.slideDirs y, mv = ⟨(x, y), (x + d.1, y + d.2)⟩ ∧
          GameState.is_valid_location (x + d.1) (y + d.2) = true ∧
          g.get (x + d.1) (y + d.2) = Tile.Empty :=
  slideFold_mem g x y (GameState.slideDirs y)
    (GameState.movesFromLoop g x y 512 [(x, y)] []) mv

theorem jumps_spec (g : GameState) (x y : Int)
    (hv : GameState.is_valid_location x y = true)
    (hso : ∃ p, g.get x y = Tile.Player p) :
    (∀ mv ∈ GameState.movesFromLoop g x y 512 [(x, y)] [],
        mv.fr = (x, y) ∧ JReachC g (x, y) mv.dst ∧ mv.dst ≠ (x, y) ∧
        GameState.is_valid_location mv.dst.1 mv.dst.2 = true ∧
        g.get mv.dst.1 mv.dst.2 = Tile.Empty) ∧
      (∀ u, JReachC g (x, y) u → u = (x, y) ∨
        (⟨(x, y), u⟩ : Move) ∈ GameState.movesFromLoop g x y 512
          [(x, y)] []) := by
  obtain ⟨hsound, hclosed⟩ := movesFromLoop_spec g x y hso 512 [(x, y)] []
    (by simp)
    (by intro c hc; simp at hc; subst hc; exact JReachC.base)
    (by intro c hc; simp at hc; exact Or.inl hc)
    (by intro c hc; simp at hc; subst hc; exact ⟨hv, rfl⟩)
    (by intro mv hmv; simp at hmv)
    (by
      intro t ht
      rcases ht with rfl | h
      · exact Or.inl (by simp)
      · simp at h)
    (by simp)
  refine ⟨hsound, ?_⟩
  intro u h
  induction h with
  | base => exact Or.inl rfl
  | step hr hs ih =>
    right
    rcases ih with rfl | hmem
    · exact hclosed _ (Or.inl rfl) _ hs
    · exact hclosed _ (Or.inr hmem) _ hs

/-- **C2.**  Move-generation equivalence: on a well-formed state, for a cell
`(x, y)` occupied by the side to move, the bitboard fixed-point generator
`InternalGameState::reachable_from` marks exactly the valid cell indices
that appear as destinations of the reference BFS generator
`GameState::moves_from` at the same cell. -/
theorem C2_reachable_matches_reference_bfs (g : GameState)
    (hwf : g.WellFormed) (x y : Nat) (hx : x < 13) (hy : y < 17)
    (hv : GameState.is_valid_location (x : Int) (y : Int) = true)
    (hocc : g.get (x : Int) (y : Int) = Tile.Player g.current_player) :
    ∀ i, i < 256 →
      (((InternalGameState.fromExternal g).reachable_from
          (pos_to_index x y)).get_bit i = true ↔
        BB_INVALID.get_bit i = false ∧
          ∃ mv ∈ g.moves_from (x : Int) (y : Int),
            mv.dst = index_to_pos i) := by
  intro i hi
  obtain ⟨hvfrm, hcoords⟩ := validCellIndex x hx y hy hv
  have hfrm : pos_to_index x y < 256 := pos_to_index_lt x y
  have hwocc : (InternalGameState.fromExternal g).occupied_bb.Wf :=
    Bitboard.wf_bitor (fromExternal_wf g).1 (fromExternal_wf g).2
  have hso : ∃ p, g.get (x : Int) (y : Int) = Tile.Player p := ⟨_, hocc⟩
  obtain ⟨hsound, hcomplete⟩ := jumps_spec g (x : Int) (y : Int) hv hso
  have hrdef : (InternalGameState.fromExternal g).reachable_from
      (pos_to_index x y) =
      (InternalGameState.addSlides
        (BB_INVALID.bitnot.bitand
          (InternalGameState.fromExternal g).empty_bb)
        (pos_to_index x y)
        (InternalGameState.jumpLoop
          (InternalGameState.fromExternal g).occupied_bb
          (BB_INVALID.bitnot.bitand
            (InternalGameState.fromExternal g).empty_bb)
          257 Bitboard.default
          (Bitboard.bit (pos_to_index x y)))).unset_bit
        (pos_to_index x y) := rfl
  rw [hrdef, Bitboard.get_bit_unset_bit _ hi hfrm, Bool.and_eq_true,
    Bool.not_eq_true', beq_eq_false_iff_ne, addSlides_bit _ _ _ i hi]
  constructor
  · rintro ⟨hne, hJ | ⟨o, ho, rfl, hempi⟩⟩
    · have hreachB : JReachB (InternalGameState.fromExternal g).occupied_bb
          (BB_INVALID.bitnot.bitand
            (InternalGameState.fromExternal g).empty_bb)
          (pos_to_index x y) i :=
        jumpLoop_sound hwocc (pos_to_index x y) 257 Bitboard.default
          (Bitboard.bit (pos_to_index x y)) (Bitboard.wf_bit _)
          (fun k hk hb => by
            rw [Bitboard.get_bit_bit hk hfrm] at hb
            have hke : k = pos_to_index x y := by simpa using hb
            rw [hke]
            exact JReachB.base) i hi hJ
      obtain ⟨_, hvi, hrc⟩ := bridgeBtoC g hwf x y hx hy hv i hreachB
      rcases hcomplete _ hrc with heq | hmem
      · exact absurd (index_eq_of_coords_eq hi hfrm hvi hvfrm
          (by rw [heq, hcoords])) hne
      · refine ⟨hvi, ⟨((x : Int), (y : Int)), index_to_pos i⟩, ?_, rfl⟩
        exact (moves_from_mem g _ _ _).mpr (Or.inl hmem)
    · have hvi : BB_INVALID.get_bit ((pos_to_index x y + o) % 256) =
          false := emp_valid _ _ hempi
      obtain ⟨d, hd, hde⟩ := slideIdxToCoord (pos_to_index x y) hfrm o ho
        ⟨hvfrm, hvi⟩
      have hd' : d ∈ GameState.slideDirs (y : Int) := by
        have e2 : (index_to_pos (pos_to_index x y)).2 = (y : Int) := by
          rw [hcoords]
        rwa [e2] at hd
      have hde' : index_to_pos ((pos_to_index x y + o) % 256) =
          ((x : Int) + d.1, (y : Int) + d.2) := by
        rw [hde, hcoords]
      obtain ⟨hvali, h13, h17, hcxi, hcyi, hposi⟩ :=
        validIndexCell _ hi hvi
      refine ⟨hvi, ⟨((x : Int), (y : Int)),
        ((x : Int) + d.1, (y : Int) + d.2)⟩, ?_, hde'.symm⟩
      refine (moves_from_mem g _ _ _).mpr (Or.inr ⟨d, hd', rfl, ?_, ?_⟩)
      · have hvt := hvali
        rw [hde'] at hvt
        exact hvt
      · have he := (emp_at_idx g hwf hi hvi).mp hempi
        rw [hde'] at he
        exact he
  · rintro ⟨hvi, mv, hmv, hdst⟩
    rcases (moves_from_mem g _ _ mv).mp hmv with hjump |
      ⟨d, hd, rfl, hvt, het⟩
    · obtain ⟨hfr, hrc, hnd, hvald, hempd⟩ := hsound mv hjump
      obtain ⟨j, hj, hvj, hdj, hB⟩ := bridgeCtoB g hwf x y hx hy hv
        mv.dst hrc
      have hij : i = j := index_eq_of_coords_eq hi hj hvi hvj
        (by rw [← hdst]; exact hdj)
      refine ⟨?_, Or.inl ?_⟩
      · intro hif
        apply hnd
        rw [hdst, hif, hcoords]
      · rw [hij]
        exact jumpLoop_complete hwocc _ hfrm j hB
    · have hdst' : ((x : Int) + d.1, (y : Int) + d.2) = index_to_pos i :=
        hdst
      obtain ⟨hb1, hb2, hb3, hb4, o, ho, hoe⟩ :=
        slideCoordToIdx x hx y hy d hd ⟨hv, hvt⟩
      have hctx : ((((x : Int) + d.1).toNat : Nat) : Int) =
          (x : Int) + d.1 := by omega
      have hcty : ((((y : Int) + d.2).toNat : Nat) : Int) =
          (y : Int) + d.2 := by omega
      have htx : ((x : Int) + d.1).toNat < 13 := by omega
      have hty : ((y : Int) + d.2).toNat < 17 := by omega
      have hvt' : GameState.is_valid_location
          ((((x : Int) + d.1).toNat : Nat) : Int)
          ((((y : Int) + d.2).toNat : Nat) : Int) = true := by
        rw [hctx, hcty]
        exact hvt
      obtain ⟨hvb, hcoordsT⟩ := validCellIndex _ htx _ hty hvt'
      have hie : i = pos_to_index (((x : Int) + d.1).toNat)
          (((y : Int) + d.2).toNat) := by
        refine index_eq_of_coords_eq hi (pos_to_index_lt _ _) hvi hvb ?_
        rw [← hdst', hcoordsT, hctx, hcty]
      refine ⟨?_, Or.inr ⟨o, ho, ?_, ?_⟩⟩
      · intro hif
        have hp : ((x : Int) + d.1, (y : Int) + d.2) =
            ((x : Int), (y : Int)) := by
          rw [hdst', hif, hcoords]
        have h1 : (x : Int) + d.1 = (x : Int) := congrArg Prod.fst hp
        have h2 : (y : Int) + d.2 = (y : Int) := congrArg Prod.snd hp
        exact slideDirs_nonzero hd ⟨by omega, by omega⟩
      · rw [hie]
        exact hoe
      · rw [hie]
        refine (fromExternal_emp_at g hwf _ _ htx hty hvt').mpr ?_
        rw [hctx, hcty]
        exact het

set_option maxRecDepth 10000 in
theorem C2_reachable_matches_reference_bfs_witness :
    GameState.defaultState.WellFormed ∧ (6 : Nat) < 13 ∧ (4 : Nat) < 17 ∧
      GameState.is_valid_location ((6 : Nat) : Int) ((4 : Nat) : Int) =
        true ∧
      GameState.defaultState.get ((6 : Nat) : Int) ((4 : Nat) : Int) =
        Tile.Player GameState.defaultState.current_player ∧
      (100 : Nat) < 256 ∧
      (((InternalGameState.fromExternal
            GameState.defaultState).reachable_from
          (pos_to_index 6 4)).get_bit 100 = true ↔
        BB_INVALID.get_bit 100 = false ∧
          ∃ mv ∈ GameState.defaultState.moves_from ((6 : Nat) : Int)
              ((4 : Nat) : Int),
            mv.dst = index_to_pos 100) :=
  ⟨by decide, by decide, by decide, by decide, by decide, by decide,
    C2_reachable_matches_reference_bfs GameState.defaultState (by decide)
      6 4 (by decide) (by decide) (by decide) (by decide) 100 (by decide)⟩
